import Mathlib

/-!
# fastchunking: Rabin-Karp content-defined chunking

A shallow embedding of `lib/characterhash.h` and `lib/rabinkarp.h`.

* `unsigned char` is `Byte = Fin 256`.
* `uint32` values are naturals; every arithmetic operation of the hash update
  is reduced modulo `2^32` explicitly (`mul32`, `add32`, `sub32`).
* `int` members that only ever count upwards from zero (window head, window
  level, content lengths, lane indices) are naturals; `window_size` keeps the
  signed type of the constructor argument.  Lengths and positions are not
  wrapped (contents are shorter than `2^31` bytes).
* A raw buffer (`unsigned char*`, the parallel per-lane arrays) is a function
  from the index to the stored value; buffers that the constructors allocate
  without initialising them are arguments of the constructors.
* The pseudo random generator behind the substitution table lives in
  `mersennetwister.h`; the stream of numbers it produces is an argument.
-/

namespace FastChunking

/-- The type `unsigned char`. -/
abbrev Byte := Fin 256

/-! ## 32-bit unsigned arithmetic -/

/-- Wrapping `uint32` multiplication. -/
def mul32 (a b : Nat) : Nat := (a * b) % 2 ^ 32

/-- Wrapping `uint32` addition. -/
def add32 (a b : Nat) : Nat := (a + b) % 2 ^ 32

/-- Wrapping `uint32` subtraction. -/
def sub32 (a b : Nat) : Nat := (a + (2 ^ 32 - b % 2 ^ 32)) % 2 ^ 32

/-! ## characterhash.h -/

/-- The template function `maskfnc<uint32>`: `x = 1 << (bits - 1)`, result `x ^ (x - 1)`.
The two assertions `bits > 0` and `bits <= 32` are preconditions. -/
def maskfnc (bits : Nat) : Nat :=
  let x := (1 <<< (bits - 1)) % 2 ^ 32
  x ^^^ sub32 x 1

/-- The class `CharacterHash`: the table `hashvalues`, one entry per character. -/
structure CharacterHash where
  hashvalues : Byte → Nat

/-- The constructor of `CharacterHash<hashvaluetype, unsigned char>`.
`sizeof_hashvaluetype` is `sizeof(hashvaluetype)`; `randomgenerator k` and
`randomgeneratorbase k` are the `k`-th numbers drawn from the seeded generators. -/
def CharacterHash.new (sizeof_hashvaluetype : Nat) (randomgenerator randomgeneratorbase : Nat → Nat) :
    Except String CharacterHash :=
  if sizeof_hashvaluetype ≤ 4 then
    .ok { hashvalues := fun k => randomgenerator k.val }
  else if sizeof_hashvaluetype = 8 then
    .ok { hashvalues := fun k => randomgeneratorbase k.val ||| (randomgenerator k.val <<< 32) }
  else
    .error "unsupported hash value type"

/-! ## rabinkarp.h: class RabinKarp -/

/-- The constant `RabinKarp::B`. -/
def B : Nat := 37

/-- The constant `RabinKarp::WORDSIZE`. -/
def WORDSIZE : Nat := 29

/-- The members of class `RabinKarp` (the unused member `n` is left out). -/
structure RabinKarp where
  hasher : CharacterHash
  HASHMASK : Nat
  BtoN : Nat
  window_size : Int

/-- The loop of the constructor: `iterations` times `BtoN *= B; BtoN &= HASHMASK`. -/
def BtoN_loop (HASHMASK : Nat) : Nat → Nat → Nat
  | 0, BtoN => BtoN
  | iterations + 1, BtoN => BtoN_loop HASHMASK iterations (mul32 BtoN B &&& HASHMASK)

/-- The constructor `RabinKarp(my_window_size, seed)` once the table is built:
the member initialisers followed by the loop, which runs for `i = 0 .. window_size - 1`. -/
def RabinKarp.init (my_window_size : Int) (hasher : CharacterHash) : RabinKarp :=
  { hasher := hasher
    HASHMASK := maskfnc WORDSIZE
    BtoN := BtoN_loop (maskfnc WORDSIZE) my_window_size.toNat 1
    window_size := my_window_size }

/-- The constructor `RabinKarp(my_window_size, seed)`; the table is a
`CharacterHash<uint32, unsigned char>` (`sizeof(uint32) = 4`), the seed is
represented by the numbers the seeded generator draws. -/
def RabinKarp.new (my_window_size : Int) (randomgenerator : Nat → Nat) : Except String RabinKarp :=
  (CharacterHash.new 4 randomgenerator (fun _ => 0)).map (RabinKarp.init my_window_size)

/-- The four variables `_update` receives by reference: one rolling window. -/
structure WindowState where
  hashvalue : Nat
  window : Nat → Byte
  window_head : Nat
  window_level : Nat

/-- The method `RabinKarp::_update`.  The buffer is a total function here, so
the access `window[window_head]` always has a value; its bound is made explicit
in `RabinKarp.checked_update`. -/
def RabinKarp._update (self : RabinKarp) (b : Byte) (s : WindowState) : WindowState :=
  { hashvalue :=
      if (s.window_level : Int) ≠ self.window_size then
        add32 (mul32 B s.hashvalue) (self.hasher.hashvalues b) &&& self.HASHMASK
      else
        sub32 (add32 (mul32 B s.hashvalue) (self.hasher.hashvalues b))
          (mul32 self.BtoN (self.hasher.hashvalues (s.window s.window_head))) &&& self.HASHMASK
    window := Function.update s.window s.window_head b
    window_head := if (s.window_head : Int) = self.window_size - 1 then 0 else s.window_head + 1
    window_level := if (s.window_level : Int) ≠ self.window_size then s.window_level + 1
      else s.window_level }

/-- A loop `for (k = 0; k < count; ++k) _update(0, ...)` on one window. -/
def RabinKarp.update_zeros (self : RabinKarp) : Nat → WindowState → WindowState
  | 0, s => s
  | count + 1, s => RabinKarp.update_zeros self count (self._update 0 s)

/-- The method `RabinKarp::_compute_threshold`.  The `double` argument is an
exact rational; the product with `HASHMASK + 1` is exact, and the conversion
`static_cast<uint32>` discards the fractional part (rounds towards zero). -/
def RabinKarp._compute_threshold (self : RabinKarp) (my_threshold : ℚ) : Nat :=
  let product : ℚ := my_threshold * ((add32 self.HASHMASK 1 : Nat) : ℚ)
  (Int.tdiv product.num product.den).toNat % 2 ^ 32

/-! ## rabinkarp.h: class RabinKarpHash -/

/-- The members of class `RabinKarpHash`, derived from `RabinKarp`. -/
structure RabinKarpHash extends RabinKarp, WindowState where
  threshold : Nat

/-- The constructor `RabinKarpHash(my_window_size, seed)`.  The buffer `window`
comes from `malloc` and the member `threshold` is not initialised: their
contents are arbitrary and given as arguments. -/
def RabinKarpHash.init (my_window_size : Int) (hasher : CharacterHash)
    (window : Nat → Byte) (threshold : Nat) : RabinKarpHash :=
  { toRabinKarp := RabinKarp.init my_window_size hasher
    hashvalue := 0
    window := window
    window_head := 0
    window_level := 0
    threshold := threshold }

/-- The constructor `RabinKarpHash(my_window_size, seed)` with the table built by
`CharacterHash`. -/
def RabinKarpHash.new (my_window_size : Int) (randomgenerator : Nat → Nat)
    (window : Nat → Byte) (threshold : Nat) : Except String RabinKarpHash :=
  (CharacterHash.new 4 randomgenerator (fun _ => 0)).map
    (fun hasher => RabinKarpHash.init my_window_size hasher window threshold)

/-- The method `RabinKarpHash::set_threshold`. -/
def RabinKarpHash.set_threshold (self : RabinKarpHash) (my_threshold : ℚ) : RabinKarpHash :=
  { self with threshold := self.toRabinKarp._compute_threshold my_threshold }

/-- The method `RabinKarpHash::update`. -/
def RabinKarpHash.update (self : RabinKarpHash) (b : Byte) : RabinKarpHash :=
  { self with toWindowState := self.toRabinKarp._update b self.toWindowState }

/-- The first loop of `next_chunk_boundaries`: `prepend_bytes` times `update(0)`. -/
def RabinKarpHash.prepend_loop : Nat → RabinKarpHash → RabinKarpHash
  | 0, self => self
  | prepend_bytes + 1, self => RabinKarpHash.prepend_loop prepend_bytes (self.update 0)

/-- The second loop of `next_chunk_boundaries`, started at index `i` with the
remaining characters `cstr[i..]` and the list `results` collected so far. -/
def RabinKarpHash.content_loop : List Byte → Nat → RabinKarpHash → List Nat →
    RabinKarpHash × List Nat
  | [], _, self, results => (self, results)
  | c :: cstr, i, self, results =>
    let self1 := self.update c
    let results1 :=
      if (self1.window_level : Int) = self1.window_size ∧ self1.hashvalue < self1.threshold then
        results ++ [i + 1]
      else results
    RabinKarpHash.content_loop cstr (i + 1) self1 results1

/-- The method `RabinKarpHash::next_chunk_boundaries`: the instance after the
call and the returned list. -/
def RabinKarpHash.next_chunk_boundaries (self : RabinKarpHash) (str : List Byte)
    (prepend_bytes : Nat) : RabinKarpHash × List Nat :=
  RabinKarpHash.content_loop str 0 (RabinKarpHash.prepend_loop prepend_bytes self) []

/-! ## rabinkarp.h: class RabinKarpMultiThresholdHash -/

/-- The members of class `RabinKarpMultiThresholdHash`, derived from `RabinKarp`.
The arrays are indexed by the threshold index. -/
structure RabinKarpMultiThresholdHash extends RabinKarp where
  thresholds_count : Nat
  thresholds : Nat → Nat
  threshold_window_levels : Nat → Nat
  threshold_window_heads : Nat → Nat
  threshold_content_lengths : Nat → Nat
  threshold_hashvalues : Nat → Nat
  threshold_windows : Nat → Nat → Byte
  least_restrictive_required_chunker_index : Nat

namespace RabinKarpMultiThresholdHash

/-- The constructor once the table is built and the relative thresholds are
resolved: `thresholds` lists the absolute thresholds, `windows` gives the
contents of the freshly allocated (uninitialised) window buffers. -/
def init (my_window_size : Int) (hasher : CharacterHash) (thresholds : List Nat)
    (windows : Nat → Nat → Byte) : RabinKarpMultiThresholdHash :=
  { toRabinKarp := RabinKarp.init my_window_size hasher
    thresholds_count := thresholds.length
    thresholds := fun i => thresholds.getD i 0
    threshold_window_levels := fun _ => 0
    threshold_window_heads := fun _ => 0
    threshold_content_lengths := fun _ => 0
    threshold_hashvalues := fun _ => 0
    threshold_windows := windows
    least_restrictive_required_chunker_index := 0 }

/-- The constructor `RabinKarpMultiThresholdHash(my_window_size, seed, my_thresholds)`.
The array expression `new unsigned char[window_size]`, evaluated once per
threshold, throws `std::bad_array_new_length` for a negative size. -/
def new (my_window_size : Int) (randomgenerator : Nat → Nat) (my_thresholds : List ℚ)
    (windows : Nat → Nat → Byte) : Except String RabinKarpMultiThresholdHash :=
  (RabinKarp.new my_window_size randomgenerator).bind (fun base =>
    if my_window_size < 0 ∧ 0 < my_thresholds.length then
      .error "std::bad_array_new_length"
    else
      .ok (init my_window_size base.hasher (my_thresholds.map base._compute_threshold) windows))

/-- The window of the chunker with index `j`: the entries `j` of the four
arrays that a call of `_update` receives by reference. -/
def lane (self : RabinKarpMultiThresholdHash) (j : Nat) : WindowState :=
  { hashvalue := self.threshold_hashvalues j
    window := self.threshold_windows j
    window_head := self.threshold_window_heads j
    window_level := self.threshold_window_levels j }

/-- Write a window back to the entries `j` of the four arrays. -/
def set_lane (self : RabinKarpMultiThresholdHash) (j : Nat) (w : WindowState) :
    RabinKarpMultiThresholdHash :=
  { self with
    threshold_hashvalues := Function.update self.threshold_hashvalues j w.hashvalue
    threshold_windows := Function.update self.threshold_windows j w.window
    threshold_window_heads := Function.update self.threshold_window_heads j w.window_head
    threshold_window_levels := Function.update self.threshold_window_levels j w.window_level }

/-- The inner loop `for (i = 0; i < prepend_bytes; ++i) _update(0, ...)` on the
arrays at index `j`. -/
def update_zeros_lane (self : RabinKarpMultiThresholdHash) (j prepend_bytes : Nat) :
    RabinKarpMultiThresholdHash :=
  self.set_lane j (self.toRabinKarp.update_zeros prepend_bytes (self.lane j))

/-- The loop "prepend bytes as specified" over the threshold indices. -/
def prepend_loop (prepend_bytes : Nat) : List Nat → RabinKarpMultiThresholdHash →
    RabinKarpMultiThresholdHash
  | [], self => self
  | threshold_index :: rest, self =>
    prepend_loop prepend_bytes rest (self.update_zeros_lane threshold_index prepend_bytes)

/-- The index values of `for (t = count - 1; t >= least; --t)`, in order. -/
def required_indices (count least : Nat) : List Nat :=
  (List.range' least (count - least)).reverse

/-- The first two statements of the body of the loop "let current byte be
processed by each required chunker": the call of `_update` on the arrays at
`threshold_index` and `threshold_content_lengths[threshold_index]++`. -/
def update_lane (b : Byte) (threshold_index : Nat) (self : RabinKarpMultiThresholdHash) :
    RabinKarpMultiThresholdHash :=
  let self1 := self.set_lane threshold_index (self.toRabinKarp._update b (self.lane threshold_index))
  { self1 with
    threshold_content_lengths := Function.update self1.threshold_content_lengths threshold_index
      (self1.threshold_content_lengths threshold_index + 1) }

/-- The loop "let current byte be processed by each required chunker": the
remaining indices, the current value of
`new_least_restrictive_required_chunker_index`, and the instance. -/
def update_loop (b : Byte) : List Nat → Nat → RabinKarpMultiThresholdHash →
    RabinKarpMultiThresholdHash × Nat
  | [], new_least, self => (self, new_least)
  | threshold_index :: rest, new_least, self =>
    let self1 := self.update_lane b threshold_index
    let new_least1 :=
      if (self1.threshold_content_lengths threshold_index : Int) < self1.window_size then
        threshold_index
      else new_least
    update_loop b rest new_least1 self1

/-- The loop that determines `matching_threshold_index`; `none` stands for `-1`.
Leaving the recursion is the `break`. -/
def search_loop (self : RabinKarpMultiThresholdHash) : List Nat → Option Nat → Option Nat
  | [], matching_threshold_index => matching_threshold_index
  | threshold_index :: rest, matching_threshold_index =>
    let used_chunker_index := max threshold_index self.least_restrictive_required_chunker_index
    if (self.threshold_window_levels used_chunker_index : Int) = self.window_size
        ∧ self.threshold_hashvalues used_chunker_index < self.thresholds threshold_index then
      search_loop self rest (some threshold_index)
    else if (self.threshold_content_lengths used_chunker_index : Int) ≥ self.window_size then
      matching_threshold_index
    else
      search_loop self rest matching_threshold_index

/-- The body of the loop "reset chunkers for lower-level nodes": `prepend_bytes`
zero bytes are fed to the chunker `j` and `threshold_content_lengths[j] = 0`. -/
def reset_lane (prepend_bytes j : Nat) (self : RabinKarpMultiThresholdHash) :
    RabinKarpMultiThresholdHash :=
  let self1 := self.update_zeros_lane j prepend_bytes
  { self1 with threshold_content_lengths := Function.update self1.threshold_content_lengths j 0 }

/-- The loop "reset chunkers for lower-level nodes" over `j = 0 .. matching - 1`. -/
def reset_loop (prepend_bytes : Nat) : List Nat → RabinKarpMultiThresholdHash →
    RabinKarpMultiThresholdHash
  | [], self => self
  | j :: rest, self => reset_loop prepend_bytes rest (self.reset_lane prepend_bytes j)

/-- The body of the copy loop: hash value, window (`memcpy` of the first
`window_size` bytes), head and level of the chunker
`least_restrictive_required_chunker_index` are copied to the chunker `j`. -/
def copy_lane (j : Nat) (self : RabinKarpMultiThresholdHash) : RabinKarpMultiThresholdHash :=
  let source := self.lane self.least_restrictive_required_chunker_index
  self.set_lane j { source with
    window := fun k => if (k : Int) < self.window_size then source.window k
      else self.threshold_windows j k }

/-- The loop that copies the state of the chunker
`least_restrictive_required_chunker_index` to the chunkers
`j = matching .. least_restrictive_required_chunker_index - 1`. -/
def copy_loop : List Nat → RabinKarpMultiThresholdHash → RabinKarpMultiThresholdHash
  | [], self => self
  | j :: rest, self => copy_loop rest (self.copy_lane j)

/-- The first part of the body of the loop "process content byte by byte": the
byte `b` is processed by each required chunker and
`least_restrictive_required_chunker_index` is assigned. -/
def update_required (b : Byte) (self : RabinKarpMultiThresholdHash) :
    RabinKarpMultiThresholdHash :=
  let updated := update_loop b
    (required_indices self.thresholds_count self.least_restrictive_required_chunker_index)
    (self.thresholds_count - 1) self
  { updated.1 with least_restrictive_required_chunker_index := updated.2 }

/-- The second part of the body: the value of `matching_threshold_index` after
the search over `threshold_index = 0 .. thresholds_count - 1`. -/
def matching_threshold_index (self : RabinKarpMultiThresholdHash) : Option Nat :=
  search_loop self (List.range self.thresholds_count) none

/-- The third part of the body, executed when `matching_threshold_index != -1`:
the reset of the lower chunkers, the copies, and the reset of
`least_restrictive_required_chunker_index`. -/
def record_boundary (prepend_bytes matching : Nat) (self : RabinKarpMultiThresholdHash) :
    RabinKarpMultiThresholdHash :=
  let self2 := reset_loop prepend_bytes (List.range matching) self
  let self3 := copy_loop
    (List.range' matching (self2.least_restrictive_required_chunker_index - matching)) self2
  { self3 with least_restrictive_required_chunker_index := 0 }

/-- The body of the loop "process content byte by byte" for the byte
`content_str[i] = b`, with the list `boundaries` collected so far. -/
def process_byte (prepend_bytes : Nat) (i : Nat) (b : Byte)
    (self : RabinKarpMultiThresholdHash) (boundaries : List Nat) :
    RabinKarpMultiThresholdHash × List Nat :=
  let self1 := update_required b self
  match matching_threshold_index self1 with
  | none => (self1, boundaries)
  | some matching => (record_boundary prepend_bytes matching self1, boundaries ++ [i + 1, matching])

/-- The loop "process content byte by byte", started at index `i` with the
remaining bytes of the content. -/
def content_loop (prepend_bytes : Nat) : List Byte → Nat → RabinKarpMultiThresholdHash →
    List Nat → RabinKarpMultiThresholdHash × List Nat
  | [], _, self, boundaries => (self, boundaries)
  | b :: content_str, i, self, boundaries =>
    let next := process_byte prepend_bytes i b self boundaries
    content_loop prepend_bytes content_str (i + 1) next.1 next.2

/-- The method `next_chunk_boundaries_with_thresholds`: the instance after the
call and the returned flat list `position, level, position, level, ...`. -/
def next_chunk_boundaries_with_thresholds (self : RabinKarpMultiThresholdHash)
    (content : List Byte) (prepend_bytes : Nat) : RabinKarpMultiThresholdHash × List Nat :=
  content_loop prepend_bytes content 0
    (prepend_loop prepend_bytes (List.range self.thresholds_count) self) []

/-! ## The chunker without the lane-skipping optimisation

The same algorithm with `least_restrictive_required_chunker_index` held at `0`:
every chunker is updated on every content byte, every threshold is tested on the
state of its own chunker, and no state is copied. -/

/-- The loop body of the unoptimised chunker. -/
def reference_process_byte (prepend_bytes : Nat) (i : Nat) (b : Byte)
    (self : RabinKarpMultiThresholdHash) (boundaries : List Nat) :
    RabinKarpMultiThresholdHash × List Nat :=
  let updated := update_loop b (required_indices self.thresholds_count 0)
    (self.thresholds_count - 1) self
  let self1 := { updated.1 with least_restrictive_required_chunker_index := 0 }
  match matching_threshold_index self1 with
  | none => (self1, boundaries)
  | some matching =>
    ({ reset_loop prepend_bytes (List.range matching) self1 with
        least_restrictive_required_chunker_index := 0 },
      boundaries ++ [i + 1, matching])

/-- The content loop of the unoptimised chunker. -/
def reference_content_loop (prepend_bytes : Nat) : List Byte → Nat →
    RabinKarpMultiThresholdHash → List Nat → RabinKarpMultiThresholdHash × List Nat
  | [], _, self, boundaries => (self, boundaries)
  | b :: content_str, i, self, boundaries =>
    let next := reference_process_byte prepend_bytes i b self boundaries
    reference_content_loop prepend_bytes content_str (i + 1) next.1 next.2

/-- The unoptimised counterpart of `next_chunk_boundaries_with_thresholds`. -/
def reference_next_chunk_boundaries_with_thresholds (self : RabinKarpMultiThresholdHash)
    (content : List Byte) (prepend_bytes : Nat) : RabinKarpMultiThresholdHash × List Nat :=
  reference_content_loop prepend_bytes content 0
    (prepend_loop prepend_bytes (List.range self.thresholds_count) self) []

end RabinKarpMultiThresholdHash

/-! ## The bounds of the window buffers

A window buffer is allocated with `window_size` bytes (`malloc(window_size)`,
`new unsigned char[window_size]`), so the accesses `window[window_head]` of
`_update` are defined only for `window_head < window_size`.  The functions of
this section repeat the methods above with that bound made explicit: the result
is `none` as soon as a call of `_update` accesses a buffer outside its bounds
(undefined behaviour in the source), and the result of the method otherwise. -/

/-- The method `RabinKarp::_update` with the bound of `window[window_head]`. -/
def RabinKarp.checked_update (self : RabinKarp) (b : Byte) (s : WindowState) :
    Option WindowState :=
  if (s.window_head : Int) < self.window_size then some (self._update b s) else none

/-- A loop `for (k = 0; k < count; ++k) _update(0, ...)` on one window, with the
buffer bound. -/
def RabinKarp.checked_update_zeros (self : RabinKarp) : Nat → WindowState → Option WindowState
  | 0, s => some s
  | count + 1, s =>
    match self.checked_update 0 s with
    | none => none
    | some s1 => RabinKarp.checked_update_zeros self count s1

/-- The method `RabinKarpHash::update` with the buffer bound. -/
def RabinKarpHash.checked_update (self : RabinKarpHash) (b : Byte) : Option RabinKarpHash :=
  match self.toRabinKarp.checked_update b self.toWindowState with
  | none => none
  | some w => some { self with toWindowState := w }

/-- The first loop of `next_chunk_boundaries` with the buffer bound. -/
def RabinKarpHash.checked_prepend_loop : Nat → RabinKarpHash → Option RabinKarpHash
  | 0, self => some self
  | prepend_bytes + 1, self =>
    match self.checked_update 0 with
    | none => none
    | some self1 => RabinKarpHash.checked_prepend_loop prepend_bytes self1

/-- The second loop of `next_chunk_boundaries` with the buffer bound. -/
def RabinKarpHash.checked_content_loop : List Byte → Nat → RabinKarpHash → List Nat →
    Option (RabinKarpHash × List Nat)
  | [], _, self, results => some (self, results)
  | c :: cstr, i, self, results =>
    match self.checked_update c with
    | none => none
    | some self1 =>
      let results1 :=
        if (self1.window_level : Int) = self1.window_size ∧ self1.hashvalue < self1.threshold then
          results ++ [i + 1]
        else results
      RabinKarpHash.checked_content_loop cstr (i + 1) self1 results1

/-- The method `RabinKarpHash::next_chunk_boundaries` with the buffer bound:
`none` if an access leaves the buffer, otherwise the instance after the call and
the returned list. -/
def RabinKarpHash.checked_next_chunk_boundaries (self : RabinKarpHash) (str : List Byte)
    (prepend_bytes : Nat) : Option (RabinKarpHash × List Nat) :=
  match RabinKarpHash.checked_prepend_loop prepend_bytes self with
  | none => none
  | some self1 => RabinKarpHash.checked_content_loop str 0 self1 []

namespace RabinKarpMultiThresholdHash

/-- The inner padding loop on the arrays at index `j`, with the buffer bound. -/
def checked_update_zeros_lane (self : RabinKarpMultiThresholdHash) (j prepend_bytes : Nat) :
    Option RabinKarpMultiThresholdHash :=
  match self.toRabinKarp.checked_update_zeros prepend_bytes (self.lane j) with
  | none => none
  | some w => some (self.set_lane j w)

/-- The loop "prepend bytes as specified" with the buffer bound. -/
def checked_prepend_loop (prepend_bytes : Nat) : List Nat → RabinKarpMultiThresholdHash →
    Option RabinKarpMultiThresholdHash
  | [], self => some self
  | threshold_index :: rest, self =>
    match self.checked_update_zeros_lane threshold_index prepend_bytes with
    | none => none
    | some self1 => checked_prepend_loop prepend_bytes rest self1

/-- The call of `_update` on the arrays at `threshold_index` and the increment of
`threshold_content_lengths[threshold_index]`, with the buffer bound. -/
def checked_update_lane (b : Byte) (threshold_index : Nat) (self : RabinKarpMultiThresholdHash) :
    Option RabinKarpMultiThresholdHash :=
  match self.toRabinKarp.checked_update b (self.lane threshold_index) with
  | none => none
  | some w =>
    let self1 := self.set_lane threshold_index w
    some { self1 with
      threshold_content_lengths := Function.update self1.threshold_content_lengths threshold_index
        (self1.threshold_content_lengths threshold_index + 1) }

/-- The loop "let current byte be processed by each required chunker" with the
buffer bound. -/
def checked_update_loop (b : Byte) : List Nat → Nat → RabinKarpMultiThresholdHash →
    Option (RabinKarpMultiThresholdHash × Nat)
  | [], new_least, self => some (self, new_least)
  | threshold_index :: rest, new_least, self =>
    match self.checked_update_lane b threshold_index with
    | none => none
    | some self1 =>
      let new_least1 :=
        if (self1.threshold_content_lengths threshold_index : Int) < self1.window_size then
          threshold_index
        else new_least
      checked_update_loop b rest new_least1 self1

/-- The body of the loop "reset chunkers for lower-level nodes" with the buffer
bound. -/
def checked_reset_lane (prepend_bytes j : Nat) (self : RabinKarpMultiThresholdHash) :
    Option RabinKarpMultiThresholdHash :=
  match self.checked_update_zeros_lane j prepend_bytes with
  | none => none
  | some self1 =>
    some { self1 with
      threshold_content_lengths := Function.update self1.threshold_content_lengths j 0 }

/-- The loop "reset chunkers for lower-level nodes" with the buffer bound. -/
def checked_reset_loop (prepend_bytes : Nat) : List Nat → RabinKarpMultiThresholdHash →
    Option RabinKarpMultiThresholdHash
  | [], self => some self
  | j :: rest, self =>
    match self.checked_reset_lane prepend_bytes j with
    | none => none
    | some self1 => checked_reset_loop prepend_bytes rest self1

/-- The body of the loop "process content byte by byte" with the buffer bound.
The copy loop is reached only after a call of `_update` within bounds, so
`window_size >= 1` there and its `memcpy` of `window_size` bytes between two
buffers of `window_size` bytes stays within bounds. -/
def checked_process_byte (prepend_bytes : Nat) (i : Nat) (b : Byte)
    (self : RabinKarpMultiThresholdHash) (boundaries : List Nat) :
    Option (RabinKarpMultiThresholdHash × List Nat) :=
  match checked_update_loop b
      (required_indices self.thresholds_count self.least_restrictive_required_chunker_index)
      (self.thresholds_count - 1) self with
  | none => none
  | some updated =>
    let self1 : RabinKarpMultiThresholdHash :=
      { updated.1 with least_restrictive_required_chunker_index := updated.2 }
    match matching_threshold_index self1 with
    | none => some (self1, boundaries)
    | some matching =>
      match checked_reset_loop prepend_bytes (List.range matching) self1 with
      | none => none
      | some self2 =>
        let self3 := copy_loop
          (List.range' matching (self2.least_restrictive_required_chunker_index - matching)) self2
        some ({ self3 with least_restrictive_required_chunker_index := 0 },
          boundaries ++ [i + 1, matching])

/-- The loop "process content byte by byte" with the buffer bound. -/
def checked_content_loop (prepend_bytes : Nat) : List Byte → Nat →
    RabinKarpMultiThresholdHash → List Nat → Option (RabinKarpMultiThresholdHash × List Nat)
  | [], _, self, boundaries => some (self, boundaries)
  | b :: content_str, i, self, boundaries =>
    match checked_process_byte prepend_bytes i b self boundaries with
    | none => none
    | some next => checked_content_loop prepend_bytes content_str (i + 1) next.1 next.2

/-- The method `next_chunk_boundaries_with_thresholds` with the buffer bound:
`none` if an access leaves a buffer, otherwise the instance after the call and
the returned flat list. -/
def checked_next_chunk_boundaries_with_thresholds (self : RabinKarpMultiThresholdHash)
    (content : List Byte) (prepend_bytes : Nat) :
    Option (RabinKarpMultiThresholdHash × List Nat) :=
  match checked_prepend_loop prepend_bytes (List.range self.thresholds_count) self with
  | none => none
  | some self1 => checked_content_loop prepend_bytes content 0 self1 []

end RabinKarpMultiThresholdHash

/-! ## Specification-side definitions -/

/-- Successive calls of `_update`, one for each byte of `bytes` in order. -/
def RabinKarp.update_all (self : RabinKarp) (bytes : List Byte) (s : WindowState) : WindowState :=
  bytes.foldl (fun s b => self._update b s) s

/-- The Rabin-Karp hash (base 37, modulo `2^29`, substitution table `T`) of a
window `w` given oldest byte first: the newest byte has weight `37^0`. -/
def rolling_hash (T : Byte → Nat) (w : List Byte) : Nat :=
  ((List.range w.length).map (fun k => 37 ^ k * T (w.getD (w.length - 1 - k) 0))).sum % 2 ^ 29

/-- The last `n` bytes of a byte string (all of it when it is shorter). -/
def last_bytes (n : Nat) (l : List Byte) : List Byte := l.drop (l.length - n)

/-- The boundaries of the single-level chunker as the specification describes
them: the positions `i + 1` at which at least `window_size` bytes, padding
included, have been consumed and the hash of the last `window_size` bytes of the
padded content up to index `i` is below the threshold. -/
def reference_boundaries (T : Byte → Nat) (window_size theta : Nat) (c : List Byte) (p : Nat) :
    List Nat :=
  ((List.range c.length).filter (fun i =>
    decide (window_size ≤ p + i + 1) &&
      decide (rolling_hash T (last_bytes window_size (List.replicate p 0 ++ c.take (i + 1)))
        < theta))).map (fun i => i + 1)

/-- The flat list `position, level, position, level, ...` read as pairs. -/
def pairs : List Nat → List (Nat × Nat)
  | position :: level :: rest => (position, level) :: pairs rest
  | _ => []

/-! ## Auxiliary notions for the proofs -/

/-- The weighted sum behind the hash for a window given newest byte first. -/
def poly_hash (T : Byte → Nat) : List Byte → Nat
  | [] => 0
  | b :: older => T b + 37 * poly_hash T older

/-- The window `s` is the result of consuming the bytes `recent` (newest first):
its level, hash value and the logical content of its circular buffer are those
determined by the last `ws` bytes of `recent`. -/
structure Tracks (ws : Nat) (T : Byte → Nat) (recent : List Byte) (s : WindowState) : Prop where
  head_lt : s.window_head < ws
  level_eq : s.window_level = min recent.length ws
  hash_eq : s.hashvalue = poly_hash T (recent.take ws) % 2 ^ 29
  window_eq : ∀ k, k < recent.length → k < ws →
    recent[k]? = some (s.window ((s.window_head + ws - 1 - k) % ws))

/-- The flat list of a list of `(position, level)` pairs. -/
def flatten_pairs : List (Nat × Nat) → List Nat
  | [] => []
  | pr :: rest => pr.1 :: pr.2 :: flatten_pairs rest

/-- The boundaries the content loop of the hierarchical chunker records, as pairs:
byte after byte, the level found by the search after the required chunkers
have consumed the byte. -/
def RabinKarpMultiThresholdHash.trace (prepend_bytes : Nat) : List Byte → Nat →
    RabinKarpMultiThresholdHash → List (Nat × Nat)
  | [], _, _ => []
  | b :: content_str, i, self =>
    match (self.update_required b).matching_threshold_index with
    | none => trace prepend_bytes content_str (i + 1) (self.update_required b)
    | some matching =>
      (i + 1, matching) :: trace prepend_bytes content_str (i + 1)
        ((self.update_required b).record_boundary prepend_bytes matching)

/-- The instance `s'` has the configuration of `s`: the same members of the base
class, the same number of thresholds and the same thresholds. -/
structure SameConfig (s s' : RabinKarpMultiThresholdHash) : Prop where
  base : s'.toRabinKarp = s.toRabinKarp
  count : s'.thresholds_count = s.thresholds_count
  thresholds : s'.thresholds = s.thresholds

/-- The instance after a sequence of calls of `next_chunk_boundaries_with_thresholds`,
each given by its content and its `prepend_bytes`. -/
def RabinKarpMultiThresholdHash.after_calls (self : RabinKarpMultiThresholdHash)
    (calls : List (List Byte × Nat)) : RabinKarpMultiThresholdHash :=
  calls.foldl (fun s call => (s.next_chunk_boundaries_with_thresholds call.1 call.2).1) self

/-- The invariant of the skip index `least_restrictive_required_chunker_index`: it
is a valid index, the content lengths are non-decreasing in the index, every
chunker below the skip index has a content length of at least `window_size`, and
the skip index is `0` or the last index. -/
structure SkipInv (s : RabinKarpMultiThresholdHash) : Prop where
  index_lt : s.least_restrictive_required_chunker_index < s.thresholds_count
  mono : ∀ j j', j ≤ j' → j' < s.thresholds_count →
    s.threshold_content_lengths j ≤ s.threshold_content_lengths j'
  skipped_full : ∀ j, j < s.least_restrictive_required_chunker_index →
    s.window_size ≤ (s.threshold_content_lengths j : Int)
  index_cases : s.least_restrictive_required_chunker_index = 0
    ∨ s.least_restrictive_required_chunker_index = s.thresholds_count - 1

/-- The condition the search loop tests for `threshold_index = t`: the chunker
`max(t, least_restrictive_required_chunker_index)` has a full window and its hash
value is below `thresholds[t]`. -/
def RabinKarpMultiThresholdHash.threshold_matches (self : RabinKarpMultiThresholdHash)
    (t : Nat) : Prop :=
  (self.threshold_window_levels (max t self.least_restrictive_required_chunker_index) : Int)
      = self.window_size
    ∧ self.threshold_hashvalues (max t self.least_restrictive_required_chunker_index)
      < self.thresholds t

/-- The search loop without the early `break`: every index of the list is
tested, a later match overwrites an earlier one. -/
def RabinKarpMultiThresholdHash.exhaustive_loop (self : RabinKarpMultiThresholdHash) :
    List Nat → Option Nat → Option Nat
  | [], matching_threshold_index => matching_threshold_index
  | threshold_index :: rest, matching_threshold_index =>
    let used_chunker_index := max threshold_index self.least_restrictive_required_chunker_index
    if (self.threshold_window_levels used_chunker_index : Int) = self.window_size
        ∧ self.threshold_hashvalues used_chunker_index < self.thresholds threshold_index then
      exhaustive_loop self rest (some threshold_index)
    else
      exhaustive_loop self rest matching_threshold_index

/-- The level an exhaustive search over `threshold_index = 0 .. thresholds_count - 1`
selects. -/
def RabinKarpMultiThresholdHash.exhaustive_matching_threshold_index
    (self : RabinKarpMultiThresholdHash) : Option Nat :=
  self.exhaustive_loop (List.range self.thresholds_count) none

/-- The invariant of a run of the hierarchical chunker with table `T` and window
size `ws`, where `hist` lists (newest first) the bytes the last chunker has
consumed: every chunker tracks some sequence of bytes, and for a chunker that is
not skipped the newest `min(content_length, ws)` bytes of that sequence are the
newest bytes of `hist`. -/
structure LaneInv (ws : Nat) (T : Byte → Nat) (s : RabinKarpMultiThresholdHash)
    (hist : List Byte) : Prop where
  skip : SkipInv s
  base : s.toRabinKarp = RabinKarp.init ws ⟨T⟩
  lanes : ∀ j, j < s.thresholds_count → ∃ h, Tracks ws T h (s.lane j) ∧
    (s.least_restrictive_required_chunker_index ≤ j →
      h.take (min (s.threshold_content_lengths j) ws) =
          hist.take (min (s.threshold_content_lengths j) ws)
        ∧ min (s.threshold_content_lengths j) ws ≤ h.length)
  top : Tracks ws T hist (s.lane (s.thresholds_count - 1))

/-- The positions at which a window that has consumed `hist` (newest first) and
then consumes the bytes `cs`, counted from index `i`, is full with a hash below
`theta`. -/
def window_positions (T : Byte → Nat) (ws theta : Nat) : List Byte → List Byte → Nat → List Nat
  | _, [], _ => []
  | hist, b :: cs, i =>
    (if ws ≤ hist.length + 1 ∧ poly_hash T ((b :: hist).take ws) % 2 ^ 29 < theta then [i + 1]
      else []) ++ window_positions T ws theta (b :: hist) cs (i + 1)

/-! ## Concrete data for the examples -/

/-- A substitution table for the examples.  Its entries for the bytes `0 .. 3`
are the first four outputs of the generator MT19937 seeded with `1`
(`1791095845, 4282876139, 3093770124, 4005303368`) reduced to 29 bits, which is
what `CharacterHash` stores for `seed = 1` with a standard Mersenne twister;
the other entries are not used by the examples. -/
def example_table : Byte → Nat :=
  fun b => [180483109, 524779755, 409415564, 247206984].getD b.val 0

/-! ## Theorems -/

/-! ### Arithmetic modulo `2^29` under 32-bit wrap-around -/

theorem maskfnc_WORDSIZE : maskfnc WORDSIZE = 2 ^ 29 - 1 := by decide

theorem cast_mod32 (x : Nat) : ((x % 2 ^ 32 : Nat) : ZMod (2 ^ 29)) = (x : ZMod (2 ^ 29)) := by
  rw [ZMod.natCast_eq_natCast_iff']
  exact Nat.mod_mod_of_dvd x (by norm_num)

theorem cast_mod29 (x : Nat) : ((x % 2 ^ 29 : Nat) : ZMod (2 ^ 29)) = (x : ZMod (2 ^ 29)) :=
  ZMod.natCast_mod x (2 ^ 29)

theorem cast_mask (x : Nat) : ((x &&& (2 ^ 29 - 1) : Nat) : ZMod (2 ^ 29)) = (x : ZMod (2 ^ 29)) := by
  rw [Nat.and_pow_two_sub_one_eq_mod, cast_mod29]

theorem cast_mul32 (a b : Nat) : ((mul32 a b : Nat) : ZMod (2 ^ 29)) = (a : ZMod (2 ^ 29)) * b := by
  rw [mul32, cast_mod32, Nat.cast_mul]

theorem cast_add32 (a b : Nat) : ((add32 a b : Nat) : ZMod (2 ^ 29)) = (a : ZMod (2 ^ 29)) + b := by
  rw [add32, cast_mod32, Nat.cast_add]

theorem cast_two_pow_32 : ((2 ^ 32 : Nat) : ZMod (2 ^ 29)) = 0 := by
  rw [ZMod.natCast_zmod_eq_zero_iff_dvd]
  norm_num

theorem cast_sub32 (a b : Nat) : ((sub32 a b : Nat) : ZMod (2 ^ 29)) = (a : ZMod (2 ^ 29)) - b := by
  have hb : b % 2 ^ 32 ≤ 2 ^ 32 := (Nat.mod_lt b (by norm_num)).le
  rw [sub32, cast_mod32, Nat.cast_add, Nat.cast_sub hb, cast_two_pow_32, cast_mod32]
  ring

theorem mask_lt (x : Nat) : x &&& (2 ^ 29 - 1) < 2 ^ 29 := by
  rw [Nat.and_pow_two_sub_one_eq_mod]
  exact Nat.mod_lt x (by norm_num)

theorem eq_mod_of_cast_eq {x y : Nat} (hx : x < 2 ^ 29)
    (h : (x : ZMod (2 ^ 29)) = (y : ZMod (2 ^ 29))) : x = y % 2 ^ 29 := by
  rw [ZMod.natCast_eq_natCast_iff', Nat.mod_eq_of_lt hx] at h
  exact h

theorem cast_BtoN_loop (n acc : Nat) :
    ((BtoN_loop (2 ^ 29 - 1) n acc : Nat) : ZMod (2 ^ 29)) = (acc : ZMod (2 ^ 29)) * 37 ^ n := by
  induction n generalizing acc with
  | zero => simp [BtoN_loop]
  | succ n ih =>
    rw [BtoN_loop, ih, cast_mask, cast_mul32, B]
    push_cast
    ring

/-! ### The rolling window invariant -/

theorem update_eq (ws : Nat) (T : Byte → Nat) (b : Byte) (s : WindowState) :
    (RabinKarp.init ws ⟨T⟩)._update b s =
      { hashvalue :=
          if s.window_level ≠ ws then add32 (mul32 37 s.hashvalue) (T b) &&& (2 ^ 29 - 1)
          else sub32 (add32 (mul32 37 s.hashvalue) (T b))
            (mul32 (BtoN_loop (2 ^ 29 - 1) ws 1) (T (s.window s.window_head))) &&& (2 ^ 29 - 1)
        window := Function.update s.window s.window_head b
        window_head := if s.window_head + 1 = ws then 0 else s.window_head + 1
        window_level := if s.window_level ≠ ws then s.window_level + 1 else s.window_level } := by
  have h1 : ((s.window_head : Int) = (ws : Int) - 1) ↔ (s.window_head + 1 = ws) := by
    constructor <;> intro h <;> omega
  simp only [RabinKarp._update, RabinKarp.init, maskfnc_WORDSIZE, B, h1, ne_eq, Nat.cast_inj,
    Int.toNat_ofNat]

theorem poly_hash_take_succ (T : Byte → Nat) (l : List Byte) (n : Nat) (b : Byte)
    (h : l[n]? = some b) :
    poly_hash T (l.take (n + 1)) = poly_hash T (l.take n) + 37 ^ n * T b := by
  induction l generalizing n with
  | nil => simp at h
  | cons a l ih =>
    cases n with
    | zero =>
      simp at h
      simp [poly_hash, h]
    | succ n =>
      simp at h
      simp only [List.take_succ_cons, poly_hash, ih n h]
      ring

theorem Tracks.update {ws : Nat} (hws : 1 ≤ ws) {T : Byte → Nat} {recent : List Byte}
    {s : WindowState} (b : Byte) (h : Tracks ws T recent s) :
    Tracks ws T (b :: recent) ((RabinKarp.init ws ⟨T⟩)._update b s) := by
  rw [update_eq]
  obtain ⟨hh, hl, hq, hw⟩ := h
  cases ws with
  | zero => omega
  | succ m =>
  refine ⟨?_, ?_, ?_, ?_⟩
  · dsimp only
    split <;> omega
  · dsimp only
    rw [hl, List.length_cons]
    split <;> omega
  · dsimp only
    rw [List.take_succ_cons, poly_hash]
    apply eq_mod_of_cast_eq
    · split <;> exact mask_lt _
    by_cases hlev : s.window_level = m + 1
    · have hlen : m + 1 ≤ recent.length := by omega
      have hout := hw m (by omega) (by omega)
      have hidx : (s.window_head + (m + 1) - 1 - m) % (m + 1) = s.window_head := by
        rw [show s.window_head + (m + 1) - 1 - m = s.window_head by omega]
        exact Nat.mod_eq_of_lt hh
      rw [hidx] at hout
      have htake := poly_hash_take_succ T recent m _ hout
      rw [if_neg (by simpa using hlev), cast_mask, cast_sub32, cast_add32, cast_mul32, cast_mul32,
        cast_BtoN_loop, hq, cast_mod29, htake]
      push_cast
      ring
    · have hlen : recent.length < m + 1 := by omega
      have htake : recent.take (m + 1) = recent.take m := by
        rw [List.take_of_length_le (by omega), List.take_of_length_le (by omega)]
      rw [if_pos hlev, cast_mask, cast_add32, cast_mul32, hq, cast_mod29, htake]
      push_cast
      ring
  · intro k hk hkw
    dsimp only
    cases k with
    | zero =>
      have hidx : ((if s.window_head + 1 = m + 1 then 0 else s.window_head + 1) + (m + 1) - 1 - 0)
          % (m + 1) = s.window_head := by
        split
        · rw [Nat.mod_eq_of_lt (by omega)]; omega
        · rw [show s.window_head + 1 + (m + 1) - 1 - 0 = s.window_head + (m + 1) by omega,
            Nat.add_mod_right]
          exact Nat.mod_eq_of_lt hh
      rw [hidx]
      simp
    | succ k =>
      rw [List.length_cons] at hk
      have hidx : ((if s.window_head + 1 = m + 1 then 0 else s.window_head + 1) + (m + 1) - 1
          - (k + 1)) % (m + 1) = (s.window_head + (m + 1) - 1 - k) % (m + 1) := by
        split
        · rw [show s.window_head + (m + 1) - 1 - k = (m - (k + 1)) + (m + 1) by omega,
            Nat.add_mod_right]
          congr 1
          omega
        · congr 1
          omega
      have hne : (s.window_head + (m + 1) - 1 - k) % (m + 1) ≠ s.window_head := by
        intro heq
        by_cases hc : k < s.window_head
        · rw [show s.window_head + (m + 1) - 1 - k = (s.window_head - (k + 1)) + (m + 1) by omega,
            Nat.add_mod_right] at heq
          · rw [Nat.mod_eq_of_lt (by omega)] at heq
            omega
        · rw [Nat.mod_eq_of_lt (by omega)] at heq
          omega
      rw [hidx, Function.update_noteq hne, List.getElem?_cons_succ]
      exact hw k (by omega) (by omega)

theorem Tracks.fresh {ws : Nat} (hws : 1 ≤ ws) (T : Byte → Nat) (window : Nat → Byte) :
    Tracks ws T [] ⟨0, window, 0, 0⟩ :=
  ⟨by simpa using hws, by simp, by simp [poly_hash], by simp⟩

theorem Tracks.update_all {ws : Nat} (hws : 1 ≤ ws) {T : Byte → Nat} (bs : List Byte) :
    ∀ {recent : List Byte} {s : WindowState}, Tracks ws T recent s →
      Tracks ws T (bs.reverse ++ recent) ((RabinKarp.init ws ⟨T⟩).update_all bs s) := by
  induction bs with
  | nil => intro recent s h; simpa [RabinKarp.update_all] using h
  | cons b bs ih =>
    intro recent s h
    have h2 := ih (h.update hws b)
    simpa [RabinKarp.update_all] using h2

theorem update_zeros_eq (rk : RabinKarp) (n : Nat) (s : WindowState) :
    rk.update_zeros n s = rk.update_all (List.replicate n 0) s := by
  induction n generalizing s with
  | zero => rfl
  | succ n ih => simp [RabinKarp.update_zeros, ih, RabinKarp.update_all, List.replicate_succ]

theorem poly_hash_eq_sum (T : Byte → Nat) (l : List Byte) :
    poly_hash T l = ((List.range l.length).map (fun k => 37 ^ k * T (l.getD k 0))).sum := by
  induction l with
  | nil => simp [poly_hash]
  | cons a l ih =>
    rw [poly_hash, ih, List.length_cons, List.range_succ_eq_map, List.map_cons, List.sum_cons,
      List.map_map, ← List.sum_map_mul_left]
    simp only [pow_zero, one_mul, List.getD_cons_zero, Function.comp_def, Nat.succ_eq_add_one,
      List.getD_cons_succ, pow_succ]
    congr 3
    funext k
    ring

theorem poly_hash_reverse_take (T : Byte → Nat) (bs : List Byte) (ws : Nat) :
    poly_hash T (bs.reverse.take ws) =
      ((List.range (min bs.length ws)).map
        (fun k => 37 ^ k * T (bs.getD (bs.length - 1 - k) 0))).sum := by
  rw [poly_hash_eq_sum]
  have hlen : (bs.reverse.take ws).length = min bs.length ws := by
    simp [Nat.min_comm]
  rw [hlen]
  congr 1
  apply List.map_congr_left
  intro k hk
  rw [List.mem_range] at hk
  have hk1 : k < bs.length := by omega
  have hk2 : k < ws := by omega
  simp only [List.getD_eq_getElem?_getD, List.getElem?_take_of_lt hk2, List.getElem?_reverse hk1]

theorem rolling_hash_last_bytes (T : Byte → Nat) (bs : List Byte) (ws : Nat) :
    rolling_hash T (last_bytes ws bs) = poly_hash T (bs.reverse.take ws) % 2 ^ 29 := by
  have h := poly_hash_reverse_take T (last_bytes ws bs) (last_bytes ws bs).length
  rw [List.take_of_length_le (by simp), Nat.min_self] at h
  rw [rolling_hash, ← h, last_bytes, List.reverse_drop]
  by_cases hle : ws ≤ bs.length
  · rw [show bs.length - (bs.length - ws) = ws by omega]
  · rw [List.take_of_length_le (by rw [List.length_reverse]; omega),
      List.take_of_length_le (by rw [List.length_reverse]; omega)]

/-- Claim C1: for every `window_size >= 1`, every table `T` and every byte sequence
`b_1 .. b_n` fed one by one into a fresh window (hash 0, level 0, head 0, any
buffer content), the hash value after the `n`-th update is
`sum_{k < m} 37^k * T[b_{n-k}] mod 2^29` with `m = min n window_size`; once
`n >= window_size` it is the rolling hash of exactly the last `window_size` bytes. -/
theorem update_window_invariant (ws : Nat) (hws : 1 ≤ ws) (T : Byte → Nat) (window : Nat → Byte)
    (bs : List Byte) :
    ((RabinKarp.init ws ⟨T⟩).update_all bs ⟨0, window, 0, 0⟩).hashvalue =
        ((List.range (min bs.length ws)).map
          (fun k => 37 ^ k * T (bs.getD (bs.length - 1 - k) 0))).sum % 2 ^ 29
      ∧ (ws ≤ bs.length →
        ((RabinKarp.init ws ⟨T⟩).update_all bs ⟨0, window, 0, 0⟩).hashvalue =
          rolling_hash T (last_bytes ws bs)) := by
  have h := (Tracks.fresh hws T window).update_all hws bs
  rw [List.append_nil] at h
  refine ⟨?_, fun _ => ?_⟩
  · rw [h.hash_eq, poly_hash_reverse_take]
  · rw [h.hash_eq, rolling_hash_last_bytes]

theorem update_window_invariant_witness :
    1 ≤ 3 ∧
    (((RabinKarp.init ((3 : Nat) : Int) ⟨example_table⟩).update_all [1, 3, 2, 3, 0]
        ⟨0, fun _ => 0, 0, 0⟩).hashvalue =
        ((List.range (min [(1 : Byte), 3, 2, 3, 0].length 3)).map
          (fun k => 37 ^ k * example_table
            ([(1 : Byte), 3, 2, 3, 0].getD ([(1 : Byte), 3, 2, 3, 0].length - 1 - k) 0))).sum % 2 ^ 29
      ∧ (3 ≤ [(1 : Byte), 3, 2, 3, 0].length →
        ((RabinKarp.init ((3 : Nat) : Int) ⟨example_table⟩).update_all [1, 3, 2, 3, 0]
          ⟨0, fun _ => 0, 0, 0⟩).hashvalue =
          rolling_hash example_table (last_bytes 3 [1, 3, 2, 3, 0]))) :=
  ⟨by decide, update_window_invariant 3 (by decide) example_table (fun _ => 0) [1, 3, 2, 3, 0]⟩
/-! ### A single update step -/

theorem eq_emod_of_cast_eq {x : Nat} {y : Int} (hx : x < 2 ^ 29)
    (h : ((x : Int) : ZMod (2 ^ 29)) = (y : ZMod (2 ^ 29))) : (x : Int) = y % 2 ^ 29 := by
  rw [ZMod.intCast_eq_intCast_iff'] at h
  push_cast at h
  omega

/-- Claim C8: one call of `_update`, computed in wrapping 32-bit arithmetic and
masked with `HASHMASK`, yields `(37 * h + T[b]) mod 2^29` when the level differs
from `window_size`, and `(37 * h + T[b] - 37^window_size * T[o]) mod 2^29`
(subtraction over the integers, result in `[0, 2^29)`) when the window is full,
`o` being the byte stored at the head.  It holds for every window size, hash
value and table. -/
theorem update_step_exact (ws : Nat) (T : Byte → Nat) (b : Byte) (s : WindowState) :
    (s.window_level ≠ ws →
      (((RabinKarp.init ws ⟨T⟩)._update b s).hashvalue : Int) =
        (37 * (s.hashvalue : Int) + T b) % 2 ^ 29)
    ∧ (s.window_level = ws →
      (((RabinKarp.init ws ⟨T⟩)._update b s).hashvalue : Int) =
        (37 * (s.hashvalue : Int) + T b - 37 ^ ws * T (s.window s.window_head)) % 2 ^ 29) := by
  rw [update_eq]
  refine ⟨fun hlev => ?_, fun hlev => ?_⟩
  · apply eq_emod_of_cast_eq
    · rw [if_pos hlev]; exact mask_lt _
    · rw [if_pos hlev, Int.cast_natCast, cast_mask, cast_add32, cast_mul32]
      push_cast
      ring
  · apply eq_emod_of_cast_eq
    · rw [if_neg (by simpa using hlev)]; exact mask_lt _
    · rw [if_neg (by simpa using hlev), Int.cast_natCast, cast_mask, cast_sub32, cast_add32,
        cast_mul32, cast_mul32, cast_BtoN_loop]
      push_cast
      ring

/-! ### The single-level chunker -/

theorem RabinKarpHash.prepend_loop_eq (n : Nat) (self : RabinKarpHash) :
    RabinKarpHash.prepend_loop n self =
      { self with toWindowState :=
          self.toRabinKarp.update_all (List.replicate n 0) self.toWindowState } := by
  induction n generalizing self with
  | zero => rfl
  | succ n ih =>
    rw [RabinKarpHash.prepend_loop, ih]
    simp [RabinKarpHash.update, RabinKarp.update_all, List.replicate_succ]

/-- The boundaries found by the content loop, in terms of the bytes consumed before it. -/
theorem RabinKarpHash.content_loop_spec (ws : Nat) (hws : 1 ≤ ws) (T : Byte → Nat) (theta : Nat)
    (cs : List Byte) : ∀ (i : Nat) (self : RabinKarpHash) (results : List Nat)
    (recent : List Byte), self.toRabinKarp = RabinKarp.init ws ⟨T⟩ → self.threshold = theta →
    Tracks ws T recent self.toWindowState →
    (RabinKarpHash.content_loop cs i self results).2 =
      results ++ ((List.range cs.length).filter (fun j =>
        decide (ws ≤ recent.length + j + 1) &&
          decide (poly_hash T (((cs.take (j + 1)).reverse ++ recent).take ws) % 2 ^ 29 < theta))).map
        (fun j => i + j + 1) := by
  induction cs with
  | nil => intro i self results recent _ _ _; simp [RabinKarpHash.content_loop]
  | cons c cs ih =>
    intro i self results recent hrk hth htr
    have htr1 : Tracks ws T (c :: recent) (self.update c).toWindowState := by
      have := htr.update hws c
      simpa [RabinKarpHash.update, hrk] using this
    have hrk1 : (self.update c).toRabinKarp = RabinKarp.init ws ⟨T⟩ := by
      simpa [RabinKarpHash.update] using hrk
    have hth1 : (self.update c).threshold = theta := by
      simpa [RabinKarpHash.update] using hth
    rw [RabinKarpHash.content_loop]
    rw [ih (i + 1) (self.update c) _ (c :: recent) hrk1 hth1 htr1]
    have hcond : (((self.update c).window_level : Int) = (self.update c).window_size
        ∧ (self.update c).hashvalue < (self.update c).threshold) ↔
        (ws ≤ recent.length + 0 + 1 ∧
          poly_hash T ((((c :: cs).take (0 + 1)).reverse ++ recent).take ws) % 2 ^ 29 < theta) := by
      rw [hth1, htr1.hash_eq, htr1.level_eq, hrk1]
      simp only [RabinKarp.init, Nat.cast_inj, List.length_cons, List.take_succ_cons, List.take_zero,
        List.reverse_cons, List.reverse_nil, List.nil_append, List.singleton_append, Nat.add_zero,
        Nat.zero_add]
      constructor
      · rintro ⟨h1, h2⟩; exact ⟨by omega, h2⟩
      · rintro ⟨h1, h2⟩; exact ⟨by omega, h2⟩
    have hrange : List.range (c :: cs).length = 0 :: List.map Nat.succ (List.range cs.length) :=
      List.range_succ_eq_map cs.length
    rw [hrange, List.filter_cons, List.filter_map]
    by_cases hc : ((self.update c).window_level : Int) = (self.update c).window_size
        ∧ (self.update c).hashvalue < (self.update c).threshold
    · rw [if_pos hc]
      have hc' := hcond.mp hc
      rw [if_pos (by simpa using hc')]
      simp only [List.map_cons, List.append_assoc, List.singleton_append, Nat.add_zero]
      congr 2
      simp only [List.map_map, Function.comp_def, Nat.succ_eq_add_one, List.length_cons,
        List.take_succ_cons, List.reverse_cons, List.append_assoc, List.singleton_append]
      congr 1
      · funext j
        ring
      · congr 1
        funext j
        congr 3
        omega
    · rw [if_neg hc]
      have hc' := fun h => hc (hcond.mpr h)
      rw [if_neg (by simpa using hc')]
      simp only [List.map_map, Function.comp_def, Nat.succ_eq_add_one, List.length_cons,
        List.take_succ_cons, List.reverse_cons, List.append_assoc, List.singleton_append]
      congr 2
      · funext j
        ring
      · congr 1
        funext j
        congr 3
        omega

theorem next_chunk_boundaries_eq (ws : Nat) (hws : 1 ≤ ws) (T : Byte → Nat)
    (window : Nat → Byte) (theta : Nat) (c : List Byte) (p : Nat) :
    ((RabinKarpHash.init ws ⟨T⟩ window theta).next_chunk_boundaries c p).2 =
      reference_boundaries T ws theta c p := by
  have htr : Tracks ws T (List.replicate p 0)
      (RabinKarpHash.prepend_loop p (RabinKarpHash.init ws ⟨T⟩ window theta)).toWindowState := by
    have h := (Tracks.fresh hws T window).update_all hws (List.replicate p 0)
    rw [List.append_nil, List.reverse_replicate] at h
    rw [RabinKarpHash.prepend_loop_eq]
    exact h
  rw [RabinKarpHash.next_chunk_boundaries,
    RabinKarpHash.content_loop_spec ws hws T theta c 0 _ [] (List.replicate p 0)
      (by rw [RabinKarpHash.prepend_loop_eq]; rfl) (by rw [RabinKarpHash.prepend_loop_eq]; rfl) htr,
    reference_boundaries, List.nil_append]
  congr 1
  · funext j
    omega
  · congr 1
    funext j
    rw [rolling_hash_last_bytes, List.reverse_append, List.reverse_replicate, List.length_replicate]

theorem mem_reference_boundaries (T : Byte → Nat) (ws theta : Nat) (c : List Byte) (p pos : Nat) :
    pos ∈ reference_boundaries T ws theta c p ↔
      ∃ i, i < c.length ∧ pos = i + 1 ∧ ws ≤ p + i + 1 ∧
        rolling_hash T (last_bytes ws (List.replicate p 0 ++ c.take (i + 1))) < theta := by
  simp only [reference_boundaries, List.mem_map, List.mem_filter, List.mem_range,
    Bool.and_eq_true, decide_eq_true_eq]
  constructor
  · rintro ⟨i, ⟨hi, h1, h2⟩, rfl⟩
    exact ⟨i, hi, rfl, h1, h2⟩
  · rintro ⟨i, hi, rfl, h1, h2⟩
    exact ⟨i, ⟨hi, h1, h2⟩, rfl⟩

theorem reference_boundaries_increasing (T : Byte → Nat) (ws theta : Nat) (c : List Byte)
    (p : Nat) : (reference_boundaries T ws theta c p).Pairwise (fun a b => a < b) := by
  rw [reference_boundaries, List.pairwise_map]
  apply List.Pairwise.filter
  exact (List.pairwise_lt_range c.length).imp (fun h => Nat.succ_lt_succ h)

theorem last_bytes_append (n : Nat) (a b : List Byte) (h : n ≤ b.length) :
    last_bytes n (a ++ b) = last_bytes n b := by
  rw [last_bytes, last_bytes, List.length_append,
    show a.length + b.length - n = a.length + (b.length - n) by omega, ← List.drop_drop,
    List.drop_left]

theorem mem_next_chunk_boundaries_far (ws : Nat) (hws : 1 ≤ ws) (T : Byte → Nat)
    (window : Nat → Byte) (theta : Nat) (X S : List Byte) (p q : Nat) (hq1 : ws ≤ q)
    (hq2 : q ≤ S.length) :
    X.length + q ∈ ((RabinKarpHash.init ws ⟨T⟩ window theta).next_chunk_boundaries (X ++ S) p).2 ↔
      rolling_hash T (last_bytes ws (S.take q)) < theta := by
  have hlen : ws ≤ (S.take q).length := by rw [List.length_take]; omega
  have htake : (X ++ S).take (X.length + q) = X ++ S.take q := List.take_append q
  have hlast : last_bytes ws (List.replicate p 0 ++ (X ++ S).take (X.length + q)) =
      last_bytes ws (S.take q) := by
    rw [htake, ← List.append_assoc, last_bytes_append _ _ _ hlen]
  rw [next_chunk_boundaries_eq ws hws, mem_reference_boundaries]
  constructor
  · rintro ⟨i, _, hpos, _, h2⟩
    rw [← hpos, hlast] at h2
    exact h2
  · intro h
    refine ⟨X.length + q - 1, ?_, by omega, by omega, ?_⟩
    · rw [List.length_append]; omega
    · rw [show X.length + q - 1 + 1 = X.length + q by omega, hlast]
      exact h

/-- Claim C2: for a fresh single-level chunker with `window_size >= 1` and absolute
threshold `theta`, every content `c` and every `prepend_bytes = p`, the returned
list is the increasing list of all positions `i + 1` (`i < |c|`) such that
`p + i + 1 >= window_size` and the Rabin-Karp hash of the last `window_size`
bytes of `p` zero bytes followed by `c[0..i]` is below `theta`; no other position
is reported and none twice. -/
theorem next_chunk_boundaries_characterisation (ws : Nat) (hws : 1 ≤ ws) (T : Byte → Nat)
    (window : Nat → Byte) (theta : Nat) (c : List Byte) (p : Nat) :
    ((RabinKarpHash.init ws ⟨T⟩ window theta).next_chunk_boundaries c p).2 =
        reference_boundaries T ws theta c p
    ∧ (((RabinKarpHash.init ws ⟨T⟩ window theta).next_chunk_boundaries c p).2).Pairwise
        (fun a b => a < b)
    ∧ ∀ pos, pos ∈ ((RabinKarpHash.init ws ⟨T⟩ window theta).next_chunk_boundaries c p).2 ↔
        ∃ i, i < c.length ∧ pos = i + 1 ∧ ws ≤ p + i + 1 ∧
          rolling_hash T (last_bytes ws (List.replicate p 0 ++ c.take (i + 1))) < theta := by
  rw [next_chunk_boundaries_eq ws hws]
  exact ⟨rfl, reference_boundaries_increasing T ws theta c p,
    fun pos => mem_reference_boundaries T ws theta c p pos⟩

theorem next_chunk_boundaries_characterisation_witness :
    1 ≤ 3 ∧
    ((RabinKarpHash.init ((3 : Nat) : Int) ⟨example_table⟩ (fun _ => 0)
        (2 ^ 28)).next_chunk_boundaries [1, 3, 2, 3, 0, 1, 2, 3, 0, 0, 1] 1).2 =
      [4, 5, 7, 9, 10] :=
  ⟨by decide,
    (next_chunk_boundaries_characterisation 3 (by decide) example_table (fun _ => 0) (2 ^ 28)
      [1, 3, 2, 3, 0, 1, 2, 3, 0, 0, 1] 1).1.trans (by decide!)⟩

/-- Claim C5: for every `window_size >= 1`, threshold and table, all byte strings
`X`, `X'`, `S`, all prepend counts `p`, `p'` and every offset `q` with
`window_size <= q <= |S|`, a fresh chunker reports position `|X| + q` for the
content `X ++ S` (prepend `p`) if and only if a fresh chunker with the same
configuration reports `|X'| + q` for `X' ++ S` (prepend `p'`). -/
theorem boundaries_content_defined (ws : Nat) (hws : 1 ≤ ws) (T : Byte → Nat)
    (window window' : Nat → Byte) (theta : Nat) (X X' S : List Byte) (p p' q : Nat)
    (hq1 : ws ≤ q) (hq2 : q ≤ S.length) :
    X.length + q ∈
        ((RabinKarpHash.init ws ⟨T⟩ window theta).next_chunk_boundaries (X ++ S) p).2 ↔
      X'.length + q ∈
        ((RabinKarpHash.init ws ⟨T⟩ window' theta).next_chunk_boundaries (X' ++ S) p').2 := by
  rw [mem_next_chunk_boundaries_far ws hws T window theta X S p q hq1 hq2,
    mem_next_chunk_boundaries_far ws hws T window' theta X' S p' q hq1 hq2]

theorem boundaries_content_defined_witness :
    1 ≤ 3 ∧ 3 ≤ 5 ∧ 5 ≤ [(2 : Byte), 3, 0, 1, 2].length ∧
    (([(1 : Byte), 3].length + 5 ∈
        ((RabinKarpHash.init ((3 : Nat) : Int) ⟨example_table⟩ (fun _ => 0)
          (2 ^ 28)).next_chunk_boundaries ([1, 3] ++ [2, 3, 0, 1, 2]) 1).2) ↔
      ([(0 : Byte), 0, 2, 1].length + 5 ∈
        ((RabinKarpHash.init ((3 : Nat) : Int) ⟨example_table⟩ (fun _ => 1)
          (2 ^ 28)).next_chunk_boundaries ([0, 0, 2, 1] ++ [2, 3, 0, 1, 2]) 0).2)) :=
  ⟨by decide, by decide, by decide,
    boundaries_content_defined 3 (by decide) example_table (fun _ => 0) (fun _ => 1) (2 ^ 28)
      [1, 3] [0, 0, 2, 1] [2, 3, 0, 1, 2] 1 0 5 (by decide) (by decide)⟩

/-! ### Threshold derivation -/

theorem add32_HASHMASK : add32 (maskfnc WORDSIZE) 1 = 2 ^ 29 := by decide

theorem compute_threshold_eq_floor (rk : RabinKarp) (h : rk.HASHMASK = maskfnc WORDSIZE) (p : ℚ)
    (h0 : 0 ≤ p) (h1 : p < 1) :
    (rk._compute_threshold p : Int) = ⌊p * 2 ^ 29⌋ := by
  have hx0 : (0 : ℚ) ≤ p * 2 ^ 29 := by positivity
  have hx1 : p * 2 ^ 29 < 2 ^ 29 := by nlinarith
  have hf0 : 0 ≤ ⌊p * 2 ^ 29⌋ := Int.floor_nonneg.mpr hx0
  have hf1 : ⌊p * 2 ^ 29⌋ < 2 ^ 29 := by
    rw [Int.floor_lt]
    exact_mod_cast hx1
  have hcast : (((2 : Nat) ^ 29 : Nat) : ℚ) = (2 : ℚ) ^ 29 := by norm_num
  rw [RabinKarp._compute_threshold, h, add32_HASHMASK]
  simp only [hcast]
  rw [Int.tdiv_eq_ediv (Rat.num_nonneg.mpr hx0) (by positivity), ← Rat.floor_def]
  omega

/-- Claim C7, counterexample: for the relative threshold `p = 7 / 2^31` (an exact
`double` in `(0,1)`) the product `p * 2^29` is `1.75`; `_compute_threshold`
returns `1`, whereas the nearest integer is `2`. -/
theorem compute_threshold_not_rounded :
    ((RabinKarp.init 4 ⟨example_table⟩)._compute_threshold (7 / 2 ^ 31) : Int) = 1
      ∧ round ((7 / 2 ^ 31 : ℚ) * 2 ^ 29) = 2 := by
  constructor
  · decide!
  · norm_num [round_eq, Int.floor_eq_iff]

/-- Claim C7, amended: for every relative threshold `p` in `(0,1)` (an exact
rational) `_compute_threshold(p)` is the integer part of `p * 2^29`, the greatest
integer not above `p * (HASHMASK + 1)`; for `p = 0.5` it is `2^28`. -/
theorem compute_threshold_truncates (ws : Int) (hasher : CharacterHash) (p : ℚ) (h0 : 0 < p)
    (h1 : p < 1) :
    ((RabinKarp.init ws hasher)._compute_threshold p : Int) = ⌊p * 2 ^ 29⌋
      ∧ (RabinKarp.init ws hasher)._compute_threshold (1 / 2) = 2 ^ 28 := by
  refine ⟨compute_threshold_eq_floor _ rfl p h0.le h1, ?_⟩
  have h := compute_threshold_eq_floor (RabinKarp.init ws hasher) rfl (1 / 2) (by norm_num)
    (by norm_num)
  have hfloor : ⌊(1 / 2 : ℚ) * 2 ^ 29⌋ = 2 ^ 28 := by
    norm_num [Int.floor_eq_iff]
  rw [hfloor] at h
  exact_mod_cast h

theorem compute_threshold_truncates_witness :
    (0 : ℚ) < 7 / 2 ^ 31 ∧ (7 / 2 ^ 31 : ℚ) < 1 ∧
    (((RabinKarp.init 4 ⟨example_table⟩)._compute_threshold (7 / 2 ^ 31) : Int) =
        ⌊(7 / 2 ^ 31 : ℚ) * 2 ^ 29⌋
      ∧ (RabinKarp.init 4 ⟨example_table⟩)._compute_threshold (1 / 2) = 2 ^ 28) :=
  ⟨by norm_num, by norm_num,
    compute_threshold_truncates 4 ⟨example_table⟩ (7 / 2 ^ 31) (by norm_num) (by norm_num)⟩

/-! ### Construction -/

/-- Claim C10, counterexample: constructing either chunker with `window_size = 0`
does not fail; it yields the instance the member initialisers describe. -/
theorem constructor_accepts_zero_window_size :
    RabinKarpHash.new 0 (fun k => k) (fun _ => 0) 0 =
        Except.ok (RabinKarpHash.init 0 ⟨fun k => k.val⟩ (fun _ => 0) 0)
      ∧ RabinKarpMultiThresholdHash.new 0 (fun k => k) [1 / 2, 1 / 4] (fun _ _ => 0) =
        Except.ok (RabinKarpMultiThresholdHash.init 0 ⟨fun k => k.val⟩ [2 ^ 28, 2 ^ 27]
          (fun _ _ => 0)) := by
  constructor
  · rfl
  · have h1 := (compute_threshold_truncates 0 ⟨fun k => k.val⟩ (1 / 2) (by norm_num)
      (by norm_num)).2
    have h2 := compute_threshold_eq_floor (RabinKarp.init 0 ⟨fun k => k.val⟩) rfl (1 / 4)
      (by norm_num) (by norm_num)
    have hfloor : ⌊(1 / 4 : ℚ) * 2 ^ 29⌋ = 2 ^ 27 := by
      norm_num [Int.floor_eq_iff]
    rw [hfloor] at h2
    have h2' : (RabinKarp.init 0 ⟨fun k => k.val⟩)._compute_threshold (1 / 4) = 2 ^ 27 := by
      exact_mod_cast h2
    simp only [one_div] at h1 h2'
    simp only [RabinKarpMultiThresholdHash.new, RabinKarp.new, CharacterHash.new, Except.map,
      Except.bind, le_refl, if_true, List.map_cons, List.map_nil, one_div, h1, h2',
      lt_self_iff_false, false_and, if_false]
    rfl

/-- Claim C10, amended: the constructors do not check `window_size`.  For every
`window_size <= 0` the construction of a `RabinKarpHash` succeeds and yields an
instance with `BtoN = 1` (the loop body never runs), hash value 0, level 0, head 0
and the given `window_size`; the construction of a `RabinKarpMultiThresholdHash`
succeeds for `window_size = 0`. -/
theorem constructor_without_window_size_check (ws : Int) (hws : ws ≤ 0) (gen : Nat → Nat)
    (window : Nat → Byte) (theta : Nat) (thresholds : List ℚ) (windows : Nat → Nat → Byte) :
    RabinKarpHash.new ws gen window theta =
        Except.ok (RabinKarpHash.init ws ⟨fun k => gen k.val⟩ window theta)
      ∧ (RabinKarpHash.init ws ⟨fun k => gen k.val⟩ window theta).BtoN = 1
      ∧ (RabinKarpHash.init ws ⟨fun k => gen k.val⟩ window theta).window_size = ws
      ∧ (RabinKarpHash.init ws ⟨fun k => gen k.val⟩ window theta).hashvalue = 0
      ∧ (RabinKarpHash.init ws ⟨fun k => gen k.val⟩ window theta).window_level = 0
      ∧ (RabinKarpHash.init ws ⟨fun k => gen k.val⟩ window theta).window_head = 0
      ∧ (ws = 0 → RabinKarpMultiThresholdHash.new ws gen thresholds windows =
          Except.ok (RabinKarpMultiThresholdHash.init ws ⟨fun k => gen k.val⟩
            (thresholds.map (RabinKarp.init ws ⟨fun k => gen k.val⟩)._compute_threshold)
            windows)) := by
  refine ⟨rfl, ?_, rfl, rfl, rfl, rfl, ?_⟩
  · have h : ws.toNat = 0 := Int.toNat_eq_zero.mpr hws
    simp only [RabinKarpHash.init, RabinKarp.init, h, BtoN_loop]
  · intro h0
    subst h0
    simp only [RabinKarpMultiThresholdHash.new, RabinKarp.new, CharacterHash.new, Except.map,
      Except.bind, le_refl, if_true, lt_self_iff_false, false_and, if_false]
    rfl

theorem constructor_without_window_size_check_witness :
    (0 : Int) ≤ 0 ∧
    (RabinKarpHash.new 0 (fun k => k) (fun _ => 0) 0 =
        Except.ok (RabinKarpHash.init 0 ⟨fun k => k.val⟩ (fun _ => 0) 0)
      ∧ (RabinKarpHash.init 0 ⟨fun k => k.val⟩ (fun _ => 0) 0).BtoN = 1) :=
  ⟨by decide,
    (constructor_without_window_size_check 0 (by decide) (fun k => k) (fun _ => 0) 0 []
      (fun _ _ => 0)).1,
    (constructor_without_window_size_check 0 (by decide) (fun k => k) (fun _ => 0) 0 []
      (fun _ _ => 0)).2.1⟩

/-! ### The hierarchical chunker: recorded boundaries and frame lemmas -/

namespace RabinKarpMultiThresholdHash

theorem pairs_flatten_pairs (l : List (Nat × Nat)) : pairs (flatten_pairs l) = l := by
  induction l with
  | nil => rfl
  | cons pr l ih => simp [flatten_pairs, pairs, ih]

theorem flatten_pairs_append (l l' : List (Nat × Nat)) :
    flatten_pairs (l ++ l') = flatten_pairs l ++ flatten_pairs l' := by
  induction l with
  | nil => rfl
  | cons pr l ih => simp [flatten_pairs, ih]

theorem length_flatten_pairs (l : List (Nat × Nat)) : (flatten_pairs l).length = 2 * l.length := by
  induction l with
  | nil => rfl
  | cons pr l ih => simp [flatten_pairs, ih]; omega

theorem content_loop_eq_trace (p : Nat) (cs : List Byte) :
    ∀ (i : Nat) (self : RabinKarpMultiThresholdHash) (boundaries : List Nat),
      (content_loop p cs i self boundaries).2 = boundaries ++ flatten_pairs (trace p cs i self) := by
  induction cs with
  | nil => intro i self boundaries; simp [content_loop, trace, flatten_pairs]
  | cons b cs ih =>
    intro i self boundaries
    rw [content_loop, ih, trace, process_byte]
    cases h : (self.update_required b).matching_threshold_index with
    | none => simp
    | some m => simp [flatten_pairs]

theorem next_chunk_boundaries_with_thresholds_eq_trace (self : RabinKarpMultiThresholdHash)
    (c : List Byte) (p : Nat) :
    (self.next_chunk_boundaries_with_thresholds c p).2 =
      flatten_pairs (trace p c 0 (prepend_loop p (List.range self.thresholds_count) self)) := by
  rw [next_chunk_boundaries_with_thresholds, content_loop_eq_trace, List.nil_append]

/-! ### The search for the matching threshold -/

theorem search_loop_some (self : RabinKarpMultiThresholdHash) (l : List Nat) :
    ∀ (acc : Option Nat) (m : Nat), search_loop self l acc = some m →
      acc = some m ∨ (m ∈ l ∧
        (self.threshold_window_levels (max m self.least_restrictive_required_chunker_index) : Int)
          = self.window_size ∧
        self.threshold_hashvalues (max m self.least_restrictive_required_chunker_index)
          < self.thresholds m) := by
  induction l with
  | nil => intro acc m h; left; simpa [search_loop] using h
  | cons t l ih =>
    intro acc m h
    rw [search_loop] at h
    split at h
    · next hc =>
      rcases ih _ _ h with h1 | ⟨h1, h2⟩
      · right
        injection h1 with h1
        subst h1
        exact ⟨List.mem_cons_self _ _, hc⟩
      · right
        exact ⟨List.mem_cons_of_mem _ h1, h2⟩
    · split at h
      · left; exact h
      · rcases ih _ _ h with h1 | ⟨h1, h2⟩
        · left; exact h1
        · right; exact ⟨List.mem_cons_of_mem _ h1, h2⟩

theorem matching_threshold_index_some (self : RabinKarpMultiThresholdHash) (m : Nat)
    (h : self.matching_threshold_index = some m) :
    m < self.thresholds_count ∧
      (self.threshold_window_levels (max m self.least_restrictive_required_chunker_index) : Int)
        = self.window_size ∧
      self.threshold_hashvalues (max m self.least_restrictive_required_chunker_index)
        < self.thresholds m := by
  rcases search_loop_some self _ none m h with h1 | ⟨h1, h2⟩
  · cases h1
  · exact ⟨List.mem_range.mp h1, h2⟩

/-! ### The loops over the chunkers -/

theorem lane_set_lane (s : RabinKarpMultiThresholdHash) (j : Nat) (w : WindowState) (j' : Nat) :
    (s.set_lane j w).lane j' = if j' = j then w else s.lane j' := by
  by_cases h : j' = j
  · subst h
    simp [lane, set_lane]
  · simp [lane, set_lane, h, Function.update_noteq]

theorem lane_update_lane (b : Byte) (t : Nat) (s : RabinKarpMultiThresholdHash) (j : Nat) :
    (s.update_lane b t).lane j =
      if j = t then s.toRabinKarp._update b (s.lane t) else s.lane j :=
  lane_set_lane s t _ j

theorem content_lengths_update_lane (b : Byte) (t : Nat) (s : RabinKarpMultiThresholdHash)
    (j : Nat) :
    (s.update_lane b t).threshold_content_lengths j =
      if j = t then s.threshold_content_lengths t + 1 else s.threshold_content_lengths j := by
  by_cases h : j = t
  · subst h
    simp [update_lane, set_lane]
  · simp [update_lane, set_lane, h, Function.update_noteq]

theorem update_loop_spec (b : Byte) (l : List Nat) :
    ∀ (_ : l.Nodup) (n : Nat) (s : RabinKarpMultiThresholdHash),
      (∀ j, (update_loop b l n s).1.lane j =
        if j ∈ l then s.toRabinKarp._update b (s.lane j) else s.lane j)
      ∧ (∀ j, (update_loop b l n s).1.threshold_content_lengths j =
        if j ∈ l then s.threshold_content_lengths j + 1 else s.threshold_content_lengths j)
      ∧ (update_loop b l n s).1.toRabinKarp = s.toRabinKarp
      ∧ (update_loop b l n s).1.thresholds_count = s.thresholds_count
      ∧ (update_loop b l n s).1.thresholds = s.thresholds
      ∧ (update_loop b l n s).1.least_restrictive_required_chunker_index =
        s.least_restrictive_required_chunker_index := by
  induction l with
  | nil => intro _ n s; simp [update_loop]
  | cons t l ih =>
    intro hl n s
    rw [List.nodup_cons] at hl
    have key := ih hl.2
    rw [update_loop]
    refine ⟨?_, ?_, ?_, ?_, ?_, ?_⟩
    · intro j
      rw [(key _ _).1 j, lane_update_lane]
      by_cases hj : j = t
      · subst hj
        simp [hl.1]
      · simp only [hj, if_false, List.mem_cons, false_or]
        rfl
    · intro j
      rw [(key _ _).2.1 j, content_lengths_update_lane]
      by_cases hj : j = t
      · subst hj
        simp [hl.1]
      · simp [hj]
    · rw [(key _ _).2.2.1]; rfl
    · rw [(key _ _).2.2.2.1]; rfl
    · rw [(key _ _).2.2.2.2.1]; rfl
    · rw [(key _ _).2.2.2.2.2]; rfl

/-- The index assigned to `least_restrictive_required_chunker_index` after the
update loop over decreasing indices: the smallest updated index whose content
length is still below `window_size`, or the initial value when there is none. -/
theorem update_loop_new_least (b : Byte) (l : List Nat) :
    ∀ (_ : l.Pairwise (fun a c => c < a)) (n : Nat) (s : RabinKarpMultiThresholdHash),
      ((update_loop b l n s).2 = n ∧
          ∀ t ∈ l, s.window_size ≤ ((s.threshold_content_lengths t + 1 : Nat) : Int))
        ∨ ((update_loop b l n s).2 ∈ l ∧
          ((s.threshold_content_lengths (update_loop b l n s).2 + 1 : Nat) : Int) < s.window_size ∧
          ∀ t ∈ l, t < (update_loop b l n s).2 →
            s.window_size ≤ ((s.threshold_content_lengths t + 1 : Nat) : Int)) := by
  induction l with
  | nil => intro _ n s; left; simp [update_loop]
  | cons t l ih =>
    intro hl n s
    rw [List.pairwise_cons] at hl
    have hcl : ∀ x ∈ l, (s.update_lane b t).threshold_content_lengths x =
        s.threshold_content_lengths x := by
      intro x hx
      rw [content_lengths_update_lane, if_neg (by have := hl.1 x hx; omega)]
    have hclt : (s.update_lane b t).threshold_content_lengths t =
        s.threshold_content_lengths t + 1 := by
      rw [content_lengths_update_lane, if_pos rfl]
    have hws : (s.update_lane b t).window_size = s.window_size := rfl
    rw [update_loop]
    rcases ih hl.2
      (if ((s.update_lane b t).threshold_content_lengths t : Int) < (s.update_lane b t).window_size
        then t else n) (s.update_lane b t) with ⟨h1, h2⟩ | ⟨h1, h2, h3⟩
    · rw [h1]
      by_cases hc : ((s.update_lane b t).threshold_content_lengths t : Int)
          < (s.update_lane b t).window_size
      · right
        rw [if_pos hc]
        refine ⟨List.mem_cons_self _ _, ?_, ?_⟩
        · rw [hclt, hws] at hc; exact hc
        · intro x hx hlt
          rcases List.mem_cons.mp hx with rfl | hx
          · omega
          · have := h2 x hx
            rw [hcl x hx, hws] at this
            exact this
      · left
        rw [if_neg hc]
        refine ⟨rfl, ?_⟩
        intro x hx
        rcases List.mem_cons.mp hx with rfl | hx
        · rw [hclt, hws] at hc
          omega
        · have := h2 x hx
          rw [hcl x hx, hws] at this
          exact this
    · right
      refine ⟨List.mem_cons_of_mem _ h1, ?_, ?_⟩
      · rw [hcl _ h1, hws] at h2
        exact h2
      · intro x hx hlt
        rcases List.mem_cons.mp hx with rfl | hx
        · have := hl.1 _ h1
          omega
        · have := h3 x hx hlt
          rw [hcl x hx, hws] at this
          exact this

theorem required_indices_pairwise (count least : Nat) :
    (required_indices count least).Pairwise (fun a c => c < a) := by
  rw [required_indices, List.pairwise_reverse]
  exact List.pairwise_lt_range' least (count - least)

theorem required_indices_nodup (count least : Nat) : (required_indices count least).Nodup :=
  List.nodup_reverse.mpr (List.nodup_range' _ _)

theorem mem_required_indices (count least j : Nat) :
    j ∈ required_indices count least ↔ least ≤ j ∧ j < count := by
  rw [required_indices, List.mem_reverse, List.mem_range']
  constructor
  · rintro ⟨i, hi, rfl⟩
    omega
  · rintro ⟨h1, h2⟩
    exact ⟨j - least, by omega, by omega⟩

theorem reset_loop_spec (p : Nat) (l : List Nat) :
    ∀ (_ : l.Nodup) (s : RabinKarpMultiThresholdHash),
      (∀ j, (reset_loop p l s).lane j =
        if j ∈ l then s.toRabinKarp.update_zeros p (s.lane j) else s.lane j)
      ∧ (∀ j, (reset_loop p l s).threshold_content_lengths j =
        if j ∈ l then 0 else s.threshold_content_lengths j)
      ∧ (reset_loop p l s).least_restrictive_required_chunker_index =
        s.least_restrictive_required_chunker_index := by
  induction l with
  | nil => intro _ s; simp [reset_loop]
  | cons t l ih =>
    intro hl s
    rw [List.nodup_cons] at hl
    have key := ih hl.2
    have hlane : ∀ j, (s.reset_lane p t).lane j =
        if j = t then s.toRabinKarp.update_zeros p (s.lane t) else s.lane j :=
      fun j => lane_set_lane s t _ j
    have hcl : ∀ j, (s.reset_lane p t).threshold_content_lengths j =
        if j = t then 0 else s.threshold_content_lengths j := by
      intro j
      by_cases h : j = t
      · subst h
        simp [reset_lane, update_zeros_lane, set_lane]
      · simp [reset_lane, update_zeros_lane, set_lane, h, Function.update_noteq]
    rw [reset_loop]
    refine ⟨fun j => ?_, fun j => ?_, ?_⟩
    · rw [(key _).1 j, hlane]
      by_cases hj : j = t
      · subst hj
        simp [hl.1]
      · simp only [hj, if_false, List.mem_cons, false_or]
        rfl
    · rw [(key _).2.1 j, hcl]
      by_cases hj : j = t
      · subst hj
        simp [hl.1]
      · simp [hj]
    · rw [(key _).2.2]; rfl

theorem copy_loop_spec (l : List Nat) :
    ∀ (_ : l.Nodup) (s : RabinKarpMultiThresholdHash),
      s.least_restrictive_required_chunker_index ∉ l →
      (∀ j, (copy_loop l s).lane j =
        if j ∈ l then
          { s.lane s.least_restrictive_required_chunker_index with
            window := fun k =>
              if (k : Int) < s.window_size then
                (s.lane s.least_restrictive_required_chunker_index).window k
              else s.threshold_windows j k }
        else s.lane j)
      ∧ (copy_loop l s).threshold_content_lengths = s.threshold_content_lengths
      ∧ (copy_loop l s).least_restrictive_required_chunker_index =
        s.least_restrictive_required_chunker_index := by
  induction l with
  | nil => intro _ s _; simp [copy_loop]
  | cons t l ih =>
    intro hl s hR
    rw [List.nodup_cons] at hl
    rw [List.mem_cons, not_or] at hR
    have hlane : ∀ j, (s.copy_lane t).lane j =
        if j = t then
          { s.lane s.least_restrictive_required_chunker_index with
            window := fun k =>
              if (k : Int) < s.window_size then
                (s.lane s.least_restrictive_required_chunker_index).window k
              else s.threshold_windows t k }
        else s.lane j :=
      fun j => lane_set_lane s t _ j
    have hReq : (s.copy_lane t).least_restrictive_required_chunker_index =
        s.least_restrictive_required_chunker_index := rfl
    have key := ih hl.2 (s.copy_lane t) (by rw [hReq]; exact hR.2)
    rw [copy_loop]
    refine ⟨fun j => ?_, ?_, ?_⟩
    · rw [key.1 j, hReq, hlane, hlane, if_neg hR.1]
      by_cases hj : j = t
      · subst hj
        simp [hl.1]
      · have hw : (s.copy_lane t).threshold_windows j = s.threshold_windows j := by
          simp [copy_lane, set_lane, Function.update_noteq hj]
        simp only [hj, if_false, List.mem_cons, false_or, hw]
        rfl
    · rw [key.2.1]; rfl
    · rw [key.2.2, hReq]

/-! ### The configuration does not change -/

theorem sameConfig_refl (s : RabinKarpMultiThresholdHash) : SameConfig s s := ⟨rfl, rfl, rfl⟩

theorem sameConfig_trans {s s' s'' : RabinKarpMultiThresholdHash} (h : SameConfig s s')
    (h' : SameConfig s' s'') : SameConfig s s'' :=
  ⟨h'.base.trans h.base, h'.count.trans h.count, h'.thresholds.trans h.thresholds⟩

theorem sameConfig_set_lane (s : RabinKarpMultiThresholdHash) (j : Nat) (w : WindowState) :
    SameConfig s (s.set_lane j w) := ⟨rfl, rfl, rfl⟩

theorem sameConfig_prepend_loop (p : Nat) (l : List Nat) :
    ∀ s : RabinKarpMultiThresholdHash, SameConfig s (prepend_loop p l s) := by
  induction l with
  | nil => intro s; exact sameConfig_refl s
  | cons t l ih =>
    intro s
    rw [prepend_loop]
    exact sameConfig_trans (sameConfig_set_lane s t _) (ih _)

theorem sameConfig_reset_loop (p : Nat) (l : List Nat) :
    ∀ s : RabinKarpMultiThresholdHash, SameConfig s (reset_loop p l s) := by
  induction l with
  | nil => intro s; exact sameConfig_refl s
  | cons t l ih =>
    intro s
    rw [reset_loop]
    have h : SameConfig s (s.reset_lane p t) := ⟨rfl, rfl, rfl⟩
    exact sameConfig_trans h (ih _)

theorem sameConfig_copy_loop (l : List Nat) :
    ∀ s : RabinKarpMultiThresholdHash, SameConfig s (copy_loop l s) := by
  induction l with
  | nil => intro s; exact sameConfig_refl s
  | cons t l ih =>
    intro s
    rw [copy_loop]
    have h : SameConfig s (s.copy_lane t) := ⟨rfl, rfl, rfl⟩
    exact sameConfig_trans h (ih _)

theorem sameConfig_update_required (b : Byte) (s : RabinKarpMultiThresholdHash) :
    SameConfig s (s.update_required b) := by
  have h := update_loop_spec b
    (required_indices s.thresholds_count s.least_restrictive_required_chunker_index)
    (required_indices_nodup _ _) (s.thresholds_count - 1) s
  exact ⟨h.2.2.1, h.2.2.2.1, h.2.2.2.2.1⟩

theorem sameConfig_record_boundary (p m : Nat) (s : RabinKarpMultiThresholdHash) :
    SameConfig s (s.record_boundary p m) := by
  have h1 := sameConfig_reset_loop p (List.range m) s
  have h2 := sameConfig_copy_loop (List.range' m
    ((reset_loop p (List.range m) s).least_restrictive_required_chunker_index - m))
    (reset_loop p (List.range m) s)
  exact ⟨h2.base.trans h1.base, h2.count.trans h1.count, h2.thresholds.trans h1.thresholds⟩

theorem update_level_le (rk : RabinKarp) (b : Byte) (w : WindowState) :
    (rk._update b w).window_level ≤ w.window_level + 1 := by
  simp only [RabinKarp._update]
  split <;> omega

theorem update_required_level_le (b : Byte) (s : RabinKarpMultiThresholdHash) (j : Nat) :
    (s.update_required b).threshold_window_levels j ≤ s.threshold_window_levels j + 1 := by
  have h := (update_loop_spec b
    (required_indices s.thresholds_count s.least_restrictive_required_chunker_index)
    (required_indices_nodup _ _) (s.thresholds_count - 1) s).1 j
  have h' : (s.update_required b).threshold_window_levels j =
      ((update_loop b
        (required_indices s.thresholds_count s.least_restrictive_required_chunker_index)
        (s.thresholds_count - 1) s).1.lane j).window_level := rfl
  rw [h', h]
  split
  · exact update_level_le _ _ _
  · exact Nat.le_succ _

/-! ### Shape of the recorded boundaries -/

theorem trace_shape (p : Nat) (cs : List Byte) :
    ∀ (i : Nat) (s : RabinKarpMultiThresholdHash),
      (∀ pr ∈ trace p cs i s, i + 1 ≤ pr.1 ∧ pr.1 ≤ i + cs.length ∧ pr.2 < s.thresholds_count)
      ∧ (trace p cs i s).Pairwise (fun a b => a.1 < b.1) := by
  induction cs with
  | nil => intro i s; simp [trace]
  | cons b cs ih =>
    intro i s
    have hcfg := sameConfig_update_required b s
    rw [trace]
    cases hm : (s.update_required b).matching_threshold_index with
    | none =>
      obtain ⟨h1, h2⟩ := ih (i + 1) (s.update_required b)
      refine ⟨fun pr hpr => ?_, h2⟩
      obtain ⟨ha, hb, hc⟩ := h1 pr hpr
      rw [hcfg.count] at hc
      rw [List.length_cons]
      exact ⟨by omega, by omega, hc⟩
    | some m =>
      have hcfg2 := sameConfig_record_boundary p m (s.update_required b)
      obtain ⟨h1, h2⟩ := ih (i + 1) ((s.update_required b).record_boundary p m)
      have hm' := (matching_threshold_index_some _ m hm).1
      rw [hcfg.count] at hm'
      refine ⟨fun pr hpr => ?_, ?_⟩
      · rw [List.length_cons]
        rcases List.mem_cons.mp hpr with rfl | hpr
        · exact ⟨le_refl _, by omega, hm'⟩
        · obtain ⟨ha, hb, hc⟩ := h1 pr hpr
          rw [hcfg2.count, hcfg.count] at hc
          exact ⟨by omega, by omega, hc⟩
      · rw [List.pairwise_cons]
        refine ⟨fun pr hpr => ?_, h2⟩
        have := (h1 pr hpr).1
        show i + 1 < pr.1
        omega

end RabinKarpMultiThresholdHash

/-- Claim C6: the flat list returned by `next_chunk_boundaries_with_thresholds` has
even length and, read as consecutive `(position, level)` pairs, every position
lies in `[1, n]` for a content of length `n`, positions are strictly increasing
from pair to pair, and every level is below the number `K` of thresholds, i.e.
lies in `[0, K - 1]`.  It holds for every instance (fresh or not), whatever the
window size, the thresholds, the content and `prepend_bytes`. -/
theorem boundaries_with_thresholds_shape (self : RabinKarpMultiThresholdHash) (c : List Byte)
    (p : Nat) :
    Even (self.next_chunk_boundaries_with_thresholds c p).2.length
    ∧ flatten_pairs (pairs (self.next_chunk_boundaries_with_thresholds c p).2) =
      (self.next_chunk_boundaries_with_thresholds c p).2
    ∧ (∀ pr ∈ pairs (self.next_chunk_boundaries_with_thresholds c p).2,
        1 ≤ pr.1 ∧ pr.1 ≤ c.length ∧ pr.2 < self.thresholds_count)
    ∧ (pairs (self.next_chunk_boundaries_with_thresholds c p).2).Pairwise
        (fun a b => a.1 < b.1) := by
  rw [RabinKarpMultiThresholdHash.next_chunk_boundaries_with_thresholds_eq_trace,
    RabinKarpMultiThresholdHash.pairs_flatten_pairs]
  obtain ⟨h1, h2⟩ := RabinKarpMultiThresholdHash.trace_shape p c 0
    (RabinKarpMultiThresholdHash.prepend_loop p (List.range self.thresholds_count) self)
  refine ⟨?_, rfl, fun pr hpr => ?_, h2⟩
  · rw [RabinKarpMultiThresholdHash.length_flatten_pairs]
    exact even_two_mul _
  · obtain ⟨ha, hb, hc⟩ := h1 pr hpr
    rw [(RabinKarpMultiThresholdHash.sameConfig_prepend_loop p _ _).count] at hc
    exact ⟨by omega, by omega, hc⟩

namespace RabinKarpMultiThresholdHash

/-! ### No boundary before the window is full -/

theorem update_zeros_level_le (rk : RabinKarp) (n : Nat) :
    ∀ w : WindowState, (rk.update_zeros n w).window_level ≤ w.window_level + n := by
  induction n with
  | zero => intro w; exact le_refl _
  | succ n ih =>
    intro w
    rw [RabinKarp.update_zeros]
    have h1 := ih (rk._update 0 w)
    have h2 := update_level_le rk 0 w
    omega

theorem prepend_loop_spec (p : Nat) (l : List Nat) :
    ∀ (_ : l.Nodup) (s : RabinKarpMultiThresholdHash),
      (∀ j, (prepend_loop p l s).lane j =
        if j ∈ l then s.toRabinKarp.update_zeros p (s.lane j) else s.lane j)
      ∧ (prepend_loop p l s).threshold_content_lengths = s.threshold_content_lengths
      ∧ (prepend_loop p l s).least_restrictive_required_chunker_index =
        s.least_restrictive_required_chunker_index := by
  induction l with
  | nil => intro _ s; simp [prepend_loop]
  | cons t l ih =>
    intro hl s
    rw [List.nodup_cons] at hl
    have key := ih hl.2
    rw [prepend_loop]
    refine ⟨fun j => ?_, ?_, ?_⟩
    · rw [(key _).1 j]
      by_cases hj : j = t
      · subst hj
        simp [hl.1, update_zeros_lane, lane_set_lane]
      · simp [hj, update_zeros_lane, lane_set_lane]
        rfl
    · rw [(key _).2.1]; rfl
    · rw [(key _).2.2]; rfl

theorem prepend_loop_init_level_le (ws : Int) (hasher : CharacterHash) (ths : List Nat)
    (windows : Nat → Nat → Byte) (p j : Nat) :
    (prepend_loop p (List.range ths.length) (init ws hasher ths windows)).threshold_window_levels j
      ≤ p := by
  have h := (prepend_loop_spec p (List.range ths.length) (List.nodup_range _)
    (init ws hasher ths windows)).1 j
  have h' : (prepend_loop p (List.range ths.length)
      (init ws hasher ths windows)).threshold_window_levels j =
      ((prepend_loop p (List.range ths.length) (init ws hasher ths windows)).lane j).window_level :=
    rfl
  rw [h', h]
  split
  · have := update_zeros_level_le (init ws hasher ths windows).toRabinKarp p
      ((init ws hasher ths windows).lane j)
    simpa [init, lane] using this
  · simp [init, lane]

theorem trace_window_full (ws p : Nat) (cs : List Byte) :
    ∀ (i : Nat) (s : RabinKarpMultiThresholdHash), s.window_size = ws →
      (∀ j, s.threshold_window_levels j ≤ p + i ∨ ws ≤ p + i) →
      ∀ pr ∈ trace p cs i s, ws ≤ pr.1 + p := by
  induction cs with
  | nil => intro i s _ _ pr hpr; simp [trace] at hpr
  | cons b cs ih =>
    intro i s hws hlev pr hpr
    have hcfg := sameConfig_update_required b s
    have hws1 : (s.update_required b).window_size = ws := by rw [hcfg.base, hws]
    have hlev1 : ∀ j, (s.update_required b).threshold_window_levels j ≤ p + (i + 1)
        ∨ ws ≤ p + (i + 1) := by
      intro j
      have h1 := update_required_level_le b s j
      rcases hlev j with h | h
      · left; omega
      · right; omega
    rw [trace] at hpr
    cases hm : (s.update_required b).matching_threshold_index with
    | none =>
      rw [hm] at hpr
      exact ih (i + 1) _ hws1 hlev1 pr hpr
    | some m =>
      rw [hm] at hpr
      have hfull := (matching_threshold_index_some _ m hm).2.1
      rw [hws1] at hfull
      have hfull' : (s.update_required b).threshold_window_levels
          (max m (s.update_required b).least_restrictive_required_chunker_index) = ws := by
        exact_mod_cast hfull
      have hge : ws ≤ p + (i + 1) := by
        rcases hlev1 (max m (s.update_required b).least_restrictive_required_chunker_index)
          with h | h
        · omega
        · exact h
      rcases List.mem_cons.mp hpr with rfl | hpr
      · show ws ≤ i + 1 + p
        omega
      · have hcfg2 := sameConfig_record_boundary p m (s.update_required b)
        exact ih (i + 1) _ (by rw [hcfg2.base, hws1]) (fun _ => Or.inr hge) pr hpr

theorem process_byte_state (p i i' : Nat) (b : Byte) (s : RabinKarpMultiThresholdHash)
    (bs bs' : List Nat) : (process_byte p i b s bs).1 = (process_byte p i' b s bs').1 := by
  rw [process_byte, process_byte]
  cases (s.update_required b).matching_threshold_index <;> rfl

theorem content_loop_state (p : Nat) (cs : List Byte) :
    ∀ (i i' : Nat) (s : RabinKarpMultiThresholdHash) (bs bs' : List Nat),
      (content_loop p cs i s bs).1 = (content_loop p cs i' s bs').1 := by
  induction cs with
  | nil => intro i i' s bs bs'; rfl
  | cons b cs ih =>
    intro i i' s bs bs'
    rw [content_loop, content_loop, process_byte_state p i i' b s bs bs']
    exact ih _ _ _ _ _

theorem trace_mem_decided (p : Nat) (cs : List Byte) :
    ∀ (i : Nat) (s : RabinKarpMultiThresholdHash) (pr : Nat × Nat), pr ∈ trace p cs i s →
      ∃ pre b post, cs = pre ++ b :: post ∧ pr.1 = i + pre.length + 1 ∧
        ((content_loop p pre i s []).1.update_required b).matching_threshold_index = some pr.2 := by
  induction cs with
  | nil => intro i s pr hpr; simp [trace] at hpr
  | cons b cs ih =>
    intro i s pr hpr
    rw [trace] at hpr
    have hstep : ∀ s', (process_byte p i b s []).1 = s' → pr ∈ trace p cs (i + 1) s' →
        ∃ pre b' post, b :: cs = pre ++ b' :: post ∧ pr.1 = i + pre.length + 1 ∧
          ((content_loop p pre i s []).1.update_required b').matching_threshold_index
            = some pr.2 := by
      intro s' hs' hmem
      obtain ⟨pre, b', post, h1, h2, h3⟩ := ih (i + 1) s' pr hmem
      refine ⟨b :: pre, b', post, by rw [h1]; rfl, by rw [h2, List.length_cons]; omega, ?_⟩
      rw [content_loop, hs', content_loop_state p pre (i + 1) (i + 1) s' _ []]
      exact h3
    cases hm : (s.update_required b).matching_threshold_index with
    | none =>
      rw [hm] at hpr
      exact hstep _ (by rw [process_byte, hm]) hpr
    | some m =>
      rw [hm] at hpr
      rcases List.mem_cons.mp hpr with rfl | hpr
      · exact ⟨[], b, cs, rfl, rfl, hm⟩
      · exact hstep _ (by rw [process_byte, hm]) hpr

end RabinKarpMultiThresholdHash

theorem RabinKarpMultiThresholdHash.sameConfig_process_byte (p i : Nat) (b : Byte)
    (s : RabinKarpMultiThresholdHash) (bs : List Nat) :
    SameConfig s (RabinKarpMultiThresholdHash.process_byte p i b s bs).1 := by
  rw [RabinKarpMultiThresholdHash.process_byte]
  cases (s.update_required b).matching_threshold_index with
  | none => exact RabinKarpMultiThresholdHash.sameConfig_update_required b s
  | some m =>
    exact RabinKarpMultiThresholdHash.sameConfig_trans
      (RabinKarpMultiThresholdHash.sameConfig_update_required b s)
      (RabinKarpMultiThresholdHash.sameConfig_record_boundary p m _)

theorem RabinKarpMultiThresholdHash.sameConfig_content_loop (p : Nat) (cs : List Byte) :
    ∀ (i : Nat) (s : RabinKarpMultiThresholdHash) (bs : List Nat),
      SameConfig s (RabinKarpMultiThresholdHash.content_loop p cs i s bs).1 := by
  induction cs with
  | nil => intro i s bs; exact RabinKarpMultiThresholdHash.sameConfig_refl s
  | cons b cs ih =>
    intro i s bs
    rw [RabinKarpMultiThresholdHash.content_loop]
    exact RabinKarpMultiThresholdHash.sameConfig_trans
      (RabinKarpMultiThresholdHash.sameConfig_process_byte p i b s bs) (ih _ _ _)

theorem RabinKarpHash.content_loop_final_state (cs : List Byte) :
    ∀ (i : Nat) (self : RabinKarpHash) (results : List Nat),
      (RabinKarpHash.content_loop cs i self results).1 =
        { self with toWindowState := self.toRabinKarp.update_all cs self.toWindowState } := by
  induction cs with
  | nil => intro i self results; rfl
  | cons c cs ih =>
    intro i self results
    rw [RabinKarpHash.content_loop, ih]
    simp [RabinKarpHash.update, RabinKarp.update_all]

theorem next_chunk_boundaries_tracks (ws : Nat) (hws : 1 ≤ ws) (T : Byte → Nat)
    (window : Nat → Byte) (theta : Nat) (c : List Byte) (p : Nat) :
    Tracks ws T (c.reverse ++ List.replicate p 0)
      ((RabinKarpHash.init ws ⟨T⟩ window theta).next_chunk_boundaries c p).1.toWindowState := by
  have h := ((Tracks.fresh hws T window).update_all hws (List.replicate p 0)).update_all hws c
  rw [List.append_nil, List.reverse_replicate] at h
  rw [RabinKarpHash.next_chunk_boundaries, RabinKarpHash.content_loop_final_state,
    RabinKarpHash.prepend_loop_eq]
  exact h

/-- Claim C9: for a fresh chunker of either type with `window_size >= 1`, every
content and every `prepend_bytes = p`, every reported position `pos` satisfies
`pos + p >= window_size`, and at the moment the boundary is recorded the window
whose hash decided it has level `window_size`: for the single-level chunker the
window after the first `pos` bytes; for the hierarchical chunker the window of
the chunker `max(level, least_restrictive_required_chunker_index)` after the
required chunkers have consumed byte `pos`. -/
theorem window_full_precondition (ws : Nat) (hws : 1 ≤ ws) (T : Byte → Nat)
    (window : Nat → Byte) (theta : Nat) (ths : List Nat) (windows : Nat → Nat → Byte)
    (c : List Byte) (p : Nat) :
    (∀ pos ∈ ((RabinKarpHash.init ws ⟨T⟩ window theta).next_chunk_boundaries c p).2,
      ws ≤ pos + p ∧
      (((RabinKarpHash.init ws ⟨T⟩ window theta).next_chunk_boundaries (c.take pos)
        p).1.window_level : Int) = ws)
    ∧ (∀ pr ∈ pairs ((RabinKarpMultiThresholdHash.init ws ⟨T⟩ ths
        windows).next_chunk_boundaries_with_thresholds c p).2,
      ws ≤ pr.1 + p ∧
      ∃ pre b post, c = pre ++ b :: post ∧ pr.1 = pre.length + 1 ∧
        ((((RabinKarpMultiThresholdHash.init ws ⟨T⟩ ths
          windows).next_chunk_boundaries_with_thresholds pre p).1.update_required
            b).matching_threshold_index = some pr.2) ∧
        ((((RabinKarpMultiThresholdHash.init ws ⟨T⟩ ths
          windows).next_chunk_boundaries_with_thresholds pre p).1.update_required
            b).threshold_window_levels
          (max pr.2 (((RabinKarpMultiThresholdHash.init ws ⟨T⟩ ths
            windows).next_chunk_boundaries_with_thresholds pre p).1.update_required
              b).least_restrictive_required_chunker_index) : Int) = ws) := by
  constructor
  · intro pos hpos
    rw [next_chunk_boundaries_eq ws hws, mem_reference_boundaries] at hpos
    obtain ⟨i, hi, rfl, hge, _⟩ := hpos
    refine ⟨by omega, ?_⟩
    have h := (next_chunk_boundaries_tracks ws hws T window theta (c.take (i + 1)) p).level_eq
    rw [List.length_append, List.length_reverse, List.length_take, List.length_replicate] at h
    have h' : ((RabinKarpHash.init ws ⟨T⟩ window theta).next_chunk_boundaries (c.take (i + 1))
        p).1.window_level = ws := by
      rw [h]; omega
    exact_mod_cast h'
  · intro pr hpr
    rw [RabinKarpMultiThresholdHash.next_chunk_boundaries_with_thresholds_eq_trace,
      RabinKarpMultiThresholdHash.pairs_flatten_pairs] at hpr
    have hcfg := RabinKarpMultiThresholdHash.sameConfig_prepend_loop p
      (List.range (RabinKarpMultiThresholdHash.init ws ⟨T⟩ ths windows).thresholds_count)
      (RabinKarpMultiThresholdHash.init ws ⟨T⟩ ths windows)
    refine ⟨?_, ?_⟩
    · refine RabinKarpMultiThresholdHash.trace_window_full ws p c 0 _ ?_ ?_ pr hpr
      · rw [hcfg.base]; rfl
      · intro j
        left
        exact RabinKarpMultiThresholdHash.prepend_loop_init_level_le ws ⟨T⟩ ths windows p j
    · obtain ⟨pre, b, post, h1, h2, h3⟩ :=
        RabinKarpMultiThresholdHash.trace_mem_decided p c 0 _ pr hpr
      refine ⟨pre, b, post, h1, by omega, h3, ?_⟩
      have h4 := (RabinKarpMultiThresholdHash.matching_threshold_index_some _ _ h3).2.1
      refine h4.trans ?_
      rw [(RabinKarpMultiThresholdHash.sameConfig_update_required b _).base,
        (RabinKarpMultiThresholdHash.sameConfig_content_loop p pre 0 _ []).base, hcfg.base]
      rfl

theorem window_full_precondition_witness :
    1 ≤ 3 ∧
    (3 ≤ 4 + 1 ∧
      (((RabinKarpHash.init ((3 : Nat) : Int) ⟨example_table⟩ (fun _ => 0)
        (2 ^ 28)).next_chunk_boundaries ([1, 3, 2, 3, 0, 1, 2, 3, 0, 0, 1].take 4)
          1).1.window_level : Int) = ((3 : Nat) : Int)) :=
  ⟨by decide,
    (window_full_precondition 3 (by decide) example_table (fun _ => 0) (2 ^ 28) [2 ^ 28, 2 ^ 27]
      (fun _ _ => 0) [1, 3, 2, 3, 0, 1, 2, 3, 0, 0, 1] 1).1 4 (by decide!)⟩

/-! ### The hierarchical chunker at concrete inputs -/

/-- Claim C3, the code at a failing input: window size 2, the table of seed 1,
thresholds `2^28, 2^27` (probabilities 0.5 and 0.25), content `0, 0, 2, 2` and
`prepend_bytes = 0`.  The chunker returns the pairs `(3, 1), (4, 0)`, the chunker
without the lane-skipping optimisation returns `(3, 1)` only: after the boundary
at position 3 the skipped chunker 0 still holds the bytes at index 0 and 1, so at
position 4 its hash covers the bytes at index 1 and 3. -/
theorem lane_skipping_changes_output :
    ((RabinKarpMultiThresholdHash.init 2 ⟨example_table⟩ [2 ^ 28, 2 ^ 27]
        (fun _ _ => 0)).next_chunk_boundaries_with_thresholds [0, 0, 2, 2] 0).2 = [3, 1, 4, 0]
      ∧ ((RabinKarpMultiThresholdHash.init 2 ⟨example_table⟩ [2 ^ 28, 2 ^ 27]
        (fun _ _ => 0)).reference_next_chunk_boundaries_with_thresholds [0, 0, 2, 2] 0).2
        = [3, 1] := by
  decide!

/-- Claim C4, the code at a failing input: window size 3, the table of seed 1,
thresholds `2^28, 2^27`, `prepend_bytes = 0`, `A = 0, 0, 3`, `A' = 2, 2, 1` and
`S = 0`.  Both runs report a boundary of level 1 at the end of `A` resp. `A'`;
at offset 1 of `S` the run on `A' ++ S` reports a boundary of level 0 and the run
on `A ++ S` reports none. -/
theorem lower_level_boundary_depends_on_previous_chunk :
    ((RabinKarpMultiThresholdHash.init 3 ⟨example_table⟩ [2 ^ 28, 2 ^ 27]
        (fun _ _ => 0)).next_chunk_boundaries_with_thresholds ([0, 0, 3] ++ [0]) 0).2 = [3, 1]
      ∧ ((RabinKarpMultiThresholdHash.init 3 ⟨example_table⟩ [2 ^ 28, 2 ^ 27]
        (fun _ _ => 0)).next_chunk_boundaries_with_thresholds ([2, 2, 1] ++ [0]) 0).2
        = [3, 1, 4, 0] := by
  decide!

/-! ### Empty content and the buffer bounds -/

theorem update_head_in_bounds (self : RabinKarp) (b : Byte) (s : WindowState)
    (h : (s.window_head : Int) < self.window_size) :
    ((self._update b s).window_head : Int) < self.window_size := by
  simp only [RabinKarp._update]
  split
  · simp only [Nat.cast_zero]; omega
  · push_cast; omega

theorem checked_update_eq (self : RabinKarp) (b : Byte) (s : WindowState)
    (h : (s.window_head : Int) < self.window_size) :
    self.checked_update b s = some (self._update b s) := by
  rw [RabinKarp.checked_update, if_pos h]

theorem checked_update_zeros_eq (self : RabinKarp) :
    ∀ (count : Nat) (s : WindowState), (s.window_head : Int) < self.window_size →
      self.checked_update_zeros count s = some (self.update_zeros count s)
        ∧ ((self.update_zeros count s).window_head : Int) < self.window_size := by
  intro count
  induction count with
  | zero => intro s h; exact ⟨rfl, h⟩
  | succ n ih =>
    intro s h
    rw [RabinKarp.checked_update_zeros, checked_update_eq self 0 s h, RabinKarp.update_zeros]
    exact ih _ (update_head_in_bounds self 0 s h)

theorem RabinKarpHash.checked_prepend_loop_eq :
    ∀ (prepend_bytes : Nat) (self : RabinKarpHash),
      (self.window_head : Int) < self.window_size →
      RabinKarpHash.checked_prepend_loop prepend_bytes self =
          some (RabinKarpHash.prepend_loop prepend_bytes self)
        ∧ ((RabinKarpHash.prepend_loop prepend_bytes self).window_head : Int) <
          (RabinKarpHash.prepend_loop prepend_bytes self).window_size := by
  intro prepend_bytes
  induction prepend_bytes with
  | zero => intro self h; exact ⟨rfl, h⟩
  | succ n ih =>
    intro self h
    rw [RabinKarpHash.checked_prepend_loop, RabinKarpHash.checked_update,
      checked_update_eq self.toRabinKarp 0 self.toWindowState h, RabinKarpHash.prepend_loop]
    exact ih (self.update 0) (update_head_in_bounds self.toRabinKarp 0 self.toWindowState h)

namespace RabinKarpMultiThresholdHash

theorem checked_lanes_prepend_loop_eq (prepend_bytes : Nat) :
    ∀ (indices : List Nat) (self : RabinKarpMultiThresholdHash) (count : Nat),
      (∀ j, j ∈ indices → j < count) →
      (∀ j, j < count → (self.threshold_window_heads j : Int) < self.window_size) →
      checked_prepend_loop prepend_bytes indices self =
          some (prepend_loop prepend_bytes indices self)
        ∧ ∀ j, j < count →
          (((prepend_loop prepend_bytes indices self).threshold_window_heads j : Nat) : Int) <
            (prepend_loop prepend_bytes indices self).window_size := by
  intro indices
  induction indices with
  | nil => intro self count _ h; exact ⟨rfl, h⟩
  | cons t rest ih =>
    intro self count hmem h
    have ht := checked_update_zeros_eq self.toRabinKarp prepend_bytes (self.lane t)
      (h t (hmem t (List.mem_cons_self _ _)))
    rw [checked_prepend_loop, checked_update_zeros_lane, ht.1, prepend_loop]
    refine ih (self.update_zeros_lane t prepend_bytes) count
      (fun j hj => hmem j (List.mem_cons_of_mem _ hj)) ?_
    intro j hj
    show (((self.set_lane t
      (self.toRabinKarp.update_zeros prepend_bytes (self.lane t))).threshold_window_heads j : Nat)
        : Int) < self.window_size
    simp only [set_lane]
    by_cases hjt : j = t
    · subst hjt
      rw [Function.update_same]
      exact ht.2
    · rw [Function.update_noteq hjt]
      exact h j hj

end RabinKarpMultiThresholdHash

/-- Claim C11, amended: for every instance of either chunker whose window heads
lie within their buffers (`window_head < window_size`, hence `window_size >= 1`;
this holds for a fresh instance with `window_size >= 1` and is preserved) and
every `prepend_bytes`, the call on a zero-length content stays within the buffer
bounds, returns the empty list and leaves the heads within the buffers.  With
`prepend_bytes = 0` the call on a zero-length content accesses no buffer and
returns the empty list for every instance. -/
theorem empty_content_no_boundaries (single : RabinKarpHash)
    (multi : RabinKarpMultiThresholdHash) (p q : Nat)
    (hs : (single.window_head : Int) < single.window_size)
    (hm : ∀ j, j < multi.thresholds_count →
      (multi.threshold_window_heads j : Int) < multi.window_size) :
    single.checked_next_chunk_boundaries [] p = some (single.next_chunk_boundaries [] p)
      ∧ (single.next_chunk_boundaries [] p).2 = []
      ∧ ((single.next_chunk_boundaries [] p).1.window_head : Int) <
        (single.next_chunk_boundaries [] p).1.window_size
      ∧ multi.checked_next_chunk_boundaries_with_thresholds [] q =
        some (multi.next_chunk_boundaries_with_thresholds [] q)
      ∧ (multi.next_chunk_boundaries_with_thresholds [] q).2 = []
      ∧ (∀ j, j < multi.thresholds_count →
        (((multi.next_chunk_boundaries_with_thresholds [] q).1.threshold_window_heads j : Nat)
          : Int) < (multi.next_chunk_boundaries_with_thresholds [] q).1.window_size)
      ∧ (∀ s : RabinKarpHash, s.checked_next_chunk_boundaries [] 0 = some (s, []))
      ∧ (∀ s : RabinKarpMultiThresholdHash,
        s.checked_next_chunk_boundaries_with_thresholds [] 0 = some (s, [])) := by
  have h1 := RabinKarpHash.checked_prepend_loop_eq p single hs
  have h2 := RabinKarpMultiThresholdHash.checked_lanes_prepend_loop_eq q
    (List.range multi.thresholds_count) multi multi.thresholds_count
    (fun j hj => List.mem_range.mp hj) hm
  refine ⟨?_, rfl, h1.2, ?_, rfl, h2.2, ?_, ?_⟩
  · rw [RabinKarpHash.checked_next_chunk_boundaries, h1.1]
    rfl
  · rw [RabinKarpMultiThresholdHash.checked_next_chunk_boundaries_with_thresholds, h2.1]
    rfl
  · intro s
    rfl
  · intro s
    have hlane : ∀ (t : RabinKarpMultiThresholdHash) (i : Nat), t.set_lane i (t.lane i) = t := by
      intro t i
      simp [RabinKarpMultiThresholdHash.set_lane, RabinKarpMultiThresholdHash.lane]
    have h0 : ∀ (indices : List Nat) (t : RabinKarpMultiThresholdHash),
        RabinKarpMultiThresholdHash.checked_prepend_loop 0 indices t = some t := by
      intro indices
      induction indices with
      | nil => intro t; rfl
      | cons i rest ih =>
        intro t
        show RabinKarpMultiThresholdHash.checked_prepend_loop 0 rest (t.set_lane i (t.lane i)) =
          some t
        rw [hlane, ih]
    rw [RabinKarpMultiThresholdHash.checked_next_chunk_boundaries_with_thresholds, h0]
    rfl

theorem empty_content_no_boundaries_witness :
    (((RabinKarpHash.init 3 ⟨example_table⟩ (fun _ => 0) (2 ^ 28)).window_head : Nat) : Int) <
        (RabinKarpHash.init 3 ⟨example_table⟩ (fun _ => 0) (2 ^ 28)).window_size
      ∧ (∀ j, j < (RabinKarpMultiThresholdHash.init 3 ⟨example_table⟩ [2 ^ 28, 2 ^ 27]
          (fun _ _ => 0)).thresholds_count →
        (((RabinKarpMultiThresholdHash.init 3 ⟨example_table⟩ [2 ^ 28, 2 ^ 27]
          (fun _ _ => 0)).threshold_window_heads j : Nat) : Int) <
          (RabinKarpMultiThresholdHash.init 3 ⟨example_table⟩ [2 ^ 28, 2 ^ 27]
            (fun _ _ => 0)).window_size)
      ∧ ((RabinKarpHash.init 3 ⟨example_table⟩ (fun _ => 0)
          (2 ^ 28)).checked_next_chunk_boundaries [] 2).map Prod.snd = some []
      ∧ ((RabinKarpMultiThresholdHash.init 3 ⟨example_table⟩ [2 ^ 28, 2 ^ 27]
          (fun _ _ => 0)).checked_next_chunk_boundaries_with_thresholds [] 1).map Prod.snd
          = some [] :=
  ⟨by decide, fun _ _ => (by decide : ((0 : Nat) : Int) < 3),
    by
      rw [(empty_content_no_boundaries (RabinKarpHash.init 3 ⟨example_table⟩ (fun _ => 0) (2 ^ 28))
        (RabinKarpMultiThresholdHash.init 3 ⟨example_table⟩ [2 ^ 28, 2 ^ 27] (fun _ _ => 0)) 2 1
        (by decide) (fun _ _ => (by decide : ((0 : Nat) : Int) < 3))).1]
      rfl,
    by
      rw [(empty_content_no_boundaries (RabinKarpHash.init 3 ⟨example_table⟩ (fun _ => 0) (2 ^ 28))
        (RabinKarpMultiThresholdHash.init 3 ⟨example_table⟩ [2 ^ 28, 2 ^ 27] (fun _ _ => 0)) 2 1
        (by decide) (fun _ _ => (by decide : ((0 : Nat) : Int) < 3))).2.2.2.1]
      rfl⟩

/-- Claim C11 as stated fails for `window_size <= 0` and `prepend_bytes >= 1`: the
padding loop calls `_update`, whose access `window[window_head]` with
`window_head = 0` lies outside the buffer of `window_size` bytes, so the call on
a zero-length content returns no list.  Single-level chunker with window size
`-1` and `0`, hierarchical chunker with window size `0` and one threshold, each
fresh and called with `prepend_bytes = 1`. -/
theorem empty_content_padding_out_of_bounds :
    (RabinKarpHash.init (-1) ⟨example_table⟩ (fun _ => 0)
        (2 ^ 28)).checked_next_chunk_boundaries [] 1 = none
      ∧ (RabinKarpHash.init 0 ⟨example_table⟩ (fun _ => 0)
        (2 ^ 28)).checked_next_chunk_boundaries [] 1 = none
      ∧ (RabinKarpMultiThresholdHash.init 0 ⟨example_table⟩ [2 ^ 28]
        (fun _ _ => 0)).checked_next_chunk_boundaries_with_thresholds [] 1 = none :=
  ⟨rfl, rfl, rfl⟩

/-! ### The circular buffer -/

theorem update_head (ws : Nat) (T : Byte → Nat) (b : Byte) (s : WindowState)
    (h : s.window_head < ws) :
    ((RabinKarp.init ws ⟨T⟩)._update b s).window_head = (s.window_head + 1) % ws := by
  rw [update_eq]
  dsimp only
  split
  · next heq => rw [heq, Nat.mod_self]
  · rw [Nat.mod_eq_of_lt (by omega)]

theorem update_all_head (ws : Nat) (T : Byte → Nat) (bs : List Byte) :
    ∀ s : WindowState, s.window_head < ws →
      ((RabinKarp.init ws ⟨T⟩).update_all bs s).window_head = (s.window_head + bs.length) % ws := by
  induction bs with
  | nil => intro s h; simp [RabinKarp.update_all, Nat.mod_eq_of_lt h]
  | cons b bs ih =>
    intro s h
    have hlt : ((RabinKarp.init ws ⟨T⟩)._update b s).window_head < ws := by
      rw [update_head ws T b s h]
      exact Nat.mod_lt _ (by omega)
    have h2 := ih _ hlt
    rw [update_head ws T b s h] at h2
    simp only [RabinKarp.update_all, List.foldl_cons, List.length_cons] at h2 ⊢
    rw [h2, Nat.mod_add_mod]
    congr 1
    omega

/-- Claim C14: for every `window_size >= 1` and every byte sequence `b_1 .. b_n` fed
into a fresh window, after the `n` updates the level is `min n window_size`, the
head is `n mod window_size` (so it lies in `[0, window_size - 1]`), and when
`n >= window_size` the buffer holds `b_{n-window_size+1} .. b_n` with the oldest
at the head: `window[(head + k) mod window_size] = b_{n-window_size+1+k}` for
`k < window_size` (as a list index: `bs[n - window_size + k]`). -/
theorem ring_buffer_invariant (ws : Nat) (hws : 1 ≤ ws) (T : Byte → Nat) (window : Nat → Byte)
    (bs : List Byte) :
    ((RabinKarp.init ws ⟨T⟩).update_all bs ⟨0, window, 0, 0⟩).window_level = min bs.length ws
    ∧ ((RabinKarp.init ws ⟨T⟩).update_all bs ⟨0, window, 0, 0⟩).window_head = bs.length % ws
    ∧ ((RabinKarp.init ws ⟨T⟩).update_all bs ⟨0, window, 0, 0⟩).window_head < ws
    ∧ (ws ≤ bs.length → ∀ k, k < ws →
        bs[bs.length - ws + k]? =
          some (((RabinKarp.init ws ⟨T⟩).update_all bs ⟨0, window, 0, 0⟩).window
            ((((RabinKarp.init ws ⟨T⟩).update_all bs ⟨0, window, 0, 0⟩).window_head + k)
              % ws))) := by
  have h := (Tracks.fresh hws T window).update_all hws bs
  rw [List.append_nil] at h
  have hhead := update_all_head ws T bs ⟨0, window, 0, 0⟩ (by simpa using hws)
  simp only [Nat.zero_add] at hhead
  refine ⟨?_, hhead, h.head_lt, ?_⟩
  · rw [h.level_eq, List.length_reverse]
  · intro hn k hk
    have hw := h.window_eq (ws - 1 - k) (by rw [List.length_reverse]; omega) (by omega)
    rw [List.getElem?_reverse (by omega),
      show bs.length - 1 - (ws - 1 - k) = bs.length - ws + k by omega,
      show ((RabinKarp.init ws ⟨T⟩).update_all bs ⟨0, window, 0, 0⟩).window_head + ws - 1
        - (ws - 1 - k) =
        ((RabinKarp.init ws ⟨T⟩).update_all bs ⟨0, window, 0, 0⟩).window_head + k by omega] at hw
    exact hw

theorem ring_buffer_invariant_witness :
    1 ≤ 3 ∧ 3 ≤ [(1 : Byte), 3, 2, 3, 0].length ∧ 1 < 3 ∧
    ((RabinKarp.init ((3 : Nat) : Int) ⟨example_table⟩).update_all [1, 3, 2, 3, 0]
        ⟨0, fun _ => 0, 0, 0⟩).window_level = min [(1 : Byte), 3, 2, 3, 0].length 3
      ∧ ((RabinKarp.init ((3 : Nat) : Int) ⟨example_table⟩).update_all [1, 3, 2, 3, 0]
        ⟨0, fun _ => 0, 0, 0⟩).window_head = [(1 : Byte), 3, 2, 3, 0].length % 3
      ∧ [(1 : Byte), 3, 2, 3, 0][[(1 : Byte), 3, 2, 3, 0].length - 3 + 1]? =
        some (((RabinKarp.init ((3 : Nat) : Int) ⟨example_table⟩).update_all [1, 3, 2, 3, 0]
          ⟨0, fun _ => 0, 0, 0⟩).window
            ((((RabinKarp.init ((3 : Nat) : Int) ⟨example_table⟩).update_all [1, 3, 2, 3, 0]
              ⟨0, fun _ => 0, 0, 0⟩).window_head + 1) % 3)) :=
  ⟨by decide, by decide, by decide,
    (ring_buffer_invariant 3 (by decide) example_table (fun _ => 0) [1, 3, 2, 3, 0]).1,
    (ring_buffer_invariant 3 (by decide) example_table (fun _ => 0) [1, 3, 2, 3, 0]).2.1,
    (ring_buffer_invariant 3 (by decide) example_table (fun _ => 0) [1, 3, 2, 3, 0]).2.2.2
      (by decide) 1 (by decide)⟩

/-! ### The constructor of `RabinKarp` -/

theorem BtoN_loop_lt (n : Nat) : ∀ acc, acc < 2 ^ 29 → BtoN_loop (2 ^ 29 - 1) n acc < 2 ^ 29 := by
  induction n with
  | zero => intro acc h; exact h
  | succ n ih => intro acc _; exact ih _ (mask_lt _)

theorem maskfnc_eq (bits : Nat) (h1 : 1 ≤ bits) (h32 : bits ≤ 32) :
    maskfnc bits = 2 ^ bits - 1 := by
  interval_cases bits <;> decide

/-- Claim C20: for every `window_size >= 0`, after the construction of `RabinKarp`
`HASHMASK = maskfnc<uint32>(29) = 2^29 - 1` and `BtoN`, obtained by `window_size`
wrapping 32-bit multiplications by 37 each followed by masking, equals
`37^window_size mod 2^29`; and `maskfnc<uint32>(bits) = 2^bits - 1` for every
`1 <= bits <= 32`. -/
theorem constructor_postcondition (ws : Nat) (hasher : CharacterHash) :
    (RabinKarp.init ws hasher).HASHMASK = maskfnc 29
      ∧ maskfnc 29 = 2 ^ 29 - 1
      ∧ (RabinKarp.init ws hasher).BtoN = 37 ^ ws % 2 ^ 29
      ∧ ∀ bits, 1 ≤ bits → bits ≤ 32 → maskfnc bits = 2 ^ bits - 1 := by
  refine ⟨rfl, maskfnc_WORDSIZE, ?_, maskfnc_eq⟩
  have hlt := BtoN_loop_lt ws 1 (by norm_num)
  have hcast := cast_BtoN_loop ws 1
  simp only [RabinKarp.init, maskfnc_WORDSIZE, Int.toNat_ofNat]
  apply eq_mod_of_cast_eq hlt
  rw [hcast]
  push_cast
  ring

theorem constructor_postcondition_witness :
    1 ≤ 32 ∧ 32 ≤ 32 ∧ (RabinKarp.init ((4 : Nat) : Int) ⟨example_table⟩).BtoN = 37 ^ 4 % 2 ^ 29
      ∧ maskfnc 32 = 2 ^ 32 - 1 :=
  ⟨by decide, by decide, (constructor_postcondition 4 ⟨example_table⟩).2.2.1,
    (constructor_postcondition 4 ⟨example_table⟩).2.2.2 32 (by decide) (by decide)⟩

/-! ### Consecutive calls of the single-level chunker -/

theorem RabinKarpHash.content_loop_append (xs ys : List Byte) :
    ∀ (i : Nat) (self : RabinKarpHash) (results : List Nat),
      RabinKarpHash.content_loop (xs ++ ys) i self results =
        RabinKarpHash.content_loop ys (i + xs.length)
          (RabinKarpHash.content_loop xs i self results).1
          (RabinKarpHash.content_loop xs i self results).2 := by
  induction xs with
  | nil => intro i self results; rfl
  | cons x xs ih =>
    intro i self results
    rw [List.cons_append, RabinKarpHash.content_loop, ih, RabinKarpHash.content_loop,
      List.length_cons]
    congr 1
    omega

theorem RabinKarpHash.content_loop_shift (cs : List Byte) :
    ∀ (i : Nat) (self : RabinKarpHash) (results : List Nat),
      (RabinKarpHash.content_loop cs i self results).2 =
        results ++ (RabinKarpHash.content_loop cs 0 self []).2.map (fun pos => pos + i) := by
  induction cs with
  | nil => intro i self results; simp [RabinKarpHash.content_loop]
  | cons c cs ih =>
    intro i self results
    rw [RabinKarpHash.content_loop, ih (i + 1), RabinKarpHash.content_loop, ih (0 + 1)]
    by_cases hc : ((self.update c).window_level : Int) = (self.update c).window_size
        ∧ (self.update c).hashvalue < (self.update c).threshold
    · simp only [if_pos hc, List.nil_append, List.map_append, List.map_cons, List.map_nil,
        List.map_map, List.append_assoc, List.singleton_append, Nat.zero_add]
      congr 2
      · omega
      · apply List.map_congr_left
        intro pos _
        simp only [Function.comp_apply]
        omega
    · simp only [if_neg hc, List.nil_append, List.map_map, Nat.zero_add]
      congr 1
      apply List.map_congr_left
      intro pos _
      simp only [Function.comp_apply]
      omega

/-- Claim C19: calling `next_chunk_boundaries(A, p)` and then
`next_chunk_boundaries(B, 0)` on the same instance returns lists `L1` and `L2`
such that `L1` followed by `L2` with `|A|` added to each element is the list the
instance would have returned for `next_chunk_boundaries(A ++ B, p)`.  It holds
for every instance, in particular for a fresh one with `window_size >= 1`. -/
theorem next_chunk_boundaries_streaming (self : RabinKarpHash) (A B : List Byte) (p : Nat) :
    (self.next_chunk_boundaries A p).2 ++
        (((self.next_chunk_boundaries A p).1.next_chunk_boundaries B 0).2.map
          (fun pos => pos + A.length)) =
      (self.next_chunk_boundaries (A ++ B) p).2 := by
  simp only [RabinKarpHash.next_chunk_boundaries, RabinKarpHash.prepend_loop]
  rw [RabinKarpHash.content_loop_append, Nat.zero_add, RabinKarpHash.content_loop_shift B A.length]

namespace RabinKarpMultiThresholdHash

/-! ### The three parts of the loop body -/

theorem lane_update_required (b : Byte) (s : RabinKarpMultiThresholdHash) (j : Nat) :
    (s.update_required b).lane j =
      if s.least_restrictive_required_chunker_index ≤ j ∧ j < s.thresholds_count then
        s.toRabinKarp._update b (s.lane j)
      else s.lane j := by
  have h := (update_loop_spec b
    (required_indices s.thresholds_count s.least_restrictive_required_chunker_index)
    (required_indices_nodup _ _) (s.thresholds_count - 1) s).1 j
  simp only [mem_required_indices] at h
  exact h

theorem content_lengths_update_required (b : Byte) (s : RabinKarpMultiThresholdHash) (j : Nat) :
    (s.update_required b).threshold_content_lengths j =
      if s.least_restrictive_required_chunker_index ≤ j ∧ j < s.thresholds_count then
        s.threshold_content_lengths j + 1
      else s.threshold_content_lengths j := by
  have h := (update_loop_spec b
    (required_indices s.thresholds_count s.least_restrictive_required_chunker_index)
    (required_indices_nodup _ _) (s.thresholds_count - 1) s).2.1 j
  simp only [mem_required_indices] at h
  exact h

theorem index_update_required (b : Byte) (s : RabinKarpMultiThresholdHash) :
    ((s.update_required b).least_restrictive_required_chunker_index = s.thresholds_count - 1 ∧
        ∀ t, s.least_restrictive_required_chunker_index ≤ t → t < s.thresholds_count →
          s.window_size ≤ ((s.threshold_content_lengths t + 1 : Nat) : Int))
      ∨ (s.least_restrictive_required_chunker_index ≤
          (s.update_required b).least_restrictive_required_chunker_index ∧
        (s.update_required b).least_restrictive_required_chunker_index < s.thresholds_count ∧
        ((s.threshold_content_lengths
          (s.update_required b).least_restrictive_required_chunker_index + 1 : Nat) : Int)
            < s.window_size ∧
        ∀ t, s.least_restrictive_required_chunker_index ≤ t →
          t < (s.update_required b).least_restrictive_required_chunker_index →
          s.window_size ≤ ((s.threshold_content_lengths t + 1 : Nat) : Int)) := by
  have h := update_loop_new_least b
    (required_indices s.thresholds_count s.least_restrictive_required_chunker_index)
    (required_indices_pairwise _ _) (s.thresholds_count - 1) s
  simp only [mem_required_indices] at h
  rcases h with ⟨h1, h2⟩ | ⟨h1, h2, h3⟩
  · left
    exact ⟨h1, fun t ht1 ht2 => h2 t ⟨ht1, ht2⟩⟩
  · right
    refine ⟨h1.1, h1.2, h2, fun t ht1 ht2 => h3 t ⟨ht1, ?_⟩ ht2⟩
    have := h1.2
    show t < s.thresholds_count
    exact Nat.lt_trans ht2 this

theorem content_lengths_record_boundary (p m : Nat) (s : RabinKarpMultiThresholdHash) (j : Nat) :
    (s.record_boundary p m).threshold_content_lengths j =
      if j < m then 0 else s.threshold_content_lengths j := by
  have h1 := (reset_loop_spec p (List.range m) (List.nodup_range m) s).2.1 j
  have h2 := (reset_loop_spec p (List.range m) (List.nodup_range m) s).2.2
  have hR : (reset_loop p (List.range m) s).least_restrictive_required_chunker_index ∉
      List.range' m ((reset_loop p (List.range m) s).least_restrictive_required_chunker_index - m) := by
    rw [List.mem_range']
    rintro ⟨i, hi, heq⟩
    omega
  have h3 := (copy_loop_spec _ (List.nodup_range' m _) (reset_loop p (List.range m) s) hR).2.1
  simp only [List.mem_range] at h1
  rw [← h1]
  exact congrFun h3 j

theorem lane_record_boundary (p m : Nat) (s : RabinKarpMultiThresholdHash) (j : Nat) :
    (j < m → (s.record_boundary p m).lane j = s.toRabinKarp.update_zeros p (s.lane j))
    ∧ (m ≤ j → j < s.least_restrictive_required_chunker_index →
        ∃ w, (s.record_boundary p m).lane j =
            { s.lane s.least_restrictive_required_chunker_index with window := w }
          ∧ ∀ k : Nat, (k : Int) < s.window_size →
            w k = (s.lane s.least_restrictive_required_chunker_index).window k)
    ∧ (m ≤ j → s.least_restrictive_required_chunker_index ≤ j →
        (s.record_boundary p m).lane j = s.lane j) := by
  have h1 := (reset_loop_spec p (List.range m) (List.nodup_range m) s).1
  have h2 := (reset_loop_spec p (List.range m) (List.nodup_range m) s).2.2
  have hR : (reset_loop p (List.range m) s).least_restrictive_required_chunker_index ∉
      List.range' m ((reset_loop p (List.range m) s).least_restrictive_required_chunker_index - m) := by
    rw [List.mem_range']
    rintro ⟨i, hi, heq⟩
    omega
  have h3 := (copy_loop_spec _ (List.nodup_range' m _) (reset_loop p (List.range m) s) hR).1 j
  have hcfg := sameConfig_reset_loop p (List.range m) s
  have hlane : (s.record_boundary p m).lane j =
      (copy_loop (List.range' m
        ((reset_loop p (List.range m) s).least_restrictive_required_chunker_index - m))
        (reset_loop p (List.range m) s)).lane j := rfl
  rw [hlane, h3, h2]
  simp only [List.mem_range', List.mem_range] at *
  refine ⟨fun hj => ?_, fun hj1 hj2 => ?_, fun hj1 hj2 => ?_⟩
  · rw [if_neg (by rintro ⟨i, hi, heq⟩; omega), h1 j, if_pos hj]
  · rw [if_pos ⟨j - m, by omega, by omega⟩]
    have hsrc : (reset_loop p (List.range m) s).lane s.least_restrictive_required_chunker_index =
        s.lane s.least_restrictive_required_chunker_index := by
      rw [h1, if_neg (by omega)]
    rw [hsrc]
    refine ⟨_, rfl, fun k hk => ?_⟩
    have hws : (reset_loop p (List.range m) s).window_size = s.window_size := by
      rw [hcfg.base]
    rw [hws, if_pos hk]
  · rw [if_neg (by rintro ⟨i, hi, heq⟩; omega), h1 j, if_neg (by omega)]

end RabinKarpMultiThresholdHash

/-! ### One threshold -/

theorem RabinKarpMultiThresholdHash.trace_one_threshold (p : Nat) (cs : List Byte) :
    ∀ (i : Nat) (s : RabinKarpMultiThresholdHash) (single : RabinKarpHash),
      s.thresholds_count = 1 → s.least_restrictive_required_chunker_index = 0 →
      s.toRabinKarp = single.toRabinKarp → s.lane 0 = single.toWindowState →
      s.thresholds 0 = single.threshold →
      RabinKarpMultiThresholdHash.trace p cs i s =
        (RabinKarpHash.content_loop cs i single []).2.map (fun pos => (pos, 0)) := by
  induction cs with
  | nil => intro i s single _ _ _ _ _; rfl
  | cons b cs ih =>
    intro i s single hK hR hrk hlane hth
    have hcfg := RabinKarpMultiThresholdHash.sameConfig_update_required b s
    have hK1 : (s.update_required b).thresholds_count = 1 := by rw [hcfg.count, hK]
    have hR1 : (s.update_required b).least_restrictive_required_chunker_index = 0 := by
      rcases RabinKarpMultiThresholdHash.index_update_required b s with ⟨h, _⟩ | ⟨_, h, _⟩
      · rw [h, hK]
      · omega
    have hlane1 : (s.update_required b).lane 0 = (single.update b).toWindowState := by
      rw [RabinKarpMultiThresholdHash.lane_update_required, if_pos (by omega), hrk, hlane]
      rfl
    have hrk1 : (s.update_required b).toRabinKarp = (single.update b).toRabinKarp := by
      rw [hcfg.base, hrk]; rfl
    have hth1 : (s.update_required b).thresholds 0 = (single.update b).threshold := by
      rw [hcfg.thresholds, hth]; rfl
    have hlev : (s.update_required b).threshold_window_levels 0 = (single.update b).window_level :=
      congrArg WindowState.window_level hlane1
    have hhash : (s.update_required b).threshold_hashvalues 0 = (single.update b).hashvalue :=
      congrArg WindowState.hashvalue hlane1
    have hws : (s.update_required b).window_size = (single.update b).window_size := by
      rw [hrk1]
    have hmatch : (s.update_required b).matching_threshold_index =
        if ((single.update b).window_level : Int) = (single.update b).window_size
          ∧ (single.update b).hashvalue < (single.update b).threshold then some 0 else none := by
      rw [RabinKarpMultiThresholdHash.matching_threshold_index, hK1]
      simp only [List.range_succ, List.range_zero, List.nil_append,
        RabinKarpMultiThresholdHash.search_loop, hR1, Nat.max_self, hlev, hhash, hws, hth1]
      split
      · rfl
      · split <;> rfl
    rw [RabinKarpMultiThresholdHash.trace, RabinKarpHash.content_loop, hmatch]
    by_cases hc : ((single.update b).window_level : Int) = (single.update b).window_size
        ∧ (single.update b).hashvalue < (single.update b).threshold
    · simp only [if_pos hc, List.nil_append]
      have hcfg2 := RabinKarpMultiThresholdHash.sameConfig_record_boundary p 0
        (s.update_required b)
      rw [ih (i + 1) ((s.update_required b).record_boundary p 0) (single.update b)
        (by rw [hcfg2.count, hK1]) rfl (by rw [hcfg2.base, hrk1])
        (by rw [((s.update_required b).lane_record_boundary p 0 0).2.2 (le_refl _)
          (by omega), hlane1])
        (by rw [hcfg2.thresholds, hth1]),
        RabinKarpHash.content_loop_shift cs (i + 1) (single.update b) [i + 1],
        RabinKarpHash.content_loop_shift cs (i + 1) (single.update b) []]
      simp
    · simp only [if_neg hc]
      exact ih (i + 1) (s.update_required b) (single.update b) hK1 hR1 hrk1 hlane1 hth1

theorem RabinKarpMultiThresholdHash.one_threshold_eq (ws : Int) (hasher : CharacterHash)
    (theta : Nat) (windows : Nat → Nat → Byte) (c : List Byte) (p : Nat) :
    ((RabinKarpMultiThresholdHash.init ws hasher [theta]
        windows).next_chunk_boundaries_with_thresholds c p).2 =
      flatten_pairs (((RabinKarpHash.init ws hasher (windows 0) theta).next_chunk_boundaries c
        p).2.map (fun pos => (pos, 0))) := by
  rw [RabinKarpMultiThresholdHash.next_chunk_boundaries_with_thresholds_eq_trace,
    RabinKarpHash.next_chunk_boundaries]
  congr 1
  have hspec := RabinKarpMultiThresholdHash.prepend_loop_spec p (List.range 1)
    (List.nodup_range 1) (RabinKarpMultiThresholdHash.init ws hasher [theta] windows)
  have hcfg := RabinKarpMultiThresholdHash.sameConfig_prepend_loop p (List.range 1)
    (RabinKarpMultiThresholdHash.init ws hasher [theta] windows)
  refine RabinKarpMultiThresholdHash.trace_one_threshold p c 0 _ _ ?_ ?_ ?_ ?_ ?_
  · exact hcfg.count
  · exact hspec.2.2
  · rw [RabinKarpHash.prepend_loop_eq]
    exact hcfg.base
  · rw [RabinKarpHash.prepend_loop_eq]
    have h0 := hspec.1 0
    rw [if_pos (by simp)] at h0
    show (RabinKarpMultiThresholdHash.prepend_loop p (List.range 1)
      (RabinKarpMultiThresholdHash.init ws hasher [theta] windows)).lane 0 = _
    rw [h0, update_zeros_eq]
    rfl
  · rw [RabinKarpHash.prepend_loop_eq]
    show (RabinKarpMultiThresholdHash.prepend_loop p (List.range 1)
      (RabinKarpMultiThresholdHash.init ws hasher [theta] windows)).thresholds 0 = theta
    rw [hcfg.thresholds]
    rfl

/-- Claim C18: for every `window_size >= 1`, table, threshold, content and
`prepend_bytes`, a fresh hierarchical chunker built with a one-element threshold
list returns exactly the pairs `(pos, 0)` for `pos` ranging, in order, over the
list a fresh single-level chunker with that threshold returns; both for an
absolute threshold `theta` and for a relative threshold `q` resolved by
`_compute_threshold` (constructor) and `set_threshold`. -/
theorem one_threshold_degenerates (ws : Nat) (hws : 1 ≤ ws) (T : Byte → Nat) (theta : Nat)
    (q : ℚ) (window : Nat → Byte) (threshold0 : Nat) (windows : Nat → Nat → Byte) (c : List Byte)
    (p : Nat) :
    ((RabinKarpMultiThresholdHash.init ws ⟨T⟩ [theta]
        windows).next_chunk_boundaries_with_thresholds c p).2 =
      flatten_pairs (((RabinKarpHash.init ws ⟨T⟩ window theta).next_chunk_boundaries c
        p).2.map (fun pos => (pos, 0)))
    ∧ ((RabinKarpMultiThresholdHash.init ws ⟨T⟩
        ([q].map (RabinKarp.init ws ⟨T⟩)._compute_threshold)
        windows).next_chunk_boundaries_with_thresholds c p).2 =
      flatten_pairs ((((RabinKarpHash.init ws ⟨T⟩ window threshold0).set_threshold
        q).next_chunk_boundaries c p).2.map (fun pos => (pos, 0))) := by
  have key : ∀ th : Nat,
      ((RabinKarpMultiThresholdHash.init ws ⟨T⟩ [th]
        windows).next_chunk_boundaries_with_thresholds c p).2 =
      flatten_pairs (((RabinKarpHash.init ws ⟨T⟩ window th).next_chunk_boundaries c
        p).2.map (fun pos => (pos, 0))) := by
    intro th
    rw [RabinKarpMultiThresholdHash.one_threshold_eq, next_chunk_boundaries_eq ws hws,
      next_chunk_boundaries_eq ws hws]
  exact ⟨key theta, key _⟩

theorem one_threshold_degenerates_witness :
    1 ≤ 3 ∧
    ((RabinKarpMultiThresholdHash.init ((3 : Nat) : Int) ⟨example_table⟩ [2 ^ 28]
        (fun _ _ => 0)).next_chunk_boundaries_with_thresholds
          [1, 3, 2, 3, 0, 1, 2, 3, 0, 0, 1] 1).2 =
      [4, 0, 5, 0, 7, 0, 9, 0, 10, 0] :=
  ⟨by decide,
    (one_threshold_degenerates 3 (by decide) example_table (2 ^ 28) (1 / 2) (fun _ => 0) 0
      (fun _ _ => 0) [1, 3, 2, 3, 0, 1, 2, 3, 0, 0, 1] 1).1.trans (by decide!)⟩

namespace RabinKarpMultiThresholdHash

/-! ### The invariant of the skip index -/

theorem skipInv_init (ws : Int) (hasher : CharacterHash) (ths : List Nat)
    (windows : Nat → Nat → Byte) (hK : 1 ≤ ths.length) :
    SkipInv (init ws hasher ths windows) :=
  ⟨hK, fun _ _ _ _ => le_refl _, fun j hj => absurd hj (Nat.not_lt_zero j), Or.inl rfl⟩

theorem skipInv_prepend_loop (p : Nat) (s : RabinKarpMultiThresholdHash) (h : SkipInv s) :
    SkipInv (prepend_loop p (List.range s.thresholds_count) s) := by
  have hspec := prepend_loop_spec p (List.range s.thresholds_count) (List.nodup_range _) s
  have hcfg := sameConfig_prepend_loop p (List.range s.thresholds_count) s
  refine ⟨?_, ?_, ?_, ?_⟩
  · rw [hspec.2.2, hcfg.count]; exact h.index_lt
  · rw [hspec.2.1, hcfg.count]; exact h.mono
  · rw [hspec.2.2, hspec.2.1, hcfg.base]; exact h.skipped_full
  · rw [hspec.2.2, hcfg.count]; exact h.index_cases

theorem skipInv_update_required (b : Byte) (s : RabinKarpMultiThresholdHash) (h : SkipInv s) :
    SkipInv (s.update_required b) := by
  have hcfg := sameConfig_update_required b s
  have hcl := content_lengths_update_required b s
  have hws : (s.update_required b).window_size = s.window_size := by rw [hcfg.base]
  have hmono : ∀ j j', j ≤ j' → j' < (s.update_required b).thresholds_count →
      (s.update_required b).threshold_content_lengths j ≤
        (s.update_required b).threshold_content_lengths j' := by
    intro j j' hjj hj'
    rw [hcfg.count] at hj'
    have hm := h.mono j j' hjj hj'
    rw [hcl j, hcl j']
    by_cases h1 : s.least_restrictive_required_chunker_index ≤ j ∧ j < s.thresholds_count
    · rw [if_pos h1, if_pos ⟨by omega, hj'⟩]
      omega
    · rw [if_neg h1]
      split <;> omega
  have hidx := h.index_lt
  rcases index_update_required b s with ⟨h1, h2⟩ | ⟨h1, h2, h3, h4⟩
  · refine ⟨?_, hmono, ?_, Or.inr (by rw [h1, hcfg.count])⟩
    · rw [h1, hcfg.count]; omega
    · intro j hj
      rw [h1] at hj
      rw [hws, hcl j]
      by_cases hc : s.least_restrictive_required_chunker_index ≤ j
      · rw [if_pos ⟨hc, by omega⟩]
        exact h2 j hc (by omega)
      · rw [if_neg (by intro hh; exact hc hh.1)]
        exact h.skipped_full j (by omega)
  · have heq : (s.update_required b).least_restrictive_required_chunker_index =
        s.least_restrictive_required_chunker_index := by
      by_contra hne
      have hlt : s.least_restrictive_required_chunker_index <
          (s.update_required b).least_restrictive_required_chunker_index := by omega
      have := h4 _ (le_refl _) hlt
      have := h.mono _ _ h1 h2
      omega
    refine ⟨?_, hmono, ?_, ?_⟩
    · rw [heq, hcfg.count]; exact hidx
    · intro j hj
      rw [heq] at hj
      rw [hws, hcl j, if_neg (by intro hh; omega)]
      exact h.skipped_full j hj
    · rw [heq, hcfg.count]; exact h.index_cases

theorem skipInv_record_boundary (p m : Nat) (s : RabinKarpMultiThresholdHash) (h : SkipInv s) :
    SkipInv (s.record_boundary p m) := by
  have hcfg := sameConfig_record_boundary p m s
  have hcl := content_lengths_record_boundary p m s
  have hidx := h.index_lt
  have hR : (s.record_boundary p m).least_restrictive_required_chunker_index = 0 := rfl
  refine ⟨?_, ?_, ?_, Or.inl hR⟩
  · rw [hR, hcfg.count]; omega
  · intro j j' hjj hj'
    rw [hcfg.count] at hj'
    have hm := h.mono j j' hjj hj'
    rw [hcl j, hcl j']
    by_cases h1 : j < m
    · rw [if_pos h1]; exact Nat.zero_le _
    · rw [if_neg h1, if_neg (by omega)]; exact hm
  · intro j hj
    rw [hR] at hj
    exact absurd hj (Nat.not_lt_zero j)

theorem skipInv_process_byte (p i : Nat) (b : Byte) (s : RabinKarpMultiThresholdHash)
    (bs : List Nat) (h : SkipInv s) : SkipInv (process_byte p i b s bs).1 := by
  rw [process_byte]
  cases (s.update_required b).matching_threshold_index with
  | none => exact skipInv_update_required b s h
  | some m => exact skipInv_record_boundary p m _ (skipInv_update_required b s h)

theorem skipInv_content_loop (p : Nat) (cs : List Byte) :
    ∀ (i : Nat) (s : RabinKarpMultiThresholdHash) (bs : List Nat), SkipInv s →
      SkipInv (content_loop p cs i s bs).1 := by
  induction cs with
  | nil => intro i s bs h; exact h
  | cons b cs ih =>
    intro i s bs h
    rw [content_loop]
    exact ih _ _ _ (skipInv_process_byte p i b s bs h)

theorem skipInv_call (s : RabinKarpMultiThresholdHash) (c : List Byte) (p : Nat)
    (h : SkipInv s) : SkipInv (s.next_chunk_boundaries_with_thresholds c p).1 :=
  skipInv_content_loop p c 0 _ [] (skipInv_prepend_loop p s h)

theorem skipInv_after_calls (calls : List (List Byte × Nat)) :
    ∀ s : RabinKarpMultiThresholdHash, SkipInv s → SkipInv (s.after_calls calls) := by
  induction calls with
  | nil => intro s h; exact h
  | cons call calls ih =>
    intro s h
    exact ih _ (skipInv_call s call.1 call.2 h)

theorem sameConfig_call (s : RabinKarpMultiThresholdHash) (c : List Byte) (p : Nat) :
    SameConfig s (s.next_chunk_boundaries_with_thresholds c p).1 :=
  sameConfig_trans (sameConfig_prepend_loop p _ s) (sameConfig_content_loop p c 0 _ [])

theorem sameConfig_after_calls (calls : List (List Byte × Nat)) :
    ∀ s : RabinKarpMultiThresholdHash, SameConfig s (s.after_calls calls) := by
  induction calls with
  | nil => intro s; exact sameConfig_refl s
  | cons call calls ih =>
    intro s
    exact sameConfig_trans (sameConfig_call s call.1 call.2) (ih _)

theorem multi_content_loop_append (p : Nat) (xs ys : List Byte) :
    ∀ (i : Nat) (s : RabinKarpMultiThresholdHash) (bs : List Nat),
      content_loop p (xs ++ ys) i s bs =
        content_loop p ys (i + xs.length) (content_loop p xs i s bs).1
          (content_loop p xs i s bs).2 := by
  induction xs with
  | nil => intro i s bs; rfl
  | cons x xs ih =>
    intro i s bs
    rw [List.cons_append, content_loop, ih, content_loop, List.length_cons]
    congr 1
    omega

end RabinKarpMultiThresholdHash

/-- Claim C15: starting from a fresh hierarchical chunker with `K >= 1` thresholds,
for every content and `prepend_bytes`, before and after the processing of every
content byte (the instance after the first `|pre|` bytes of a content
`pre ++ post` is the instance after the call on `pre`) the skip index
`least_restrictive_required_chunker_index` lies in `[0, K - 1]` and every chunker
with a smaller index has a content length of at least `window_size`.  It holds
for every window size. -/
theorem skipped_lanes_full (ws : Int) (hasher : CharacterHash) (ths : List Nat)
    (hK : 1 ≤ ths.length) (windows : Nat → Nat → Byte) (pre post : List Byte) (p : Nat) :
    (RabinKarpMultiThresholdHash.init ws hasher ths
        windows).next_chunk_boundaries_with_thresholds (pre ++ post) p =
      RabinKarpMultiThresholdHash.content_loop p post pre.length
        ((RabinKarpMultiThresholdHash.init ws hasher ths
          windows).next_chunk_boundaries_with_thresholds pre p).1
        ((RabinKarpMultiThresholdHash.init ws hasher ths
          windows).next_chunk_boundaries_with_thresholds pre p).2
    ∧ ((RabinKarpMultiThresholdHash.init ws hasher ths
        windows).next_chunk_boundaries_with_thresholds pre
          p).1.least_restrictive_required_chunker_index < ths.length
    ∧ ∀ j, j < ((RabinKarpMultiThresholdHash.init ws hasher ths
        windows).next_chunk_boundaries_with_thresholds pre
          p).1.least_restrictive_required_chunker_index →
      ws ≤ (((RabinKarpMultiThresholdHash.init ws hasher ths
        windows).next_chunk_boundaries_with_thresholds pre
          p).1.threshold_content_lengths j : Int) := by
  have hinv := RabinKarpMultiThresholdHash.skipInv_call _ pre p
    (RabinKarpMultiThresholdHash.skipInv_init ws hasher ths windows hK)
  have hcfg := RabinKarpMultiThresholdHash.sameConfig_call
    (RabinKarpMultiThresholdHash.init ws hasher ths windows) pre p
  refine ⟨?_, ?_, ?_⟩
  · simp only [RabinKarpMultiThresholdHash.next_chunk_boundaries_with_thresholds]
    rw [RabinKarpMultiThresholdHash.multi_content_loop_append, Nat.zero_add]
  · have := hinv.index_lt
    rw [hcfg.count] at this
    exact this
  · intro j hj
    have := hinv.skipped_full j hj
    rw [hcfg.base] at this
    exact this

theorem skipped_lanes_full_witness :
    1 ≤ [2 ^ 28, 2 ^ 27].length
    ∧ 0 < ((RabinKarpMultiThresholdHash.init 2 ⟨example_table⟩ [2 ^ 28, 2 ^ 27]
        (fun _ _ => 0)).next_chunk_boundaries_with_thresholds [0, 0]
          0).1.least_restrictive_required_chunker_index
    ∧ ((RabinKarpMultiThresholdHash.init 2 ⟨example_table⟩ [2 ^ 28, 2 ^ 27]
        (fun _ _ => 0)).next_chunk_boundaries_with_thresholds [0, 0]
          0).1.least_restrictive_required_chunker_index < [2 ^ 28, 2 ^ 27].length
    ∧ (2 : Int) ≤ (((RabinKarpMultiThresholdHash.init 2 ⟨example_table⟩ [2 ^ 28, 2 ^ 27]
        (fun _ _ => 0)).next_chunk_boundaries_with_thresholds [0, 0]
          0).1.threshold_content_lengths 0 : Int) :=
  ⟨by decide, by decide!,
    (skipped_lanes_full 2 ⟨example_table⟩ [2 ^ 28, 2 ^ 27] (by decide) (fun _ _ => 0)
      [0, 0] [2, 2] 0).2.1,
    (skipped_lanes_full 2 ⟨example_table⟩ [2 ^ 28, 2 ^ 27] (by decide) (fun _ _ => 0)
      [0, 0] [2, 2] 0).2.2 0 (by decide!)⟩

/-- Claim C17: in a hierarchical chunker with `K >= 1` thresholds, after any number
of calls on one instance (so after every content byte of every call, whatever the
window size, thresholds, contents and `prepend_bytes`), the stored content lengths
are non-decreasing in the chunker index and the skip index
`least_restrictive_required_chunker_index` is `0` or `K - 1`: the next byte is
consumed by all `K` chunkers or by the last one only. -/
theorem skip_index_two_values (ws : Int) (hasher : CharacterHash) (ths : List Nat)
    (hK : 1 ≤ ths.length) (windows : Nat → Nat → Byte) (calls : List (List Byte × Nat)) :
    (∀ j j', j ≤ j' → j' < ths.length →
      ((RabinKarpMultiThresholdHash.init ws hasher ths windows).after_calls
        calls).threshold_content_lengths j ≤
      ((RabinKarpMultiThresholdHash.init ws hasher ths windows).after_calls
        calls).threshold_content_lengths j')
    ∧ (((RabinKarpMultiThresholdHash.init ws hasher ths windows).after_calls
        calls).least_restrictive_required_chunker_index = 0
      ∨ ((RabinKarpMultiThresholdHash.init ws hasher ths windows).after_calls
        calls).least_restrictive_required_chunker_index = ths.length - 1)
    ∧ (RabinKarpMultiThresholdHash.required_indices ths.length
        ((RabinKarpMultiThresholdHash.init ws hasher ths windows).after_calls
          calls).least_restrictive_required_chunker_index = (List.range ths.length).reverse
      ∨ RabinKarpMultiThresholdHash.required_indices ths.length
        ((RabinKarpMultiThresholdHash.init ws hasher ths windows).after_calls
          calls).least_restrictive_required_chunker_index = [ths.length - 1]) := by
  have hinv := RabinKarpMultiThresholdHash.skipInv_after_calls calls _
    (RabinKarpMultiThresholdHash.skipInv_init ws hasher ths windows hK)
  have hcfg := RabinKarpMultiThresholdHash.sameConfig_after_calls calls
    (RabinKarpMultiThresholdHash.init ws hasher ths windows)
  have hcount : ((RabinKarpMultiThresholdHash.init ws hasher ths windows).after_calls
      calls).thresholds_count = ths.length := hcfg.count
  have hcases := hinv.index_cases
  rw [hcount] at hcases
  refine ⟨?_, hcases, ?_⟩
  · intro j j' hjj hj'
    exact hinv.mono j j' hjj (by rw [hcount]; exact hj')
  · rcases hcases with h0 | h1
    · left
      rw [h0, RabinKarpMultiThresholdHash.required_indices, List.range_eq_range']
      rfl
    · right
      rw [h1, RabinKarpMultiThresholdHash.required_indices,
        show ths.length - (ths.length - 1) = 1 by omega]
      rfl

theorem skip_index_two_values_witness :
    1 ≤ [2 ^ 28, 2 ^ 27].length ∧ 0 ≤ 1 ∧ 1 < [2 ^ 28, 2 ^ 27].length
    ∧ ((RabinKarpMultiThresholdHash.init 2 ⟨example_table⟩ [2 ^ 28, 2 ^ 27]
        (fun _ _ => 0)).after_calls
          [([0, 0, 2], 0), ([2, 1], 1)]).threshold_content_lengths 0 ≤
      ((RabinKarpMultiThresholdHash.init 2 ⟨example_table⟩ [2 ^ 28, 2 ^ 27]
        (fun _ _ => 0)).after_calls
          [([0, 0, 2], 0), ([2, 1], 1)]).threshold_content_lengths 1
    ∧ (((RabinKarpMultiThresholdHash.init 2 ⟨example_table⟩ [2 ^ 28, 2 ^ 27]
        (fun _ _ => 0)).after_calls
          [([0, 0, 2], 0), ([2, 1], 1)]).least_restrictive_required_chunker_index = 0
      ∨ ((RabinKarpMultiThresholdHash.init 2 ⟨example_table⟩ [2 ^ 28, 2 ^ 27]
        (fun _ _ => 0)).after_calls
          [([0, 0, 2], 0), ([2, 1], 1)]).least_restrictive_required_chunker_index =
        [2 ^ 28, 2 ^ 27].length - 1) :=
  ⟨by decide, by decide, by decide,
    (skip_index_two_values 2 ⟨example_table⟩ [2 ^ 28, 2 ^ 27] (by decide) (fun _ _ => 0)
      [([0, 0, 2], 0), ([2, 1], 1)]).1 0 1 (by decide) (by decide),
    (skip_index_two_values 2 ⟨example_table⟩ [2 ^ 28, 2 ^ 27] (by decide) (fun _ _ => 0)
      [([0, 0, 2], 0), ([2, 1], 1)]).2.1⟩

namespace RabinKarpMultiThresholdHash

/-! ### The search with and without the early break -/

theorem exhaustive_loop_no_match (s : RabinKarpMultiThresholdHash) (l : List Nat) :
    ∀ acc : Option Nat, (∀ t ∈ l, ¬ s.threshold_matches t) → s.exhaustive_loop l acc = acc := by
  induction l with
  | nil => intro acc _; rfl
  | cons t l ih =>
    intro acc h
    rw [exhaustive_loop]
    have ht : ¬ s.threshold_matches t := h t (List.mem_cons_self _ _)
    rw [threshold_matches] at ht
    rw [if_neg ht]
    exact ih acc (fun j hj => h j (List.mem_cons_of_mem _ hj))

theorem search_loop_eq_exhaustive_loop (s : RabinKarpMultiThresholdHash) (l : List Nat) :
    ∀ acc : Option Nat,
      l.Pairwise (fun t j => ¬ s.threshold_matches t →
        s.window_size ≤ (s.threshold_content_lengths
          (max t s.least_restrictive_required_chunker_index) : Int) →
        ¬ s.threshold_matches j) →
      s.search_loop l acc = s.exhaustive_loop l acc := by
  induction l with
  | nil => intro acc _; rfl
  | cons t l ih =>
    intro acc h
    rw [List.pairwise_cons] at h
    rw [search_loop, exhaustive_loop]
    by_cases hm : (s.threshold_window_levels (max t s.least_restrictive_required_chunker_index)
        : Int) = s.window_size
        ∧ s.threshold_hashvalues (max t s.least_restrictive_required_chunker_index)
          < s.thresholds t
    · rw [if_pos hm, if_pos hm]
      exact ih _ h.2
    · rw [if_neg hm, if_neg hm]
      by_cases hstop : (s.threshold_content_lengths
          (max t s.least_restrictive_required_chunker_index) : Int) ≥ s.window_size
      · rw [if_pos hstop]
        exact (exhaustive_loop_no_match s l acc (fun j hj => h.1 j hj hm hstop)).symm
      · rw [if_neg hstop]
        exact ih _ h.2

theorem exhaustive_loop_eq_some (s : RabinKarpMultiThresholdHash) (l : List Nat) :
    ∀ (_ : l.Pairwise (fun a c => a < c)) (acc : Option Nat) (m : Nat),
      s.exhaustive_loop l acc = some m ↔
        (m ∈ l ∧ s.threshold_matches m ∧ ∀ j ∈ l, m < j → ¬ s.threshold_matches j)
          ∨ (acc = some m ∧ ∀ j ∈ l, ¬ s.threshold_matches j) := by
  induction l with
  | nil => intro _ acc m; simp [exhaustive_loop]
  | cons t l ih =>
    intro hl acc m
    rw [List.pairwise_cons] at hl
    rw [exhaustive_loop]
    by_cases hm : (s.threshold_window_levels (max t s.least_restrictive_required_chunker_index)
        : Int) = s.window_size
        ∧ s.threshold_hashvalues (max t s.least_restrictive_required_chunker_index)
          < s.thresholds t
    · have hmt : s.threshold_matches t := hm
      rw [if_pos hm, ih hl.2]
      constructor
      · rintro (⟨h1, h2, h3⟩ | ⟨h1, h2⟩)
        · left
          refine ⟨List.mem_cons_of_mem _ h1, h2, ?_⟩
          intro j hj hlt
          rcases List.mem_cons.mp hj with rfl | hj
          · have := hl.1 m h1
            omega
          · exact h3 j hj hlt
        · left
          injection h1 with h1
          subst h1
          refine ⟨List.mem_cons_self _ _, hmt, ?_⟩
          intro j hj hlt
          rcases List.mem_cons.mp hj with rfl | hj
          · omega
          · exact h2 j hj
      · rintro (⟨h1, h2, h3⟩ | ⟨_, h2⟩)
        · rcases List.mem_cons.mp h1 with rfl | h1
          · right
            exact ⟨rfl, fun j hj => h3 j (List.mem_cons_of_mem _ hj) (hl.1 j hj)⟩
          · left
            exact ⟨h1, h2, fun j hj hlt => h3 j (List.mem_cons_of_mem _ hj) hlt⟩
        · exact absurd hmt (h2 t (List.mem_cons_self _ _))
    · have hmt : ¬ s.threshold_matches t := hm
      rw [if_neg hm, ih hl.2]
      constructor
      · rintro (⟨h1, h2, h3⟩ | ⟨h1, h2⟩)
        · left
          refine ⟨List.mem_cons_of_mem _ h1, h2, ?_⟩
          intro j hj hlt
          rcases List.mem_cons.mp hj with rfl | hj
          · exact hmt
          · exact h3 j hj hlt
        · right
          refine ⟨h1, ?_⟩
          intro j hj
          rcases List.mem_cons.mp hj with rfl | hj
          · exact hmt
          · exact h2 j hj
      · rintro (⟨h1, h2, h3⟩ | ⟨h1, h2⟩)
        · rcases List.mem_cons.mp h1 with rfl | h1
          · exact absurd h2 hmt
          · left
            exact ⟨h1, h2, fun j hj hlt => h3 j (List.mem_cons_of_mem _ hj) hlt⟩
        · right
          exact ⟨h1, fun j hj => h2 j (List.mem_cons_of_mem _ hj)⟩

theorem exhaustive_loop_eq_none (s : RabinKarpMultiThresholdHash) (l : List Nat) :
    ∀ acc : Option Nat,
      s.exhaustive_loop l acc = none ↔ acc = none ∧ ∀ j ∈ l, ¬ s.threshold_matches j := by
  induction l with
  | nil => intro acc; simp [exhaustive_loop]
  | cons t l ih =>
    intro acc
    rw [exhaustive_loop]
    by_cases hm : (s.threshold_window_levels (max t s.least_restrictive_required_chunker_index)
        : Int) = s.window_size
        ∧ s.threshold_hashvalues (max t s.least_restrictive_required_chunker_index)
          < s.thresholds t
    · have hmt : s.threshold_matches t := hm
      rw [if_pos hm, ih]
      constructor
      · rintro ⟨h1, _⟩
        cases h1
      · rintro ⟨_, h2⟩
        exact absurd hmt (h2 t (List.mem_cons_self _ _))
    · have hmt : ¬ s.threshold_matches t := hm
      rw [if_neg hm, ih]
      constructor
      · rintro ⟨h1, h2⟩
        refine ⟨h1, ?_⟩
        intro j hj
        rcases List.mem_cons.mp hj with rfl | hj
        · exact hmt
        · exact h2 j hj
      · rintro ⟨h1, h2⟩
        exact ⟨h1, fun j hj => h2 j (List.mem_cons_of_mem _ hj)⟩

end RabinKarpMultiThresholdHash

namespace RabinKarpMultiThresholdHash

/-! ### The invariant of the chunkers during a run -/

theorem tracks_window_congr {ws : Nat} {T : Byte → Nat} {h : List Byte} {w : WindowState}
    (win : Nat → Byte) (ht : Tracks ws T h w) (hwin : ∀ k, k < ws → win k = w.window k) :
    Tracks ws T h { w with window := win } := by
  refine ⟨ht.head_lt, ht.level_eq, ht.hash_eq, ?_⟩
  intro k hk hkw
  rw [ht.window_eq k hk hkw]
  show some (w.window _) = some (win _)
  rw [hwin _ (Nat.mod_lt _ (by omega))]

theorem take_eq_of_le {h hist : List Byte} {n n' : Nat} (heq : h.take n = hist.take n)
    (hle : n' ≤ n) : h.take n' = hist.take n' := by
  have h1 : (h.take n).take n' = (hist.take n).take n' := by rw [heq]
  rw [List.take_take, List.take_take, Nat.min_eq_left hle] at h1
  exact h1

theorem tracks_full {ws : Nat} {T : Byte → Nat} {h hist : List Byte} {w : WindowState}
    (ht : Tracks ws T h w) (heq : h.take ws = hist.take ws) (hlen : ws ≤ h.length) :
    w.window_level = ws ∧ w.hashvalue = poly_hash T (hist.take ws) % 2 ^ 29 := by
  refine ⟨?_, ?_⟩
  · rw [ht.level_eq]; omega
  · rw [ht.hash_eq, heq]

theorem laneInv_update_required {ws : Nat} (hws : 1 ≤ ws) {T : Byte → Nat}
    {s : RabinKarpMultiThresholdHash} {hist : List Byte} (b : Byte) (h : LaneInv ws T s hist) :
    LaneInv ws T (s.update_required b) (b :: hist) := by
  have hcfg := sameConfig_update_required b s
  have hidx := h.skip.index_lt
  have hR : s.least_restrictive_required_chunker_index ≤
      (s.update_required b).least_restrictive_required_chunker_index := by
    rcases index_update_required b s with ⟨h1, _⟩ | ⟨h1, _⟩
    · rw [h1]; omega
    · exact h1
  refine ⟨skipInv_update_required b s h.skip, by rw [hcfg.base, h.base], ?_, ?_⟩
  · intro j hj
    rw [hcfg.count] at hj
    obtain ⟨hj0, htr, hpre⟩ := h.lanes j hj
    rw [lane_update_required, content_lengths_update_required]
    by_cases hc : s.least_restrictive_required_chunker_index ≤ j
    · rw [if_pos ⟨hc, hj⟩, if_pos ⟨hc, hj⟩, h.base]
      refine ⟨b :: hj0, htr.update hws b, fun _ => ?_⟩
      obtain ⟨h1, h2⟩ := hpre hc
      obtain ⟨n, hn⟩ : ∃ n, min (s.threshold_content_lengths j + 1) ws = n + 1 :=
        ⟨min (s.threshold_content_lengths j + 1) ws - 1, by omega⟩
      rw [hn, List.take_succ_cons, List.take_succ_cons,
        take_eq_of_le h1 (by omega : n ≤ min (s.threshold_content_lengths j) ws),
        List.length_cons]
      exact ⟨rfl, by omega⟩
    · rw [if_neg (fun hh => hc hh.1), if_neg (fun hh => hc hh.1)]
      exact ⟨hj0, htr, fun hle => absurd (Nat.le_trans hR hle) hc⟩
  · rw [hcfg.count, lane_update_required, if_pos ⟨by omega, by omega⟩, h.base]
    exact h.top.update hws b

theorem laneInv_record_boundary {ws : Nat} (hws : 1 ≤ ws) {T : Byte → Nat}
    {s : RabinKarpMultiThresholdHash} {hist : List Byte} (p m : Nat)
    (hm : m < s.thresholds_count) (h : LaneInv ws T s hist) :
    LaneInv ws T (s.record_boundary p m) hist := by
  have hcfg := sameConfig_record_boundary p m s
  have hidx := h.skip.index_lt
  have hwsz : s.window_size = (ws : Int) := by rw [h.base]; rfl
  refine ⟨skipInv_record_boundary p m s h.skip, by rw [hcfg.base, h.base], ?_, ?_⟩
  · intro j hj
    rw [hcfg.count] at hj
    obtain ⟨hj0, htr, hpre⟩ := h.lanes j hj
    rw [content_lengths_record_boundary]
    by_cases hjm : j < m
    · rw [(lane_record_boundary p m s j).1 hjm, if_pos hjm, update_zeros_eq, h.base]
      exact ⟨_, htr.update_all hws (List.replicate p 0), fun _ => by simp⟩
    · rw [if_neg hjm]
      by_cases hjR : j < s.least_restrictive_required_chunker_index
      · obtain ⟨w, hw1, hw2⟩ := (lane_record_boundary p m s j).2.1 (by omega) hjR
        obtain ⟨hR0, htrR, hpreR⟩ := h.lanes _ hidx
        obtain ⟨h1, h2⟩ := hpreR (le_refl _)
        have hsat := h.skip.skipped_full j hjR
        have hmono := h.skip.mono j _ (Nat.le_of_lt hjR) hidx
        rw [hwsz] at hsat
        have hsat' : ws ≤ s.threshold_content_lengths j := by exact_mod_cast hsat
        rw [hw1]
        refine ⟨hR0, tracks_window_congr w htrR (fun k hk => hw2 k (by rw [hwsz]; exact_mod_cast hk)),
          fun _ => ?_⟩
        rw [Nat.min_eq_right hsat']
        rw [Nat.min_eq_right (by omega)] at h1 h2
        exact ⟨h1, h2⟩
      · rw [(lane_record_boundary p m s j).2.2 (by omega) (by omega)]
        exact ⟨hj0, htr, fun _ => hpre (by omega)⟩
  · rw [hcfg.count, (lane_record_boundary p m s _).2.2 (by omega) (by omega)]
    exact h.top

theorem laneInv_prepend_loop_init {ws : Nat} (hws : 1 ≤ ws) (T : Byte → Nat) (ths : List Nat)
    (hK : 1 ≤ ths.length) (windows : Nat → Nat → Byte) (p : Nat) :
    LaneInv ws T (prepend_loop p (List.range ths.length) (init ws ⟨T⟩ ths windows))
      (List.replicate p 0) := by
  have hspec := prepend_loop_spec p (List.range ths.length) (List.nodup_range _)
    (init ws ⟨T⟩ ths windows)
  have hcfg := sameConfig_prepend_loop p (List.range ths.length) (init ws ⟨T⟩ ths windows)
  have hlane : ∀ j, j < ths.length →
      Tracks ws T (List.replicate p 0)
        ((prepend_loop p (List.range ths.length) (init ws ⟨T⟩ ths windows)).lane j) := by
    intro j hj
    rw [hspec.1 j, if_pos (List.mem_range.mpr hj), update_zeros_eq]
    have := (Tracks.fresh hws T (windows j)).update_all hws (List.replicate p 0)
    rw [List.append_nil, List.reverse_replicate] at this
    exact this
  refine ⟨skipInv_prepend_loop p _ (skipInv_init ws ⟨T⟩ ths windows hK), hcfg.base, ?_, ?_⟩
  · intro j hj
    rw [hcfg.count] at hj
    refine ⟨_, hlane j hj, fun _ => ?_⟩
    rw [hspec.2.1]
    exact ⟨rfl, by simp [init]⟩
  · rw [hcfg.count]
    exact hlane _ (by show ths.length - 1 < ths.length; omega)

theorem laneInv_content_loop {ws : Nat} (hws : 1 ≤ ws) {T : Byte → Nat} (p : Nat)
    (cs : List Byte) :
    ∀ (i : Nat) (s : RabinKarpMultiThresholdHash) (bs : List Nat) (hist : List Byte),
      LaneInv ws T s hist → LaneInv ws T (content_loop p cs i s bs).1 (cs.reverse ++ hist) := by
  induction cs with
  | nil => intro i s bs hist h; exact h
  | cons b cs ih =>
    intro i s bs hist h
    have h1 := laneInv_update_required hws b h
    have hstep : LaneInv ws T (process_byte p i b s bs).1 (b :: hist) := by
      rw [process_byte]
      cases hm : (s.update_required b).matching_threshold_index with
      | none => exact h1
      | some m =>
        exact laneInv_record_boundary hws p m (matching_threshold_index_some _ m hm).1 h1
    have := ih (i + 1) _ (process_byte p i b s bs).2 (b :: hist) hstep
    rw [content_loop, List.reverse_cons, List.append_assoc]
    exact this

end RabinKarpMultiThresholdHash

namespace RabinKarpMultiThresholdHash

/-! ### Soundness of the early exit -/

theorem laneInv_full_lane {ws : Nat} {T : Byte → Nat} {s : RabinKarpMultiThresholdHash}
    {hist : List Byte} (h : LaneInv ws T s hist) (j : Nat) (hj : j < s.thresholds_count)
    (hR : s.least_restrictive_required_chunker_index ≤ j)
    (hfull : ws ≤ s.threshold_content_lengths j) :
    s.threshold_window_levels j = ws
      ∧ s.threshold_hashvalues j = poly_hash T (hist.take ws) % 2 ^ 29 := by
  obtain ⟨h0, htr, hpre⟩ := h.lanes j hj
  obtain ⟨h1, h2⟩ := hpre hR
  rw [Nat.min_eq_right hfull] at h1 h2
  exact tracks_full htr h1 h2

theorem matching_eq_exhaustive {ws : Nat} {T : Byte → Nat} {s : RabinKarpMultiThresholdHash}
    {hist : List Byte} (h : LaneInv ws T s hist)
    (hth : ∀ t j, t ≤ j → j < s.thresholds_count → s.thresholds j ≤ s.thresholds t) :
    s.matching_threshold_index = s.exhaustive_matching_threshold_index := by
  have hwsz : s.window_size = (ws : Int) := by rw [h.base]; rfl
  have hidx := h.skip.index_lt
  rw [matching_threshold_index, exhaustive_matching_threshold_index]
  apply search_loop_eq_exhaustive_loop
  refine (List.pairwise_lt_range s.thresholds_count).imp_of_mem ?_
  intro t j ht hj hlt hnot hstop hmatch
  rw [List.mem_range] at ht hj
  rw [hwsz] at hstop
  have hstop' : ws ≤ s.threshold_content_lengths
      (max t s.least_restrictive_required_chunker_index) := by exact_mod_cast hstop
  have hut : max t s.least_restrictive_required_chunker_index < s.thresholds_count :=
    max_lt ht hidx
  have huj : max j s.least_restrictive_required_chunker_index < s.thresholds_count :=
    max_lt hj hidx
  have hle : max t s.least_restrictive_required_chunker_index ≤
      max j s.least_restrictive_required_chunker_index :=
    max_le_max (Nat.le_of_lt hlt) (le_refl _)
  have hmono := h.skip.mono _ _ hle huj
  obtain ⟨ht1, ht2⟩ := laneInv_full_lane h _ hut (le_max_right _ _) hstop'
  obtain ⟨hj1, hj2⟩ := laneInv_full_lane h _ huj (le_max_right _ _) (by omega)
  apply hnot
  obtain ⟨_, hm2⟩ := hmatch
  refine ⟨by rw [ht1, hwsz], ?_⟩
  rw [ht2, ← hj2]
  exact Nat.lt_of_lt_of_le hm2 (hth t j (Nat.le_of_lt hlt) hj)

theorem init_thresholds_antitone (ws : Int) (hasher : CharacterHash) (ths : List Nat)
    (windows : Nat → Nat → Byte) (hmono : ths.Pairwise (fun a c => c ≤ a)) (t j : Nat)
    (htj : t ≤ j) (hj : j < ths.length) :
    (init ws hasher ths windows).thresholds j ≤ (init ws hasher ths windows).thresholds t := by
  show ths.getD j 0 ≤ ths.getD t 0
  rw [List.getD_eq_getElem _ _ hj, List.getD_eq_getElem _ _ (by omega)]
  rcases Nat.eq_or_lt_of_le htj with rfl | hlt
  · exact le_refl _
  · exact List.pairwise_iff_getElem.mp hmono t j (by omega) hj hlt

theorem laneInv_call_init {ws : Nat} (hws : 1 ≤ ws) (T : Byte → Nat) (ths : List Nat)
    (hK : 1 ≤ ths.length) (windows : Nat → Nat → Byte) (c : List Byte) (p : Nat) :
    LaneInv ws T ((init ws ⟨T⟩ ths windows).next_chunk_boundaries_with_thresholds c p).1
      (c.reverse ++ List.replicate p 0) :=
  laneInv_content_loop hws p c 0 _ [] _ (laneInv_prepend_loop_init hws T ths hK windows p)

end RabinKarpMultiThresholdHash

/-- Claim C13: for a fresh hierarchical chunker with `window_size >= 1`, `K >= 1`
and thresholds non-increasing in the index, at every content byte `b` (after any
content `pre`) the level selected by the search with the early `break` is the
level the exhaustive search over `t = 0 .. K - 1` selects: the greatest `t` such
that the chunker `max(t, R)` has a full window and a hash value below
`thresholds[t]`; no boundary is recorded if and only if there is no such `t`. -/
theorem early_exit_sound (ws : Nat) (hws : 1 ≤ ws) (T : Byte → Nat) (ths : List Nat)
    (hK : 1 ≤ ths.length) (hmono : ths.Pairwise (fun a c => c ≤ a))
    (windows : Nat → Nat → Byte) (pre : List Byte) (b : Byte) (p : Nat) :
    (((RabinKarpMultiThresholdHash.init ws ⟨T⟩ ths
        windows).next_chunk_boundaries_with_thresholds pre p).1.update_required
          b).matching_threshold_index =
      (((RabinKarpMultiThresholdHash.init ws ⟨T⟩ ths
        windows).next_chunk_boundaries_with_thresholds pre p).1.update_required
          b).exhaustive_matching_threshold_index
    ∧ (∀ m, (((RabinKarpMultiThresholdHash.init ws ⟨T⟩ ths
        windows).next_chunk_boundaries_with_thresholds pre p).1.update_required
          b).matching_threshold_index = some m ↔
        m < ths.length
        ∧ (((RabinKarpMultiThresholdHash.init ws ⟨T⟩ ths
          windows).next_chunk_boundaries_with_thresholds pre p).1.update_required
            b).threshold_matches m
        ∧ ∀ j, m < j → j < ths.length →
          ¬ (((RabinKarpMultiThresholdHash.init ws ⟨T⟩ ths
            windows).next_chunk_boundaries_with_thresholds pre p).1.update_required
              b).threshold_matches j)
    ∧ ((((RabinKarpMultiThresholdHash.init ws ⟨T⟩ ths
        windows).next_chunk_boundaries_with_thresholds pre p).1.update_required
          b).matching_threshold_index = none ↔
        ∀ j, j < ths.length →
          ¬ (((RabinKarpMultiThresholdHash.init ws ⟨T⟩ ths
            windows).next_chunk_boundaries_with_thresholds pre p).1.update_required
              b).threshold_matches j) := by
  have hinv := RabinKarpMultiThresholdHash.laneInv_update_required hws b
    (RabinKarpMultiThresholdHash.laneInv_call_init hws T ths hK windows pre p)
  have hcfg := RabinKarpMultiThresholdHash.sameConfig_trans
    (RabinKarpMultiThresholdHash.sameConfig_call
      (RabinKarpMultiThresholdHash.init ws ⟨T⟩ ths windows) pre p)
    (RabinKarpMultiThresholdHash.sameConfig_update_required b _)
  have hcount : (((RabinKarpMultiThresholdHash.init ws ⟨T⟩ ths
      windows).next_chunk_boundaries_with_thresholds pre p).1.update_required
        b).thresholds_count = ths.length := hcfg.count
  have hth : ∀ t j, t ≤ j → j < (((RabinKarpMultiThresholdHash.init ws ⟨T⟩ ths
      windows).next_chunk_boundaries_with_thresholds pre p).1.update_required
        b).thresholds_count →
      (((RabinKarpMultiThresholdHash.init ws ⟨T⟩ ths
        windows).next_chunk_boundaries_with_thresholds pre p).1.update_required
          b).thresholds j ≤
      (((RabinKarpMultiThresholdHash.init ws ⟨T⟩ ths
        windows).next_chunk_boundaries_with_thresholds pre p).1.update_required
          b).thresholds t := by
    intro t j htj hj
    rw [hcount] at hj
    rw [hcfg.thresholds]
    exact RabinKarpMultiThresholdHash.init_thresholds_antitone ws ⟨T⟩ ths windows hmono t j htj hj
  have heq := RabinKarpMultiThresholdHash.matching_eq_exhaustive hinv hth
  refine ⟨heq, ?_, ?_⟩
  · intro m
    rw [heq, RabinKarpMultiThresholdHash.exhaustive_matching_threshold_index,
      RabinKarpMultiThresholdHash.exhaustive_loop_eq_some _ _ (List.pairwise_lt_range _), hcount]
    simp only [List.mem_range, false_and, or_false, reduceCtorEq]
    constructor
    · rintro ⟨h1, h2, h3⟩
      exact ⟨h1, h2, fun j hlt hj => h3 j hj hlt⟩
    · rintro ⟨h1, h2, h3⟩
      exact ⟨h1, h2, fun j hj hlt => h3 j hlt hj⟩
  · rw [heq, RabinKarpMultiThresholdHash.exhaustive_matching_threshold_index,
      RabinKarpMultiThresholdHash.exhaustive_loop_eq_none, hcount]
    simp only [List.mem_range, true_and]

/-! ### The most restrictive level -/

theorem RabinKarpHash.content_loop_positions (ws : Nat) (hws : 1 ≤ ws) (T : Byte → Nat)
    (theta : Nat) (cs : List Byte) :
    ∀ (i : Nat) (self : RabinKarpHash) (results : List Nat) (recent : List Byte),
      self.toRabinKarp = RabinKarp.init ws ⟨T⟩ → self.threshold = theta →
      Tracks ws T recent self.toWindowState →
      (RabinKarpHash.content_loop cs i self results).2 =
        results ++ window_positions T ws theta recent cs i := by
  induction cs with
  | nil => intro i self results recent _ _ _; simp [RabinKarpHash.content_loop, window_positions]
  | cons c cs ih =>
    intro i self results recent hrk hth htr
    have htr1 : Tracks ws T (c :: recent) (self.update c).toWindowState := by
      have := htr.update hws c
      simpa [RabinKarpHash.update, hrk] using this
    have hrk1 : (self.update c).toRabinKarp = RabinKarp.init ws ⟨T⟩ := by
      simpa [RabinKarpHash.update] using hrk
    have hth1 : (self.update c).threshold = theta := by
      simpa [RabinKarpHash.update] using hth
    have hcond : (((self.update c).window_level : Int) = (self.update c).window_size
        ∧ (self.update c).hashvalue < (self.update c).threshold) ↔
        (ws ≤ recent.length + 1 ∧ poly_hash T ((c :: recent).take ws) % 2 ^ 29 < theta) := by
      rw [hth1, htr1.hash_eq, htr1.level_eq, hrk1]
      simp only [RabinKarp.init, Nat.cast_inj, List.length_cons]
      constructor
      · rintro ⟨h1, h2⟩; exact ⟨by omega, h2⟩
      · rintro ⟨h1, h2⟩; exact ⟨by omega, h2⟩
    rw [RabinKarpHash.content_loop, ih (i + 1) (self.update c) _ (c :: recent) hrk1 hth1 htr1,
      window_positions]
    by_cases hc : ((self.update c).window_level : Int) = (self.update c).window_size
        ∧ (self.update c).hashvalue < (self.update c).threshold
    · rw [if_pos hc, if_pos (hcond.mp hc), List.append_assoc]
    · rw [if_neg hc, if_neg (fun h => hc (hcond.mpr h)), List.nil_append]

namespace RabinKarpMultiThresholdHash

theorem top_threshold_matches {ws : Nat} {T : Byte → Nat} {s : RabinKarpMultiThresholdHash}
    {hist : List Byte} (h : LaneInv ws T s hist) :
    s.threshold_matches (s.thresholds_count - 1) ↔
      (ws ≤ hist.length ∧
        poly_hash T (hist.take ws) % 2 ^ 29 < s.thresholds (s.thresholds_count - 1)) := by
  have hidx := h.skip.index_lt
  have hwsz : s.window_size = (ws : Int) := by rw [h.base]; rfl
  have hmax : max (s.thresholds_count - 1) s.least_restrictive_required_chunker_index =
      s.thresholds_count - 1 := max_eq_left (by omega)
  have hlev : s.threshold_window_levels (s.thresholds_count - 1) = min hist.length ws :=
    h.top.level_eq
  have hhash : s.threshold_hashvalues (s.thresholds_count - 1) =
      poly_hash T (hist.take ws) % 2 ^ 29 := h.top.hash_eq
  rw [threshold_matches, hmax, hlev, hhash, hwsz, Nat.cast_inj]
  constructor
  · rintro ⟨h1, h2⟩; exact ⟨by omega, h2⟩
  · rintro ⟨h1, h2⟩; exact ⟨by omega, h2⟩

theorem trace_top_level {ws : Nat} (hws : 1 ≤ ws) {T : Byte → Nat} (p theta count : Nat)
    (cs : List Byte) :
    ∀ (i : Nat) (s : RabinKarpMultiThresholdHash) (hist : List Byte), LaneInv ws T s hist →
      (∀ t j, t ≤ j → j < s.thresholds_count → s.thresholds j ≤ s.thresholds t) →
      s.thresholds_count = count → s.thresholds (count - 1) = theta →
      ((trace p cs i s).filter (fun pr => decide (pr.2 = count - 1))).map Prod.fst =
        window_positions T ws theta hist cs i := by
  induction cs with
  | nil => intro i s hist _ _ _ _; rfl
  | cons b cs ih =>
    intro i s hist h hth hcount htheta
    have h1 := laneInv_update_required hws b h
    have hcfg := sameConfig_update_required b s
    have hcount1 : (s.update_required b).thresholds_count = count := by rw [hcfg.count, hcount]
    have hth1 : ∀ t j, t ≤ j → j < (s.update_required b).thresholds_count →
        (s.update_required b).thresholds j ≤ (s.update_required b).thresholds t := by
      intro t j htj hj
      rw [hcfg.count] at hj
      rw [hcfg.thresholds]
      exact hth t j htj hj
    have htheta1 : (s.update_required b).thresholds (count - 1) = theta := by
      rw [hcfg.thresholds, htheta]
    have htop := top_threshold_matches h1
    rw [hcount1, htheta1, List.length_cons] at htop
    have heq := matching_eq_exhaustive h1 hth1
    rw [trace, window_positions]
    cases hm : (s.update_required b).matching_threshold_index with
    | none =>
      have hnone := (exhaustive_loop_eq_none (s.update_required b)
        (List.range (s.update_required b).thresholds_count) none).mp (by
          rw [← exhaustive_matching_threshold_index, ← heq, hm])
      have hnot : ¬ (s.update_required b).threshold_matches (count - 1) :=
        hnone.2 _ (List.mem_range.mpr (by rw [hcount1]; have := h1.skip.index_lt; omega))
      rw [if_neg (fun hc => hnot (htop.mpr hc)), List.nil_append]
      exact ih (i + 1) _ (b :: hist) h1 hth1 hcount1 htheta1
    | some m =>
      have hsome := (exhaustive_loop_eq_some (s.update_required b)
        (List.range (s.update_required b).thresholds_count) (List.pairwise_lt_range _) none
        m).mp (by rw [← exhaustive_matching_threshold_index, ← heq, hm])
      have hmlt := (matching_threshold_index_some _ m hm).1
      have h2 := laneInv_record_boundary hws p m hmlt h1
      have hcfg2 := sameConfig_record_boundary p m (s.update_required b)
      have hrest := ih (i + 1) ((s.update_required b).record_boundary p m) (b :: hist) h2
        (by
          intro t j htj hj
          rw [hcfg2.count] at hj
          rw [hcfg2.thresholds]
          exact hth1 t j htj hj)
        (by rw [hcfg2.count, hcount1]) (by rw [hcfg2.thresholds, htheta1])
      rcases hsome with ⟨hmem, hmatch, hgreater⟩ | ⟨hcontra, _⟩
      · rw [hcount1] at hmlt
        rw [List.filter_cons]
        by_cases hmtop : m = count - 1
        · subst hmtop
          rw [if_pos (by simp), if_pos (htop.mp hmatch), List.map_cons, hrest]
          rfl
        · have hnot : ¬ (s.update_required b).threshold_matches (count - 1) :=
            hgreater _ (List.mem_range.mpr (by rw [hcount1]; omega)) (by omega)
          rw [if_neg (by simpa using hmtop), if_neg (fun hc => hnot (htop.mpr hc)),
            List.nil_append, hrest]
      · cases hcontra

end RabinKarpMultiThresholdHash

/-- Claim C16: for `window_size >= 1`, `K >= 1`, thresholds non-increasing in the
index and every content and `prepend_bytes`, the positions a fresh hierarchical
chunker reports with level `K - 1` are exactly, in order, the positions a fresh
single-level chunker with the same window size, table and `prepend_bytes` and
with the threshold `thresholds[K - 1]` reports. -/
theorem top_level_is_single_level (ws : Nat) (hws : 1 ≤ ws) (T : Byte → Nat) (ths : List Nat)
    (hK : 1 ≤ ths.length) (hmono : ths.Pairwise (fun a c => c ≤ a))
    (windows : Nat → Nat → Byte) (window : Nat → Byte) (c : List Byte) (p : Nat) :
    ((pairs ((RabinKarpMultiThresholdHash.init ws ⟨T⟩ ths
        windows).next_chunk_boundaries_with_thresholds c p).2).filter
          (fun pr => decide (pr.2 = ths.length - 1))).map Prod.fst =
      ((RabinKarpHash.init ws ⟨T⟩ window (ths.getD (ths.length - 1) 0)).next_chunk_boundaries c
        p).2 := by
  have hsingle : Tracks ws T (List.replicate p 0)
      (RabinKarpHash.prepend_loop p
        (RabinKarpHash.init ws ⟨T⟩ window (ths.getD (ths.length - 1) 0))).toWindowState := by
    have h := (Tracks.fresh hws T window).update_all hws (List.replicate p 0)
    rw [List.append_nil, List.reverse_replicate] at h
    rw [RabinKarpHash.prepend_loop_eq]
    exact h
  rw [RabinKarpMultiThresholdHash.next_chunk_boundaries_with_thresholds_eq_trace,
    RabinKarpMultiThresholdHash.pairs_flatten_pairs, RabinKarpHash.next_chunk_boundaries,
    RabinKarpHash.content_loop_positions ws hws T (ths.getD (ths.length - 1) 0) c 0 _ []
      (List.replicate p 0) (by rw [RabinKarpHash.prepend_loop_eq]; rfl)
      (by rw [RabinKarpHash.prepend_loop_eq]; rfl) hsingle,
    List.nil_append]
  have hcfg := RabinKarpMultiThresholdHash.sameConfig_prepend_loop p
    (List.range (RabinKarpMultiThresholdHash.init ws ⟨T⟩ ths windows).thresholds_count)
    (RabinKarpMultiThresholdHash.init ws ⟨T⟩ ths windows)
  refine RabinKarpMultiThresholdHash.trace_top_level hws p _ ths.length c 0 _ _
    (RabinKarpMultiThresholdHash.laneInv_prepend_loop_init hws T ths hK windows p) ?_ ?_ ?_
  · intro t j htj hj
    rw [hcfg.count] at hj
    rw [hcfg.thresholds]
    exact RabinKarpMultiThresholdHash.init_thresholds_antitone ws ⟨T⟩ ths windows hmono t j htj hj
  · exact hcfg.count
  · rw [hcfg.thresholds]
    rfl

/-- Witness for C13: window size 2, the table of seed 1, thresholds `2^28, 2^27`,
after the content `0, 0, 2` at the byte `2`. -/
theorem early_exit_sound_witness :
    1 ≤ 2 ∧ 1 ≤ [2 ^ 28, 2 ^ 27].length
      ∧ [2 ^ 28, 2 ^ 27].Pairwise (fun a c => c ≤ a)
      ∧ (((RabinKarpMultiThresholdHash.init ((2 : Nat) : Int) ⟨example_table⟩ [2 ^ 28, 2 ^ 27]
          (fun _ _ => 0)).next_chunk_boundaries_with_thresholds [0, 0, 2] 0).1.update_required
            2).matching_threshold_index =
        (((RabinKarpMultiThresholdHash.init ((2 : Nat) : Int) ⟨example_table⟩ [2 ^ 28, 2 ^ 27]
          (fun _ _ => 0)).next_chunk_boundaries_with_thresholds [0, 0, 2] 0).1.update_required
            2).exhaustive_matching_threshold_index :=
  ⟨by decide, by decide, by decide,
    (early_exit_sound 2 (by decide) example_table [2 ^ 28, 2 ^ 27] (by decide) (by decide)
      (fun _ _ => 0) [0, 0, 2] 2 0).1⟩

/-- Witness for C16: window size 2, the table of seed 1, thresholds `2^28, 2^27`,
content `0, 0, 2, 2` and no padding. -/
theorem top_level_is_single_level_witness :
    1 ≤ 2 ∧ 1 ≤ [2 ^ 28, 2 ^ 27].length
      ∧ [2 ^ 28, 2 ^ 27].Pairwise (fun a c => c ≤ a)
      ∧ ((pairs ((RabinKarpMultiThresholdHash.init ((2 : Nat) : Int) ⟨example_table⟩
          [2 ^ 28, 2 ^ 27] (fun _ _ => 0)).next_chunk_boundaries_with_thresholds [0, 0, 2, 2]
            0).2).filter (fun pr => decide (pr.2 = [2 ^ 28, 2 ^ 27].length - 1))).map Prod.fst =
        ((RabinKarpHash.init ((2 : Nat) : Int) ⟨example_table⟩ (fun _ => 0)
          ([2 ^ 28, 2 ^ 27].getD ([2 ^ 28, 2 ^ 27].length - 1) 0)).next_chunk_boundaries
            [0, 0, 2, 2] 0).2 :=
  ⟨by decide, by decide, by decide,
    top_level_is_single_level 2 (by decide) example_table [2 ^ 28, 2 ^ 27] (by decide)
      (by decide) (fun _ _ => 0) (fun _ => 0) [0, 0, 2, 2] 0⟩

/-! ### The reset of the less restrictive chunkers -/

/-- Claim C12, the code at a failing input: window size 3, the table of seed 1,
thresholds `2^28, 2^27`, `prepend_bytes = 1`.  The call on the content `0, 3`
records a boundary of level 1 at position 2.  Afterwards chunker 0 has
`content_length` 0 but fill level 3 and hash value 321092714, whereas a freshly
constructed window that has consumed one zero byte has fill level 1 and hash
value 180483109.  The call on the content `1, 2` records the same boundary and
leaves the hash value 386677780: the state after the reset depends on the bytes
consumed before the boundary. -/
theorem lane_reset_keeps_window :
    ((RabinKarpMultiThresholdHash.init 3 ⟨example_table⟩ [2 ^ 28, 2 ^ 27]
        (fun _ _ => 0)).next_chunk_boundaries_with_thresholds [0, 3] 1).2 = [2, 1]
      ∧ ((RabinKarpMultiThresholdHash.init 3 ⟨example_table⟩ [2 ^ 28, 2 ^ 27]
        (fun _ _ => 0)).next_chunk_boundaries_with_thresholds [0, 3] 1).1.threshold_content_lengths
          0 = 0
      ∧ ((RabinKarpMultiThresholdHash.init 3 ⟨example_table⟩ [2 ^ 28, 2 ^ 27]
        (fun _ _ => 0)).next_chunk_boundaries_with_thresholds [0, 3] 1).1.threshold_window_levels
          0 = 3
      ∧ ((RabinKarpMultiThresholdHash.init 3 ⟨example_table⟩ [2 ^ 28, 2 ^ 27]
        (fun _ _ => 0)).next_chunk_boundaries_with_thresholds [0, 3] 1).1.threshold_hashvalues
          0 = 321092714
      ∧ ((RabinKarp.init 3 ⟨example_table⟩).update_zeros 1 ⟨0, fun _ => 0, 0, 0⟩).window_level = 1
      ∧ ((RabinKarp.init 3 ⟨example_table⟩).update_zeros 1 ⟨0, fun _ => 0, 0, 0⟩).hashvalue
          = 180483109
      ∧ ((RabinKarpMultiThresholdHash.init 3 ⟨example_table⟩ [2 ^ 28, 2 ^ 27]
        (fun _ _ => 0)).next_chunk_boundaries_with_thresholds [1, 2] 1).2 = [2, 1]
      ∧ ((RabinKarpMultiThresholdHash.init 3 ⟨example_table⟩ [2 ^ 28, 2 ^ 27]
        (fun _ _ => 0)).next_chunk_boundaries_with_thresholds [1, 2] 1).1.threshold_hashvalues
          0 = 386677780 := by
  decide!

end FastChunking
